import Mathlib

/-!
Formal model of the usb-tree topology assembler (src/usb-tree.ts) and its
query layer, with proofs of the specification's testable properties.

Modelling conventions:
* JavaScript `Map<string, USBDevice>` objects are modelled as insertion-ordered
  association lists `List (String × USBDevice)`.  `Map.get` is `mget`
  (first matching key), `Map.set` is `mset` (in-place update of an existing
  key, append otherwise) — exactly the JS insertion-order semantics.
* JS object references are modelled by map keys: a `children` list holds the
  map keys of the child device objects, and `comPortMap` holds the map key of
  the referenced device.  All mutations of a device object go through `mset`
  on its key, which is faithful as long as distinct live objects have
  distinct keys (the well-formedness hypotheses of the theorems below ensure
  this, and it holds for every collection the acquisition layer can produce).
* `console.log` diagnostics are collected in a returned `logs : List String`.
* The two recursive traversals (`buildPortChain` and the synthesis loop over
  a growing `Map`) take an explicit fuel argument; the fuel chosen in
  `buildUSBTree` is proved sufficient below, so the model computes exactly
  what the (terminating) JS code computes.
* `buildUSBTree` in the source first calls the acquisition layer
  (`getUSBTreeData`) and then assembles; the model takes the acquisition
  result — the `devices` and `comPorts` collections — as its input, since
  acquisition (process invocation, text parsing) is out of scope.
-/

/-- Stable insertion of `x` into `l`: `x` goes in front of the first element
`y` with `le x y` (ties keep the earlier element first). -/
def insLe {α : Type} (le : α → α → Bool) (x : α) : List α → List α
  | [] => [x]
  | y :: ys => if le x y then x :: y :: ys else y :: insLe le x ys

/-- Stable insertion sort; extensionally equal to JS `Array.prototype.sort`
with a consistent comparator `c` when `le a b = (c a b ≤ 0)`, because the
stable sorted permutation under a total preorder is unique. -/
def sortByLe {α : Type} (le : α → α → Bool) : List α → List α
  | [] => []
  | x :: xs => insLe le x (sortByLe le xs)

/-- Association-list lookup, first match wins (JS `Map.get`). -/
def mget {α : Type} : List (String × α) → String → Option α
  | [], _ => none
  | (k, v) :: rest, key => if k = key then some v else mget rest key

/-- Association-list update: replaces the first entry with this key in place,
appends a new entry otherwise (JS `Map.set` insertion-order semantics). -/
def mset {α : Type} : List (String × α) → String → α → List (String × α)
  | [], key, v => [(key, v)]
  | (k, w) :: rest, key, v =>
      if k = key then (key, v) :: rest else (k, w) :: mset rest key v

/-- Keys of the map, in insertion order. -/
def mkeys {α : Type} (m : List (String × α)) : List String := m.map (·.1)

/-- Values of the map, in insertion order (JS `Map.values()`). -/
def mvals {α : Type} (m : List (String × α)) : List α := m.map (·.2)

/-- Numeric value of a list of decimal digit characters. -/
def digitsVal (cs : List Char) : Nat :=
  cs.foldl (fun a c => a * 10 + (c.toNat - 48)) 0

/-- Model of JS `parseInt(s)` (radix 10): skip whitespace, optional sign,
longest digit run; `none` models `NaN`. -/
def jsParseInt (cs0 : List Char) : Option Int :=
  let cs1 := cs0.dropWhile Char.isWhitespace
  let signAndRest : Int × List Char :=
    match cs1 with
    | '-' :: rest => (-1, rest)
    | '+' :: rest => (1, rest)
    | cs => (1, cs)
  let ds := signAndRest.2.takeWhile Char.isDigit
  if ds = [] then none else some (signAndRest.1 * (digitsVal ds : Int))

/-- Drop the first occurrence of the substring "COM"
(JS `s.replace('COM', '')` replaces only the first occurrence). -/
def stripCOM : List Char → List Char
  | 'C' :: 'O' :: 'M' :: rest => rest
  | c :: rest => c :: stripCOM rest
  | [] => []

/-- The numeric key used for sorting COM ports:
`parseInt(port.replace('COM', ''))`. -/
def comNumOf (port : String) : Option Int := jsParseInt (stripCOM port.data)

/-- JS comparator `parseInt(a) - parseInt(b)` on COM labels; a `NaN` result is
treated as `+0` by `Array.prototype.sort`. -/
def comCmp (a b : String) : Int :=
  match comNumOf a, comNumOf b with
  | some x, some y => x - y
  | _, _ => 0

/-- Model of JS `s.split('-')` on the character list (splits at every
hyphen; an empty string yields one empty piece). -/
def splitHy : List Char → List (List Char)
  | [] => [[]]
  | c :: cs =>
      if c = '-' then [] :: splitHy cs
      else
        match splitHy cs with
        | [] => [[c]]
        | h :: t => (c :: h) :: t

/-- Model of JS `Number(s)` on the strings that port chains are made of:
the empty string is `0`, a run of decimal digits is its value, anything else
is `NaN` (`none`).  Assembled port chains only ever contain empty or
all-digit components, on which this agrees with full `Number` semantics. -/
def jsNumber (cs : List Char) : Option Int :=
  if cs = [] then some 0
  else if cs.all Char.isDigit then some (digitsVal cs : Int) else none

/-- Parsed components of a port chain: `chain.split('-').map(Number)`. -/
def chainParts (s : String) : List (Option Int) := (splitHy s.data).map jsNumber

/-- The comparator loop of `getDevicesByPortChainPrefix`: compare components
left to right, a missing component is `0` (`partsA[i] ?? 0`), the first
strict difference decides, any comparison involving `NaN` returns `NaN`
(treated as `+0`, i.e. a tie, by the sort).  Split into structurally
recursive pieces: `cmpNilR` is the comparator tail once the right side has
run out (its components read as the padded `0`). -/
def cmpNilR : List (Option Int) → Int
  | [] => 0
  | a :: as =>
      match a with
      | some x => if x ≠ 0 then x else cmpNilR as
      | none => 0

/-- The comparator tail once the left side has run out (its components read
as the padded `0`). -/
def cmpNilL : List (Option Int) → Int
  | [] => 0
  | b :: bs =>
      match b with
      | some y => if y ≠ 0 then -y else cmpNilL bs
      | none => 0

def cmpParts : List (Option Int) → List (Option Int) → Int
  | [], bs => cmpNilL bs
  | a :: as, [] =>
      match a with
      | some x => if x ≠ 0 then x else cmpNilR as
      | none => 0
  | a :: as, b :: bs =>
      match a, b with
      | some x, some y => if x ≠ y then x - y else cmpParts as bs
      | _, _ => 0

/-- Comparator on whole chains. -/
def chainCmp (a b : String) : Int := cmpParts (chainParts a) (chainParts b)

/-- The COM-port sort order: comparator result at most zero. -/
def comLe (a b : String) : Bool := decide (comCmp a b ≤ 0)

/-- JS `p.startsWith(q)` modelled on character lists. -/
def strStarts (q s : String) : Bool := q.data.isPrefixOf s.data

/-- One COM-port endpoint attached to a device (ComPortInfo in
usb-common.ts).  `channel` is `undefined` (`none`) or the FTDI channel
number; `role` is derived from it during assembly. -/
structure ComPortInfo where
  port : String
  kernelName : String
  channel : Option Nat
  role : Option String
  deriving DecidableEq

/-- A device record (USBDevice in usb-common.ts).  `children` holds the map
keys of the child device objects (see the modelling conventions above). -/
structure USBDevice where
  instancePath : String
  vid : String
  pid : String
  serialNumber : String
  instanceId : String
  parentPath : Option String
  portNumber : Nat
  isHub : Bool
  name : String
  comPorts : List ComPortInfo
  children : List String
  portChain : String
  kernelName : String
  deriving DecidableEq

/-- The device collection handed over by the acquisition layer. -/
abbrev DevMap : Type := List (String × USBDevice)

/-- A raw COM-port record from the acquisition layer
(`{ instancePath, kernelName, channel }`). -/
structure ComPortSrc where
  instancePath : String
  kernelName : String
  channel : Option Nat
  deriving DecidableEq

/-- comPortMap: COM label ↦ (map key of the owning device, the ComPortInfo). -/
abbrev CPMap : Type := List (String × (String × ComPortInfo))

/-- The assembled tree: root-hub keys, the full device map, and the COM-port
map (USBTree in usb-common.ts, with object references replaced by keys). -/
structure USBTree where
  rootHubs : List String
  allDevices : DevMap
  comPortMap : CPMap
  deriving DecidableEq

/-- Result of an assembly pass: the tree plus the `console.log` diagnostics
emitted while linking. -/
structure BuildResult where
  tree : USBTree
  logs : List String
  deriving DecidableEq

/-- Role derived from a channel number:
`channel === 1 ? 'JTAG' : channel === 2 ? 'Serial' : undefined`. -/
def roleOfChannel : Option Nat → Option String
  | some 1 => some "JTAG"
  | some 2 => some "Serial"
  | _ => none

/-- Uppercasing as `toUpperCase()` performs it on the ASCII instance paths
(character-wise), written structurally so that it evaluates by reduction. -/
def String.upper (s : String) : String := String.mk (s.data.map Char.toUpper)

/-- Truthiness of an optional string (`undefined`/`null`/`''` are falsy). -/
def otruthy : Option String → Bool
  | some s => s != ""
  | none => false

/-- Whether the device's declared parent resolves in the collection:
`dev.parentPath && devices.has(dev.parentPath.upperCase())`. -/
def resolvesParent (m : DevMap) (dev : USBDevice) : Bool :=
  match dev.parentPath with
  | some p => p != "" && (mget m p.upper).isSome
  | none => false

/-- Phase 1, one entry: attach the COM port to its owning device and record
it in `comPortMap`; an entry whose device is absent is dropped. -/
def assignStep (acc : DevMap × CPMap) (entry : String × ComPortSrc) : DevMap × CPMap :=
  let key := entry.2.instancePath.upper
  match mget acc.1 key with
  | some dev =>
      let comInfo : ComPortInfo :=
        { port := entry.1
          kernelName := entry.2.kernelName
          channel := entry.2.channel
          role := roleOfChannel entry.2.channel }
      (mset acc.1 key { dev with comPorts := dev.comPorts ++ [comInfo] },
       mset acc.2 entry.1 (key, comInfo))
  | none => acc

/-- Phase 1 of buildUSBTree: attach each COM port to its owning device and
record it in `comPortMap`. -/
def assignComPorts (devices : DevMap) (comPorts : List (String × ComPortSrc)) :
    DevMap × CPMap :=
  comPorts.foldl assignStep (devices, [])

/-- Phase 2, one device: its COM ports sorted numerically. -/
def sortComPortsDev (d : USBDevice) : USBDevice :=
  { d with comPorts := sortByLe (fun a b => comLe a.port b.port) d.comPorts }

/-- Phase 2: sort each device's COM ports numerically. -/
def sortComPortsAll (m : DevMap) : DevMap :=
  m.map fun kv => (kv.1, sortComPortsDev kv.2)

/-- Phase 3, one device: link it under its parent if the parent path
resolves, otherwise log the anomaly. -/
def linkStep (acc : DevMap × List String) (k : String) : DevMap × List String :=
  match mget acc.1 k with
  | none => acc
  | some dev =>
    match dev.parentPath with
    | some p =>
        if p = "" then (acc.1, acc.2 ++ ["No parent: " ++ dev.instancePath])
        else
          match mget acc.1 p.upper with
          | some parent =>
              (mset acc.1 p.upper { parent with children := parent.children ++ [k] },
               acc.2)
          | none =>
              (acc.1,
               acc.2 ++ ["Orphan device: " ++ dev.instancePath ++ " (Parent: " ++ p ++ ")"])
    | none => (acc.1, acc.2 ++ ["No parent: " ++ dev.instancePath])

/-- Phase 3: build the tree structure — assign children to parents. -/
def linkChildren (m : DevMap) : DevMap × List String :=
  (mkeys m).foldl linkStep (m, [])

/-- Port number of the device object a key refers to. -/
def portOfKey (m : DevMap) (k : String) : Nat :=
  match mget m k with
  | some d => d.portNumber
  | none => 0

/-- The children sort order: by the referenced device's port number. -/
def childLe (m : DevMap) (a b : String) : Bool :=
  decide (portOfKey m a ≤ portOfKey m b)

/-- Phase 4, one device: its children sorted by port number. -/
def sortChildrenDev (m : DevMap) (d : USBDevice) : USBDevice :=
  { d with children := sortByLe (childLe m) d.children }

/-- Phase 4: sort every `children` list by port number
(comparator `a.portNumber - b.portNumber`). -/
def sortChildrenAll (m : DevMap) : DevMap :=
  m.map fun kv => (kv.1, sortChildrenDev m kv.2)

/-- Phase 5: the declared roots — devices with no resolvable parent that are
hubs or carry the ROOT sentinel vendor id, in map order. -/
def rootKeys (m : DevMap) : List String :=
  mkeys (m.filter fun kv =>
    !resolvesParent m kv.2 && (kv.2.isHub || kv.2.vid == "ROOT"))

/-- The chain assigned to a device: `parentChain + "-" + portNumber` under a
parent, the literal "1" at a root. -/
def chainOf (parentChain : String) (dev : USBDevice) : String :=
  if parentChain ≠ "" then parentChain ++ "-" ++ Nat.repr dev.portNumber
  else "1"

/-- Phase 6: recursive port-chain computation (function buildPortChain in the
source), with explicit fuel bounding the recursion depth. -/
def buildPortChain : Nat → DevMap → String → String → DevMap
  | 0, m, _, _ => m
  | fuel + 1, m, k, parentChain =>
      match mget m k with
      | none => m
      | some dev =>
          let m1 := mset m k { dev with portChain := chainOf parentChain dev }
          dev.children.foldl
            (fun acc c => buildPortChain fuel acc c (chainOf parentChain dev)) m1

/-- First index of `x` in `l` (JS `Array.prototype.indexOf`; within one
device the ComPortInfo values are pairwise distinct, so value equality
coincides with the reference equality JS uses). -/
def idxOf {α : Type} [DecidableEq α] (x : α) : List α → Nat
  | [] => 0
  | y :: ys => if y = x then 0 else idxOf x ys + 1

/-- The channel of a COM port during synthesis:
`comInfo.channel || (dev.comPorts.indexOf(comInfo) + 1)`. -/
def channelOf (dev : USBDevice) (ci : ComPortInfo) : Nat :=
  match ci.channel with
  | some c => if c = 0 then idxOf ci dev.comPorts + 1 else c
  | none => idxOf ci dev.comPorts + 1

/-- The synthetic child device created for one COM port of a multi-port
device. -/
def synthChild (dev : USBDevice) (ci : ComPortInfo) : USBDevice :=
  let channel := channelOf dev ci
  { instancePath := dev.instancePath ++ "#" ++ ci.port
    vid := dev.vid
    pid := dev.pid
    serialNumber := dev.serialNumber
    instanceId := dev.instanceId ++ "#" ++ Nat.repr channel
    parentPath := some dev.instancePath
    portNumber := channel
    isHub := false
    name := ci.port ++ (match ci.role with | some r => " (" ++ r ++ ")" | none => "")
    comPorts := [ci]
    children := []
    portChain := dev.portChain ++ "-" ++ Nat.repr channel
    kernelName := ci.kernelName }

/-- Phase 7, one COM port of a multi-port device: push the synthetic child
onto the parent's children, register it in the device map, and repoint the
comPortMap entry at it. -/
def synthChildStep (dev : USBDevice) (k : String) (acc : DevMap × CPMap)
    (ci : ComPortInfo) : DevMap × CPMap :=
  let child := synthChild dev ci
  let withChild :=
    match mget acc.1 k with
    | some d => mset acc.1 k { d with children := d.children ++ [child.instancePath] }
    | none => acc.1
  (mset withChild child.instancePath child,
   mset acc.2 ci.port (child.instancePath, ci))

/-- Phase 7, one device: if it has more than one COM port, synthesize one
child per port, clear its own ports, and re-sort its children. -/
def synthStep (s : DevMap × CPMap) (k : String) : DevMap × CPMap :=
  match mget s.1 k with
  | none => s
  | some dev =>
      if dev.comPorts.length > 1 then
        let s1 := dev.comPorts.foldl (synthChildStep dev k) s
        let s2 :=
          match mget s1.1 k with
          | some d => mset s1.1 k { d with comPorts := [] }
          | none => s1.1
        let s3 :=
          match mget s2 k with
          | some d =>
              mset s2 k { d with children := sortByLe (childLe s2) d.children }
          | none => s2
        (s3, s1.2)
      else s

/-- Phase 7: the synthesis pass iterates the device map by position, visiting
entries appended during the loop as well (JS `Map` iteration semantics). -/
def synthLoop : Nat → DevMap × CPMap → Nat → DevMap × CPMap
  | 0, s, _ => s
  | fuel + 1, s, i =>
      if h : i < s.1.length then
        synthLoop fuel (synthStep s (s.1.get ⟨i, h⟩).1) (i + 1)
      else s

/-- Fuel that provably outlasts the synthesis loop: every appended entry is a
synthetic child carrying exactly one COM port, so the map never grows past
the original length plus the total COM-port count. -/
def synthFuel (m : DevMap) : Nat :=
  m.length + m.foldl (fun a kv => a + kv.2.comPorts.length) 0 + 1

/-- Stage after phase 1: the device map with COM ports attached, paired with
the initial comPortMap. -/
def assignedPair (devices0 : DevMap) (comPorts : List (String × ComPortSrc)) :
    DevMap × CPMap :=
  assignComPorts devices0 comPorts

/-- Stage after phase 2: per-device COM ports sorted. -/
def comSortedMap (devices0 : DevMap) (comPorts : List (String × ComPortSrc)) : DevMap :=
  sortComPortsAll (assignedPair devices0 comPorts).1

/-- Stage after phase 3: children assigned, plus the diagnostics logged. -/
def linkedPair (devices0 : DevMap) (comPorts : List (String × ComPortSrc)) :
    DevMap × List String :=
  linkChildren (comSortedMap devices0 comPorts)

/-- Stage after phase 4: children sorted by port number. -/
def childSortedMap (devices0 : DevMap) (comPorts : List (String × ComPortSrc)) : DevMap :=
  sortChildrenAll (linkedPair devices0 comPorts).1

/-- The declared roots selected in phase 5. -/
def declaredRoots (devices0 : DevMap) (comPorts : List (String × ComPortSrc)) : List String :=
  rootKeys (childSortedMap devices0 comPorts)

/-- Stage after phase 6: port chains computed from every declared root. -/
def chainedMap (devices0 : DevMap) (comPorts : List (String × ComPortSrc)) : DevMap :=
  (declaredRoots devices0 comPorts).foldl
    (fun acc r => buildPortChain ((childSortedMap devices0 comPorts).length + 1) acc r "")
    (childSortedMap devices0 comPorts)

/-- Stage after phase 7: multi-port synthesis applied to the device map and
the comPortMap. -/
def synthPair (devices0 : DevMap) (comPorts : List (String × ComPortSrc)) :
    DevMap × CPMap :=
  synthLoop (synthFuel (chainedMap devices0 comPorts))
    (chainedMap devices0 comPorts, (assignedPair devices0 comPorts).2) 0

/-- Model of `buildUSBTree` (usb-tree.ts).  Takes the acquisition output
(the `devices` and `comPorts` collections of `getUSBTreeData`) and returns
the assembled tree together with the diagnostics logged while linking. -/
def buildUSBTree (devices0 : DevMap) (comPorts : List (String × ComPortSrc)) :
    BuildResult :=
  { tree :=
      { rootHubs := declaredRoots devices0 comPorts
        allDevices := (synthPair devices0 comPorts).1
        comPortMap := (synthPair devices0 comPorts).2 }
    logs := (linkedPair devices0 comPorts).2 }

/-- The chain sort order of the query layer. -/
def chainLe (a b : USBDevice) : Bool := decide (chainCmp a.portChain b.portChain ≤ 0)

/-- Model of `getDeviceByPortChain`: first device (map order) with this
exact chain. -/
def getDeviceByPortChain (t : USBTree) (portChain : String) : Option USBDevice :=
  (mvals t.allDevices).find? fun d => d.portChain == portChain

/-- The membership test of the prefix query:
`dev.portChain === prefix || dev.portChain.startsWith(prefix + '-')`. -/
def matchesPfx (pfx : String) (d : USBDevice) : Bool :=
  d.portChain == pfx || strStarts (pfx ++ "-") d.portChain

/-- Model of `getDevicesByPortChainPrefix`: all matching devices, sorted by
the component-wise numeric chain comparator. -/
def getDevicesByPortChainPrefix (t : USBTree) (pfx : String) : List USBDevice :=
  sortByLe chainLe ((mvals t.allDevices).filter (matchesPfx pfx))

/-- One row of `getComPortList`. -/
structure ComPortRow where
  port : String
  vid : String
  pid : String
  serialNumber : String
  deviceName : String
  portChain : String
  kernelName : String
  channel : Option Nat
  role : Option String
  deriving DecidableEq

/-- Model of `getComPortList`: one row per comPortMap entry, extending the
chain with the channel for a device that still carries several COM ports,
sorted by COM number.  (A dangling device key cannot occur in an assembled
tree; such entries are skipped to keep the model total.) -/
def getComPortList (t : USBTree) : List ComPortRow :=
  sortByLe (fun a b => comLe a.port b.port)
    (t.comPortMap.filterMap fun e =>
      (mget t.allDevices e.2.1).map fun device =>
        let comInfo := e.2.2
        let isMultiPort := device.comPorts.length > 1
        let extendedChain :=
          match comInfo.channel with
          | some c =>
              if isMultiPort ∧ c ≠ 0 then device.portChain ++ "-" ++ Nat.repr c
              else device.portChain
          | none => device.portChain
        { port := comInfo.port
          vid := device.vid
          pid := device.pid
          serialNumber := device.serialNumber
          deviceName := device.name
          portChain := extendedChain
          kernelName := comInfo.kernelName
          channel := comInfo.channel
          role := comInfo.role })

/-- The map key a device's declared parent resolves to (uppercased path). -/
def parentKeyOf (dev : USBDevice) : String :=
  match dev.parentPath with
  | some p => p.upper
  | none => ""

/-- Whether the device stored under `k` has a resolvable parent. -/
def resolvesKey (m : DevMap) (k : String) : Bool :=
  match mget m k with
  | some dev => resolvesParent m dev
  | none => false

/-- One step up the parent relation: the parent's key, when it resolves. -/
def pNext (m : DevMap) (k : String) : Option String :=
  match mget m k with
  | some dev => if resolvesParent m dev then some (parentKeyOf dev) else none
  | none => none

/-- Iterated parent steps. -/
def pIter (m : DevMap) : Nat → String → Option String
  | 0, k => some k
  | t + 1, k =>
      match pNext m k with
      | some k1 => pIter m t k1
      | none => none

/-- Number of parent steps from `k` up to its first device with no
resolvable parent, if that point is reached within the fuel. -/
def rootDist (m : DevMap) : Nat → String → Option Nat
  | 0, _ => none
  | fuel + 1, k =>
      match mget m k with
      | none => none
      | some dev =>
          if resolvesParent m dev then (rootDist m fuel (parentKeyOf dev)).map (· + 1)
          else some 0

/-- The key at the top of `k`'s parent chain (its root candidate), if
reached within the fuel. -/
def termRoot (m : DevMap) : Nat → String → Option String
  | 0, _ => none
  | fuel + 1, k =>
      match mget m k with
      | none => none
      | some dev =>
          if resolvesParent m dev then termRoot m fuel (parentKeyOf dev)
          else some k

/-- The port chain the recursive computation assigns along the parent chain:
"1" at the top, `parentChain-portNumber` below. -/
def specChain (m : DevMap) : Nat → String → Option String
  | 0, _ => none
  | fuel + 1, k =>
      match mget m k with
      | none => none
      | some dev =>
          if resolvesParent m dev then
            (specChain m fuel (parentKeyOf dev)).map (· ++ "-" ++ Nat.repr dev.portNumber)
          else some "1"

/-- Whether `k` holds a device that qualifies as a declared root. -/
def qualifiedRoot (m : DevMap) (k : String) : Bool :=
  match mget m k with
  | some dev => !resolvesParent m dev && (dev.isHub || dev.vid == "ROOT")
  | none => false

/-- Descendant relation through iterated parent steps: `j` lies in the
subtree of `k`. -/
def Desc (m : DevMap) (j k : String) : Prop :=
  ∃ t, pIter m t j = some k

/-- Port chain of the device stored under a key (empty for a missing key). -/
def chainOfKey (m : DevMap) (k : String) : String :=
  match mget m k with
  | some d => d.portChain
  | none => ""

/-- Children keys of the device stored under a key. -/
def childrenOfKey (m : DevMap) (k : String) : List String :=
  match mget m k with
  | some d => d.children
  | none => []

/-- Total number of occurrences of `c` across all `children` lists. -/
def childCount (m : DevMap) (c : String) : Nat :=
  (m.map (fun kv => kv.2.children.count c)).sum

/-- Keys of the subtree rooted at `k`, in pre-order, fuel-bounded. -/
def subtreeKeys (m : DevMap) : Nat → String → List String
  | 0, _ => []
  | fuel + 1, k => k :: (childrenOfKey m k).flatMap (subtreeKeys m fuel)

/-- Every node of the assembled tree: the declared roots and everything
reachable through `children` (the fuel provably covers the whole tree). -/
def treeNodeKeys (t : USBTree) : List String :=
  t.rootHubs.flatMap (subtreeKeys t.allDevices (t.allDevices.length + 1))

/-- Synthetic child keys a multi-port device will produce. -/
def synthKeysOf (dev : USBDevice) : List String :=
  dev.comPorts.map fun ci => dev.instancePath ++ "#" ++ ci.port

/-- All synthetic entries the synthesis pass appends, in order. -/
def synthEntries (m : DevMap) : List (String × USBDevice) :=
  m.flatMap fun kv =>
    if kv.2.comPorts.length > 1 then
      kv.2.comPorts.map fun ci => (kv.2.instancePath ++ "#" ++ ci.port, synthChild kv.2 ci)
    else []

/-- The pre-synthesis map augmented with the synthetic entries (used only to
give the sorting key of the final children lists a closed form). -/
def synthAug (m : DevMap) : DevMap := m ++ synthEntries m

/-- The update synthesis applies to one original device. -/
def synthUpd (m : DevMap) (dev : USBDevice) : USBDevice :=
  if dev.comPorts.length > 1 then
    { dev with
      comPorts := []
      children := sortByLe (childLe (synthAug m)) (dev.children ++ synthKeysOf dev) }
  else dev

/-- Closed form of the device map after synthesis. -/
def synthSpecMap (m : DevMap) : DevMap :=
  m.map (fun kv => (kv.1, synthUpd m kv.2)) ++ synthEntries m

/-- Closed form of the comPortMap after synthesis. -/
def synthCPM (m : DevMap) (c : CPMap) : CPMap :=
  m.foldl
    (fun acc kv =>
      if kv.2.comPorts.length > 1 then
        kv.2.comPorts.foldl
          (fun a ci => mset a ci.port (kv.2.instancePath ++ "#" ++ ci.port, ci)) acc
      else acc)
    c

/-- Structural fold form of the synthesis pass (proved equal to the
position-based loop under the well-formedness hypotheses). -/
def synthFold (s : DevMap × CPMap) (ks : List String) : DevMap × CPMap :=
  ks.foldl synthStep s

/-- Devices equal except possibly in their `portChain` field. -/
def sameShape (d d' : USBDevice) : Prop :=
  d' = { d with portChain := d'.portChain }

/-- Maps with identical keys whose entries differ at most in `portChain`. -/
def SameStruct (m m' : DevMap) : Prop :=
  mkeys m' = mkeys m ∧
  ∀ k, match mget m k, mget m' k with
       | some d, some d' => sameShape d d'
       | none, none => True
       | _, _ => False

/-- Well-formed device collection, as both acquisition sources construct it:
keys are unique and each entry is stored under its uppercased instance path
with empty `children`, `comPorts` and `portChain`. -/
def WFdev (m : DevMap) : Prop :=
  (mkeys m).Nodup ∧
  ∀ kv ∈ m, kv.1 = kv.2.instancePath.upper ∧ kv.2.children = [] ∧
    kv.2.comPorts = [] ∧ kv.2.portChain = ""

/-- Well-formed COM-port collection: unique COM labels (it is a JS `Map`
keyed by the label). -/
def WFcom (cps : List (String × ComPortSrc)) : Prop :=
  (cps.map (·.1)).Nodup

/-- Freshness of the synthetic keys relative to a pre-synthesis map: no
synthetic key collides with an existing key, with another synthetic key, or
with any device's resolved parent key.  This encodes the assumption that
distinct JS objects occupy distinct map keys (instance paths contain no '#',
so every real enumeration satisfies it). -/
def FreshSynth (m : DevMap) : Prop :=
  (mkeys m ++ allSynthKeys m).Nodup ∧
  ∀ sk ∈ allSynthKeys m, ∀ kv ∈ m, sk ≠ parentKeyOf kv.2
where
  /-- All synthetic keys generated by multi-port devices of `m`. -/
  allSynthKeys (m : DevMap) : List String :=
    m.flatMap fun kv => if kv.2.comPorts.length > 1 then synthKeysOf kv.2 else []

/-- The full well-formedness bundle for an assembly input. -/
def WFinput (devs : DevMap) (cps : List (String × ComPortSrc)) : Prop :=
  WFdev devs ∧ WFcom cps ∧ FreshSynth (chainedMap devs cps)

/-- One device record's parent reference is absent, empty, or present in
the collection. -/
def completeB (m : DevMap) (kv : String × USBDevice) : Bool :=
  match kv.2.parentPath with
  | some p => p == "" || (mget m p.upper).isSome
  | none => true

/-- Completeness hypothesis of the zero-orphan-loss claim: every declared
parent path resolves (case-insensitively) to a device present in the
collection. -/
def CompleteInput (m : DevMap) : Prop := ∀ kv ∈ m, completeB m kv = true

/-- Every device without a resolvable parent qualifies as a declared root
(hub or ROOT sentinel vendor). -/
def RootsQualified (m : DevMap) : Prop :=
  ∀ kv ∈ m, resolvesParent m kv.2 = false → (kv.2.isHub = true ∨ kv.2.vid = "ROOT")

/-- The parent references are acyclic: every parent chain terminates. -/
def AcyclicParents (m : DevMap) : Prop :=
  ∀ k ∈ mkeys m, (rootDist m (m.length + 1) k).isSome

/-- Per-node distinctness of the children's port numbers in a map. -/
def DistinctChildPorts (m : DevMap) : Prop :=
  ∀ kv ∈ m, ((kv.2.children).map (portOfKey m)).Nodup

/-- Padded numeric comparison of parsed chains: compare position by
position, treating a missing component as `0`; `padLex x y` says `x` sorts
no later than `y`. -/
def padLex : List Int → List Int → Prop
  | [], [] => True
  | a :: as, b :: bs => a < b ∨ (a = b ∧ padLex as bs)
  | a :: as, [] => a < 0 ∨ (a = 0 ∧ padLex as [])
  | [], b :: bs => 0 < b ∨ (0 = b ∧ padLex [] bs)

/-- Numeric components of a chain with `NaN` read as `0` (they never occur
on assembled chains). -/
def partsVal (s : String) : List Int :=
  (chainParts s).map fun c =>
    match c with
    | some v => v
    | none => 0

/-- Modelled from the spec: the linking step with the safety-net re-fetch.
The spec (§4.2 step 1, §7b, scenario 3) requires that a device whose
declared parent path does not resolve in the collection triggers a targeted
single-item re-fetch against the acquisition source (modelled as the
`refetch` callback, returning a parent path or "unknown"), linking the
device under the returned hub when the re-fetch succeeds, and demoting it to
orphan only otherwise.  This behaviour is absent from the code, which is the
point of comparison. -/
def linkStepRefetch (refetch : String → Option String) (acc : DevMap × List String)
    (k : String) : DevMap × List String :=
  match mget acc.1 k with
  | none => acc
  | some dev =>
    match dev.parentPath with
    | some p =>
        if p = "" then (acc.1, acc.2 ++ ["No parent: " ++ dev.instancePath])
        else
          match mget acc.1 p.upper with
          | some parent =>
              (mset acc.1 p.upper { parent with children := parent.children ++ [k] },
               acc.2)
          | none =>
              match refetch dev.instancePath with
              | some p2 =>
                  match mget acc.1 p2.upper with
                  | some parent =>
                      (mset acc.1 p2.upper
                          { parent with children := parent.children ++ [k] },
                       acc.2)
                  | none =>
                      (acc.1,
                       acc.2 ++ ["Orphan device: " ++ dev.instancePath ++
                         " (Parent: " ++ p ++ ")"])
              | none =>
                  (acc.1,
                   acc.2 ++ ["Orphan device: " ++ dev.instancePath ++
                     " (Parent: " ++ p ++ ")"])
    | none => (acc.1, acc.2 ++ ["No parent: " ++ dev.instancePath])

/-- Modelled from the spec: phase 3 with the safety-net re-fetch. -/
def linkChildrenRefetch (refetch : String → Option String) (m : DevMap) :
    DevMap × List String :=
  (mkeys m).foldl (linkStepRefetch refetch) (m, [])

/-- Test fixture: a fresh device record as the acquisition layer emits it. -/
def mkDev (path vid pid : String) (parent : Option String) (port : Nat)
    (hub : Bool) : USBDevice :=
  { instancePath := path, vid := vid, pid := pid, serialNumber := "",
    instanceId := "X", parentPath := parent, portNumber := port, isHub := hub,
    name := path, comPorts := [], children := [], portChain := "",
    kernelName := "" }

/-- Fixture: spec scenario 1 — root → hub (port 1) → device (port 3) →
dual-channel bridge (port 2). -/
def exDevs : DevMap :=
  [ ("USB\\ROOT", mkDev "Usb\\Root" "ROOT" "HUB30" none 0 true),
    ("USB\\HUB1", mkDev "Usb\\Hub1" "05E3" "0610" (some "Usb\\Root") 1 true),
    ("USB\\DEV3", mkDev "Usb\\Dev3" "0483" "5740" (some "usb\\hub1") 3 false),
    ("USB\\BRIDGE", mkDev "Usb\\Bridge" "0403" "6010" (some "USB\\dev3") 2 false) ]

/-- Fixture: the two channels of scenario 1's bridge. -/
def exCom : List (String × ComPortSrc) :=
  [ ("COM7", { instancePath := "usb\\bridge", kernelName := "k1", channel := some 1 }),
    ("COM9", { instancePath := "Usb\\Bridge", kernelName := "k2", channel := some 2 }) ]

/-- Fixture: two host controllers — two declared roots. -/
def twoRootsDevs : DevMap :=
  [ ("USB\\R1", mkDev "USB\\R1" "ROOT" "HUB30" none 0 true),
    ("USB\\R2", mkDev "USB\\R2" "ROOT" "HUB30" none 0 true) ]

/-- Fixture: a child at port 0 enumerated before its root. -/
def tieDevs : DevMap :=
  [ ("USB\\CHILD", mkDev "USB\\CHILD" "1111" "2222" (some "USB\\ROOT") 0 false),
    ("USB\\ROOT", mkDev "USB\\ROOT" "ROOT" "HUB30" none 0 true) ]

/-- Fixture: a dual-channel device whose declared parent is absent. -/
def orphanDevs : DevMap :=
  [ ("USB\\ORP", mkDev "USB\\ORP" "0403" "6010" (some "USB\\MISSING") 4 false) ]

/-- Fixture: the orphan bridge's two channels. -/
def orphanCom : List (String × ComPortSrc) :=
  [ ("COM3", { instancePath := "USB\\ORP", kernelName := "", channel := some 1 }),
    ("COM4", { instancePath := "USB\\ORP", kernelName := "", channel := some 2 }) ]

/-- Fixture: a root plus a two-device parent cycle. -/
def cycleDevs : DevMap :=
  [ ("USB\\R", mkDev "USB\\R" "ROOT" "HUB30" none 0 true),
    ("USB\\A", mkDev "USB\\A" "1111" "2222" (some "USB\\B") 1 false),
    ("USB\\B", mkDev "USB\\B" "3333" "4444" (some "USB\\A") 2 false) ]

/-- Fixture: a single-COM device that also has a genuine child. -/
def hubComDevs : DevMap :=
  [ ("USB\\R", mkDev "USB\\R" "ROOT" "HUB30" none 0 true),
    ("USB\\D", mkDev "USB\\D" "10C4" "EA60" (some "USB\\R") 1 false),
    ("USB\\E", mkDev "USB\\E" "1111" "2222" (some "USB\\D") 2 false) ]

/-- Fixture: the single COM port of the device above. -/
def hubComCom : List (String × ComPortSrc) :=
  [ ("COM5", { instancePath := "USB\\D", kernelName := "", channel := none }) ]

/-- Fixture: a root hub plus a device whose declared parent is absent from
the collection but recoverable from the acquisition source. -/
def refetchDevs : DevMap :=
  [ ("USB\\H", mkDev "USB\\H" "ROOT" "HUB30" none 0 true),
    ("USB\\D", mkDev "USB\\D" "10C4" "EA60" (some "USB\\MISSING") 3 false) ]

/-- Fixture: an acquisition-source oracle that resolves the missing parent
of the device above to the hub (spec scenario 3). -/
def refetchOracle : String → Option String :=
  fun path => if path = "USB\\D" then some "USB\\H" else none

/-- The ComPortInfo built from one raw COM-port record. -/
def comInfoOf (e : String × ComPortSrc) : ComPortInfo :=
  { port := e.1
    kernelName := e.2.kernelName
    channel := e.2.channel
    role := roleOfChannel e.2.channel }

/-- The COM ports phase 1 appends to the device stored under `k`, in input
order. -/
def assignedComs (cps : List (String × ComPortSrc)) (k : String) : List ComPortInfo :=
  (cps.filter fun e => e.2.instancePath.upper = k).map comInfoOf

/-- Whether the device under key `c` declares a parent that resolves to the
key `k`. -/
def linksToB (m : DevMap) (c k : String) : Bool :=
  match mget m c with
  | some d =>
      match d.parentPath with
      | some p => p != "" && p.upper == k && (mget m p.upper).isSome
      | none => false
  | none => false

/-- The diagnostics phase 3 logs while processing the device under `c`. -/
def logMsgOf (m : DevMap) (c : String) : List String :=
  match mget m c with
  | some dev =>
      match dev.parentPath with
      | some p =>
          if p = "" then ["No parent: " ++ dev.instancePath]
          else if (mget m p.upper).isSome then []
          else ["Orphan device: " ++ dev.instancePath ++ " (Parent: " ++ p ++ ")"]
      | none => ["No parent: " ++ dev.instancePath]
  | none => []

/-- The structural invariant the linking phase establishes: unique keys,
every child key refers to a present device whose parent resolves back to
exactly this parent key, every device with a resolvable parent appears among
its parent's children, and children lists are duplicate-free. -/
def LinkInv (m : DevMap) : Prop :=
  (mkeys m).Nodup ∧
  (∀ kv ∈ m, ∀ c ∈ kv.2.children,
      ∃ cdev, mget m c = some cdev ∧ resolvesParent m cdev = true ∧
        parentKeyOf cdev = kv.1) ∧
  (∀ k dev, mget m k = some dev → resolvesParent m dev = true →
      k ∈ childrenOfKey m (parentKeyOf dev)) ∧
  (∀ kv ∈ m, kv.2.children.Nodup)

/-- The synthetic entries one device contributes (empty unless it carries
more than one COM port). -/
def entriesOf (kv : String × USBDevice) : List (String × USBDevice) :=
  if kv.2.comPorts.length > 1 then
    kv.2.comPorts.map fun ci => (kv.2.instancePath ++ "#" ++ ci.port, synthChild kv.2 ci)
  else []

/-- The synthetic keys one device contributes. -/
def synthKeysBlock (kv : String × USBDevice) : List String :=
  if kv.2.comPorts.length > 1 then synthKeysOf kv.2 else []

/-- The device map midway through the synthesis loop: the first `i` original
entries processed (synthetic children appended behind the original block, in
device order), the rest untouched. -/
def synthPartialMap (m : DevMap) (i : Nat) : DevMap :=
  (m.take i).map (fun kv => (kv.1, synthUpd m kv.2)) ++ m.drop i
    ++ (m.take i).flatMap entriesOf

/-- The comPortMap midway through the synthesis loop. -/
def synthPartialCPM (m : DevMap) (c : CPMap) (i : Nat) : CPMap :=
  synthCPM (m.take i) c

/-- Synthetic child keys attached to the device stored under `j` by the
synthesis pass (empty for single-port or missing devices). -/
def synthKidsOf (m : DevMap) (j : String) : List String :=
  match mget m j with
  | some d => if d.comPorts.length > 1 then synthKeysOf d else []
  | none => []

/-- Invariant of the comPortMap during the synthesis fold: every entry either
still points (port-keyed by its own ComPortInfo) at a device of the map whose
COM list holds it, the device not yet processed or single-port, or has been
repointed at the synthetic child of an already-processed multi-port device. -/
def GoodPre (M pre : DevMap) (e : String × (String × ComPortInfo)) : Prop :=
  (∃ k0 ci d, e = (ci.port, (k0, ci)) ∧ mget M k0 = some d ∧ ci ∈ d.comPorts ∧
     (k0 ∈ mkeys pre → ¬d.comPorts.length > 1))
  ∨ (∃ j dj ci, (j, dj) ∈ pre ∧ dj.comPorts.length > 1 ∧ ci ∈ dj.comPorts ∧
     e = (ci.port, (dj.instancePath ++ "#" ++ ci.port, ci)))

/-- A node of the assembled tree below root `r`, together with its depth:
either an original device at parent-distance `n`, or a synthetic child of an
original device at parent-distance `n - 1`. -/
def TNode (C M : DevMap) (r x : String) (n : Nat) : Prop :=
  (Desc C x r ∧ rootDist C (C.length + 1) x = some n) ∨
  (∃ m j, n = m + 1 ∧ Desc C j r ∧ rootDist C (C.length + 1) j = some m ∧
    x ∈ synthKidsOf M j)

/-- NaN-free chains: every hyphen component parses as a number. -/
def NumericChain (s : String) : Prop := ∀ c ∈ chainParts s, c.isSome = true

/-- COM ports of the device stored under `k` (empty for a missing key). -/
def comPortsOfKey (m : DevMap) (k : String) : List ComPortInfo :=
  match mget m k with
  | some d => d.comPorts
  | none => []

/-- Instance path of the device stored under `k` (empty for a missing key). -/
def pathOfKey (m : DevMap) (k : String) : String :=
  match mget m k with
  | some d => d.instancePath
  | none => ""

/-- Channel number the synthesis pass would assign to `ci` on the device
stored under `k`. -/
def channelOfKey (m : DevMap) (k : String) (ci : ComPortInfo) : Nat :=
  match mget m k with
  | some d => channelOf d ci
  | none => 0

/-- Modelled from the spec: the prefix-query ordering, "split on separator,
compare leading components as integers, shorter sequence sorts first on a
tie through its defined length" (§4.4).  `shortLexB xs ys` says `xs` sorts
no later than `ys`; unlike the code's padded comparator, a strictly shorter
chain that ties through its own length sorts strictly first, never equal. -/
def shortLexB : List Int → List Int → Bool
  | [], _ => true
  | _ :: _, [] => false
  | a :: as, b :: bs => if a < b then true else if a = b then shortLexB as bs else false

instance instDecNumericChain (s : String) : Decidable (NumericChain s) :=
  List.decidableBAll _ (chainParts s)

instance instDecWFdev (m : DevMap) : Decidable (WFdev m) := by
  unfold WFdev
  infer_instance

instance instDecWFcom (cps : List (String × ComPortSrc)) : Decidable (WFcom cps) := by
  unfold WFcom
  infer_instance

instance instDecFreshSynth (m : DevMap) : Decidable (FreshSynth m) := by
  unfold FreshSynth
  infer_instance

instance instDecWFinput (devs : DevMap) (cps : List (String × ComPortSrc)) :
    Decidable (WFinput devs cps) := by
  unfold WFinput
  infer_instance

instance instDecCompleteInput (m : DevMap) : Decidable (CompleteInput m) := by
  unfold CompleteInput
  infer_instance

instance instDecRootsQualified (m : DevMap) : Decidable (RootsQualified m) := by
  unfold RootsQualified
  infer_instance

instance instDecAcyclicParents (m : DevMap) : Decidable (AcyclicParents m) := by
  unfold AcyclicParents
  infer_instance

/-! Generic lemmas about the association-list map operations. -/

theorem mget_eq_none_iff {α : Type} (m : List (String × α)) (k : String) :
    mget m k = none ↔ k ∉ mkeys m := by
  induction m with
  | nil => simp [mget, mkeys]
  | cons kv rest ih =>
      obtain ⟨k1, v1⟩ := kv
      by_cases h : k1 = k
      · subst h; simp [mget, mkeys]
      · simp [mget, h, mkeys, ih, Ne.symm h]
      
theorem mget_isSome_iff {α : Type} (m : List (String × α)) (k : String) :
    (mget m k).isSome = true ↔ k ∈ mkeys m := by
  rcases h : mget m k with _ | v
  · rw [mget_eq_none_iff] at h; simp [h]
  · simp only [Option.isSome_some, true_iff]
    by_contra hk
    rw [← mget_eq_none_iff] at hk
    rw [h] at hk
    exact Option.noConfusion hk

theorem mem_of_mget {α : Type} {m : List (String × α)} {k : String} {v : α}
    (h : mget m k = some v) : (k, v) ∈ m := by
  induction m with
  | nil => simp [mget] at h
  | cons kv rest ih =>
      obtain ⟨k1, v1⟩ := kv
      by_cases hk : k1 = k
      · subst hk
        simp [mget] at h
        subst h
        exact List.mem_cons_self _ _
      · simp [mget, hk] at h
        exact List.mem_cons_of_mem _ (ih h)

theorem mget_of_mem_nodup {α : Type} {m : List (String × α)} {k : String} {v : α}
    (hn : (mkeys m).Nodup) (h : (k, v) ∈ m) : mget m k = some v := by
  induction m with
  | nil => simp at h
  | cons kv rest ih =>
      obtain ⟨k1, v1⟩ := kv
      simp only [mkeys, List.map_cons, List.nodup_cons] at hn
      rcases List.mem_cons.mp h with h1 | h1
      · rw [← h1]; simp [mget]
      · have hk : k1 ≠ k := by
          intro he
          exact hn.1 (he ▸ (List.mem_map.mpr ⟨(k, v), h1, rfl⟩))
        simp [mget, hk]
        exact ih hn.2 h1

theorem mget_mset_self {α : Type} (m : List (String × α)) (k : String) (v : α) :
    mget (mset m k v) k = some v := by
  induction m with
  | nil => simp [mset, mget]
  | cons kv rest ih =>
      obtain ⟨k1, v1⟩ := kv
      by_cases h : k1 = k
      · simp [mset, h, mget]
      · simp [mset, h, mget, ih]

theorem mget_mset_ne {α : Type} {m : List (String × α)} {k k' : String} {v : α}
    (h : k' ≠ k) : mget (mset m k v) k' = mget m k' := by
  induction m with
  | nil => simp [mset, mget, h, Ne.symm h]
  | cons kv rest ih =>
      obtain ⟨k1, v1⟩ := kv
      by_cases h1 : k1 = k
      · subst h1
        simp [mset, mget, Ne.symm h, h]
      · by_cases h2 : k1 = k'
        · subst h2; simp [mset, h1, mget]
        · simp [mset, h1, mget, h2, ih]

theorem mkeys_mset_of_mem {α : Type} {m : List (String × α)} {k : String} (v : α)
    (h : k ∈ mkeys m) : mkeys (mset m k v) = mkeys m := by
  induction m with
  | nil => simp [mkeys] at h
  | cons kv rest ih =>
      obtain ⟨k1, v1⟩ := kv
      by_cases h1 : k1 = k
      · simp [mset, h1, mkeys]
      · simp only [mkeys, List.map_cons] at h ⊢
        rcases List.mem_cons.mp h with h2 | h2
        · exact absurd h2.symm h1
        · have h3 := ih h2
          simp only [mkeys] at h3
          simp [mset, h1, mkeys, h3]

theorem mset_of_not_mem {α : Type} {m : List (String × α)} {k : String} (v : α)
    (h : k ∉ mkeys m) : mset m k v = m ++ [(k, v)] := by
  induction m with
  | nil => simp [mset]
  | cons kv rest ih =>
      obtain ⟨k1, v1⟩ := kv
      simp only [mkeys, List.map_cons, List.mem_cons] at h
      push_neg at h
      simp [mset, Ne.symm h.1, ih h.2]

theorem mkeys_append {α : Type} (m m' : List (String × α)) :
    mkeys (m ++ m') = mkeys m ++ mkeys m' := by
  simp [mkeys]

theorem mget_append_left {α : Type} {m : List (String × α)} (m' : List (String × α))
    {k : String} (h : k ∈ mkeys m) : mget (m ++ m') k = mget m k := by
  induction m with
  | nil => simp [mkeys] at h
  | cons kv rest ih =>
      obtain ⟨k1, v1⟩ := kv
      by_cases h1 : k1 = k
      · simp [mget, h1]
      · simp only [mkeys, List.map_cons, List.mem_cons] at h
        rcases h with h2 | h2
        · exact absurd h2.symm h1
        · simp [mget, h1, ih h2]

theorem mget_append_right {α : Type} {m : List (String × α)} (m' : List (String × α))
    {k : String} (h : k ∉ mkeys m) : mget (m ++ m') k = mget m' k := by
  induction m with
  | nil => simp
  | cons kv rest ih =>
      obtain ⟨k1, v1⟩ := kv
      simp only [mkeys, List.map_cons, List.mem_cons] at h
      push_neg at h
      simp [mget, Ne.symm h.1, ih h.2]

theorem mkeys_mapval {α β : Type} (m : List (String × α)) (g : String × α → β) :
    mkeys (m.map fun kv => (kv.1, g kv)) = mkeys m := by
  simp [mkeys]

theorem mget_mapval {α β : Type} (m : List (String × α)) (g : α → β) (k : String) :
    mget (m.map fun kv => (kv.1, g kv.2)) k = (mget m k).map g := by
  induction m with
  | nil => simp [mget]
  | cons kv rest ih =>
      obtain ⟨k1, v1⟩ := kv
      by_cases h : k1 = k
      · simp [mget, h]
      · simp [mget, h, ih]

theorem length_mset_of_mem {α : Type} {m : List (String × α)} {k : String} (v : α)
    (h : k ∈ mkeys m) : (mset m k v).length = m.length := by
  have := mkeys_mset_of_mem (m := m) (k := k) v h
  have h1 : (mkeys (mset m k v)).length = (mkeys m).length := by rw [this]
  simpa [mkeys] using h1

theorem mem_mvals_iff {α : Type} (m : List (String × α)) (v : α) :
    v ∈ mvals m ↔ ∃ k, (k, v) ∈ m := by
  constructor
  · intro hv
    rcases List.mem_map.mp hv with ⟨kv, hm, he⟩
    obtain ⟨k1, v1⟩ := kv
    cases he
    exact ⟨k1, hm⟩
  · rintro ⟨k, hm⟩
    exact List.mem_map.mpr ⟨(k, v), hm, rfl⟩

/-! Generic lemmas about the stable insertion sort. -/

theorem insLe_perm {α : Type} (le : α → α → Bool) (x : α) (l : List α) :
    List.Perm (insLe le x l) (x :: l) := by
  induction l with
  | nil => simp [insLe]
  | cons y ys ih =>
      by_cases h : le x y
      · simp [insLe, h]
      · simp only [insLe, h, if_false]
        exact (ih.cons y).trans (List.Perm.swap x y ys)

theorem sortByLe_perm {α : Type} (le : α → α → Bool) (l : List α) :
    List.Perm (sortByLe le l) l := by
  induction l with
  | nil => simp [sortByLe]
  | cons x xs ih => exact (insLe_perm le x (sortByLe le xs)).trans (ih.cons x)

theorem mem_sortByLe {α : Type} (le : α → α → Bool) (l : List α) (a : α) :
    a ∈ sortByLe le l ↔ a ∈ l :=
  (sortByLe_perm le l).mem_iff

theorem count_sortByLe {α : Type} [DecidableEq α] (le : α → α → Bool) (l : List α)
    (a : α) : (sortByLe le l).count a = l.count a :=
  (sortByLe_perm le l).count_eq a

theorem mem_insLe {α : Type} (le : α → α → Bool) (x : α) (l : List α) (a : α) :
    a ∈ insLe le x l ↔ a = x ∨ a ∈ l := by
  rw [(insLe_perm le x l).mem_iff, List.mem_cons]

theorem insLe_pairwise {α : Type} (le : α → α → Bool) (P : α → Prop) {x : α}
    {l : List α} (hPx : P x) (hPl : ∀ a ∈ l, P a)
    (htot : ∀ a b, P a → P b → le a b = true ∨ le b a = true)
    (htr : ∀ a b c, P a → P b → P c → le a b = true → le b c = true → le a c = true)
    (hs : List.Pairwise (fun a b => le a b = true) l) :
    List.Pairwise (fun a b => le a b = true) (insLe le x l) := by
  induction l with
  | nil => simp [insLe]
  | cons y ys ih =>
      rcases List.pairwise_cons.mp hs with ⟨hy, hys⟩
      have hPy : P y := hPl y (by simp)
      have hPys : ∀ a ∈ ys, P a := fun a ha => hPl a (by simp [ha])
      by_cases h : le x y = true
      · simp only [insLe, h, if_true]
        refine List.pairwise_cons.mpr ⟨?_, hs⟩
        intro b hb
        rcases List.mem_cons.mp hb with rfl | hb2
        · exact h
        · exact htr x y b hPx hPy (hPys b hb2) h (hy b hb2)
      · simp only [insLe, h, if_false]
        refine List.pairwise_cons.mpr ⟨?_, ih hPys hys⟩
        intro b hb
        rcases (mem_insLe le x ys b).mp hb with rfl | hb2
        · rcases htot b y hPx hPy with h1 | h1
          · exact absurd h1 h
          · exact h1
        · exact hy b hb2

theorem sortByLe_pairwise {α : Type} (le : α → α → Bool) (P : α → Prop)
    (l : List α) (hPl : ∀ a ∈ l, P a)
    (htot : ∀ a b, P a → P b → le a b = true ∨ le b a = true)
    (htr : ∀ a b c, P a → P b → P c → le a b = true → le b c = true → le a c = true) :
    List.Pairwise (fun a b => le a b = true) (sortByLe le l) := by
  induction l with
  | nil => simp [sortByLe]
  | cons x xs ih =>
      refine insLe_pairwise le P (hPl x (by simp)) ?_ htot htr
        (ih fun a ha => hPl a (by simp [ha]))
      intro a ha
      exact hPl a (by simp [(sortByLe_perm le xs).mem_iff.mp ha])

theorem insLe_congr {α : Type} (le le' : α → α → Bool) (x : α) (l : List α)
    (h : ∀ b ∈ l, le x b = le' x b) : insLe le x l = insLe le' x l := by
  induction l with
  | nil => rfl
  | cons y ys ih =>
      have hy := h y (by simp)
      by_cases hc : le' x y = true
      · simp [insLe, hy, hc]
      · simp only [insLe, hy, hc, if_false]
        rw [ih fun b hb => h b (by simp [hb])]

theorem sortByLe_congr {α : Type} (le le' : α → α → Bool) (l : List α)
    (h : ∀ a ∈ l, ∀ b ∈ l, le a b = le' a b) :
    sortByLe le l = sortByLe le' l := by
  induction l with
  | nil => rfl
  | cons x xs ih =>
      have ihx : sortByLe le xs = sortByLe le' xs := ih fun a ha b hb =>
        h a (by simp [ha]) b (by simp [hb])
      simp only [sortByLe, ihx]
      refine insLe_congr le le' x (sortByLe le' xs) ?_
      intro b hb
      exact h x (by simp) b (by simp [(sortByLe_perm le' xs).mem_iff.mp hb])

/-! Phase 1: closed forms for the COM-port assignment fold. -/

theorem assignStep_none {m : DevMap} {c : CPMap} {e : String × ComPortSrc}
    (h : mget m e.2.instancePath.upper = none) : assignStep (m, c) e = (m, c) := by
  simp [assignStep, h]

theorem assignStep_some {m : DevMap} {c : CPMap} {e : String × ComPortSrc}
    {dev : USBDevice} (h : mget m e.2.instancePath.upper = some dev) :
    assignStep (m, c) e
      = (mset m e.2.instancePath.upper
          { dev with comPorts := dev.comPorts ++ [comInfoOf e] },
         mset c e.1 (e.2.instancePath.upper, comInfoOf e)) := by
  simp [assignStep, h, comInfoOf]

theorem mkeys_assign_fold (cps : List (String × ComPortSrc)) :
    ∀ (m : DevMap) (c : CPMap), mkeys (cps.foldl assignStep (m, c)).1 = mkeys m := by
  induction cps with
  | nil => intro m c; rfl
  | cons e rest ih =>
      intro m c
      rw [List.foldl_cons]
      rcases h : mget m e.2.instancePath.upper with _ | dev
      · rw [assignStep_none h, ih]
      · rw [assignStep_some h, ih]
        refine mkeys_mset_of_mem _ ?_
        rw [← mget_isSome_iff, h]; rfl

theorem assign_fold_fst (cps : List (String × ComPortSrc)) :
    ∀ (m : DevMap) (c : CPMap) (k : String),
    mget ((cps.foldl assignStep (m, c)).1) k
      = (mget m k).map fun d => { d with comPorts := d.comPorts ++ assignedComs cps k } := by
  induction cps with
  | nil =>
      intro m c k
      show mget m k = _
      cases h : mget m k with
      | none => simp [h]
      | some d => simp [h, assignedComs]
  | cons e rest ih =>
      intro m c k
      rw [List.foldl_cons]
      rcases h : mget m e.2.instancePath.upper with _ | dev
      · rw [assignStep_none h, ih]
        by_cases hk : e.2.instancePath.upper = k
        · rw [← hk, h]
          simp
        · have hco : assignedComs (e :: rest) k = assignedComs rest k := by
            simp [assignedComs, List.filter_cons, hk]
          rw [hco]
      · rw [assignStep_some h, ih]
        by_cases hk : e.2.instancePath.upper = k
        · subst hk
          rw [mget_mset_self, h]
          have hco : assignedComs (e :: rest) e.2.instancePath.upper
              = comInfoOf e :: assignedComs rest e.2.instancePath.upper := by
            simp [assignedComs, List.filter_cons]
          rw [hco]
          simp
        · rw [mget_mset_ne (fun he => hk he.symm)]
          have hco : assignedComs (e :: rest) k = assignedComs rest k := by
            simp [assignedComs, List.filter_cons, hk]
          rw [hco]

theorem assign_fold_snd (cps : List (String × ComPortSrc)) :
    ∀ (m : DevMap) (c : CPMap),
    (cps.map (·.1)).Nodup → (∀ e ∈ cps, e.1 ∉ c.map (·.1)) →
    (cps.foldl assignStep (m, c)).2
      = c ++ (cps.filter fun e => (mget m (e.2.instancePath.upper)).isSome).map
          (fun e => (e.1, (e.2.instancePath.upper, comInfoOf e))) := by
  induction cps with
  | nil => intro m c _ _; simp
  | cons e rest ih =>
      intro m c hnd hdisj
      have hnd2 : (rest.map (·.1)).Nodup := (List.nodup_cons.mp hnd).2
      have he1 : e.1 ∉ rest.map (·.1) := (List.nodup_cons.mp hnd).1
      rw [List.foldl_cons]
      rcases h : mget m e.2.instancePath.upper with _ | dev
      · rw [assignStep_none h, ih m c hnd2 (fun x hx => hdisj x (by simp [hx]))]
        have hfalse : (mget m e.2.instancePath.upper).isSome = false := by rw [h]; rfl
        simp [List.filter_cons, hfalse]
      · rw [assignStep_some h]
        have hm1 : ∀ x : String × ComPortSrc,
            (mget (mset m e.2.instancePath.upper
                { dev with comPorts := dev.comPorts ++ [comInfoOf e] })
              (x.2.instancePath.upper)).isSome
            = (mget m (x.2.instancePath.upper)).isSome := by
          intro x
          by_cases hx : x.2.instancePath.upper = e.2.instancePath.upper
          · rw [hx, mget_mset_self, h]
            rfl
          · rw [mget_mset_ne hx]
        have hcm : mset c e.1 (e.2.instancePath.upper, comInfoOf e)
            = c ++ [(e.1, (e.2.instancePath.upper, comInfoOf e))] := by
          refine mset_of_not_mem _ ?_
          have := hdisj e (by simp)
          simpa [mkeys] using this
        rw [ih _ _ hnd2 ?_, hcm]
        · have hsome : (mget m e.2.instancePath.upper).isSome = true := by rw [h]; rfl
          rw [List.filter_congr (fun x _ => hm1 x)]
          simp [List.filter_cons, hsome]
        · intro x hx
          rw [hcm]
          simp only [List.map_append, List.mem_append]
          push_neg
          constructor
          · exact hdisj x (by simp [hx])
          · simp only [List.map_cons, List.map_nil, List.mem_singleton]
            intro hxe
            exact he1 (hxe ▸ List.mem_map.mpr ⟨x, hx, rfl⟩)

/-! Phase 3: closed forms for the linking fold. -/

theorem mget_isSome_of_keys_eq {m m' : DevMap} (h : mkeys m' = mkeys m) (q : String) :
    (mget m' q).isSome = (mget m q).isSome := by
  by_cases hq : q ∈ mkeys m
  · rw [(mget_isSome_iff m q).mpr hq, (mget_isSome_iff m' q).mpr (by rw [h]; exact hq)]
  · rw [(mget_eq_none_iff m q).mpr hq,
      (mget_eq_none_iff m' q).mpr (by rw [h]; exact hq)]

theorem resolvesParent_keys_eq {m m' : DevMap} (h : mkeys m' = mkeys m)
    (d : USBDevice) : resolvesParent m' d = resolvesParent m d := by
  cases hp : d.parentPath with
  | none => simp [resolvesParent, hp]
  | some p => simp [resolvesParent, hp, mget_isSome_of_keys_eq h]

theorem linksToB_set_children {m : DevMap} {k0 : String} {d0 : USBDevice}
    (X : List String) (h : mget m k0 = some d0) (c k : String) :
    linksToB (mset m k0 { d0 with children := X }) c k = linksToB m c k := by
  have hkeys : mkeys (mset m k0 { d0 with children := X }) = mkeys m :=
    mkeys_mset_of_mem _ (by rw [← mget_isSome_iff, h]; rfl)
  unfold linksToB
  by_cases hc : c = k0
  · subst hc
    rw [mget_mset_self, h]
    cases hp : d0.parentPath with
    | none => simp [hp]
    | some p =>
        rw [hp] at hkeys
        simp [hp, mget_isSome_of_keys_eq hkeys]
  · rw [mget_mset_ne hc]
    cases hmc : mget m c with
    | none => rfl
    | some d =>
        cases hp : d.parentPath with
        | none => simp [hp]
        | some p => simp [hp, mget_isSome_of_keys_eq hkeys]

theorem logMsgOf_set_children {m : DevMap} {k0 : String} {d0 : USBDevice}
    (X : List String) (h : mget m k0 = some d0) (c : String) :
    logMsgOf (mset m k0 { d0 with children := X }) c = logMsgOf m c := by
  have hkeys : mkeys (mset m k0 { d0 with children := X }) = mkeys m :=
    mkeys_mset_of_mem _ (by rw [← mget_isSome_iff, h]; rfl)
  unfold logMsgOf
  by_cases hc : c = k0
  · subst hc
    rw [mget_mset_self, h]
    cases hp : d0.parentPath with
    | none => simp [hp]
    | some p =>
        rw [hp] at hkeys
        simp [hp, mget_isSome_of_keys_eq hkeys]
  · rw [mget_mset_ne hc]
    cases hmc : mget m c with
    | none => rfl
    | some d =>
        cases hp : d.parentPath with
        | none => simp [hp]
        | some p => simp [hp, mget_isSome_of_keys_eq hkeys]

theorem linkStep_missing {m : DevMap} {logs : List String} {c : String}
    (h : mget m c = none) : linkStep (m, logs) c = (m, logs) := by
  simp [linkStep, h]

theorem linkStep_noparent {m : DevMap} {logs : List String} {c : String}
    {dev : USBDevice} (h : mget m c = some dev) (hp : dev.parentPath = none) :
    linkStep (m, logs) c = (m, logs ++ ["No parent: " ++ dev.instancePath]) := by
  simp [linkStep, h, hp]

theorem linkStep_emptyparent {m : DevMap} {logs : List String} {c : String}
    {dev : USBDevice} (h : mget m c = some dev) (hp : dev.parentPath = some "") :
    linkStep (m, logs) c = (m, logs ++ ["No parent: " ++ dev.instancePath]) := by
  simp [linkStep, h, hp]

theorem linkStep_resolved {m : DevMap} {logs : List String} {c : String}
    {dev parent : USBDevice} {p : String} (h : mget m c = some dev)
    (hp : dev.parentPath = some p) (hne : p ≠ "")
    (hpar : mget m p.upper = some parent) :
    linkStep (m, logs) c
      = (mset m p.upper { parent with children := parent.children ++ [c] }, logs) := by
  simp [linkStep, h, hp, hne, hpar]

theorem linkStep_orphan {m : DevMap} {logs : List String} {c : String}
    {dev : USBDevice} {p : String} (h : mget m c = some dev)
    (hp : dev.parentPath = some p) (hne : p ≠ "")
    (hpar : mget m p.upper = none) :
    linkStep (m, logs) c
      = (m, logs ++ ["Orphan device: " ++ dev.instancePath ++ " (Parent: " ++ p ++ ")"]) := by
  simp [linkStep, h, hp, hne, hpar]

theorem link_fold (ks : List String) :
    ∀ (m : DevMap) (logs : List String),
    (∀ k, mget ((ks.foldl linkStep (m, logs)).1) k
        = (mget m k).map fun d =>
            { d with children := d.children ++ ks.filter (fun c => linksToB m c k) })
    ∧ (ks.foldl linkStep (m, logs)).2 = logs ++ ks.flatMap (logMsgOf m) := by
  induction ks with
  | nil =>
      intro m logs
      constructor
      · intro k
        show mget m k = _
        cases h : mget m k with
        | none => simp
        | some d => simp
      · simp
  | cons c rest ih =>
      intro m logs
      rw [List.foldl_cons]
      rcases h : mget m c with _ | dev
      · rw [linkStep_missing h]
        have hlog : logMsgOf m c = [] := by simp [logMsgOf, h]
        have hlb : ∀ k, linksToB m c k = false := by intro k; simp [linksToB, h]
        refine ⟨fun k => ?_, ?_⟩
        · rw [(ih m logs).1 k]
          simp [List.filter_cons, hlb]
        · rw [(ih m logs).2]
          simp [hlog]
      · rcases hp : dev.parentPath with _ | p
        · rw [linkStep_noparent h hp]
          have hlog : logMsgOf m c = ["No parent: " ++ dev.instancePath] := by
            simp [logMsgOf, h, hp]
          have hlb : ∀ k, linksToB m c k = false := by intro k; simp [linksToB, h, hp]
          refine ⟨fun k => ?_, ?_⟩
          · rw [(ih m _).1 k]
            simp [List.filter_cons, hlb]
          · rw [(ih m _).2]
            simp [hlog]
        · by_cases hne : p = ""
          · subst hne
            rw [linkStep_emptyparent h hp]
            have hlog : logMsgOf m c = ["No parent: " ++ dev.instancePath] := by
              simp [logMsgOf, h, hp]
            have hlb : ∀ k, linksToB m c k = false := by
              intro k; simp [linksToB, h, hp]
            refine ⟨fun k => ?_, ?_⟩
            · rw [(ih m _).1 k]
              simp [List.filter_cons, hlb]
            · rw [(ih m _).2]
              simp [hlog]
          · rcases hpar : mget m p.upper with _ | parent
            · rw [linkStep_orphan h hp hne hpar]
              have hlog : logMsgOf m c
                  = ["Orphan device: " ++ dev.instancePath ++ " (Parent: " ++ p ++ ")"] := by
                simp [logMsgOf, h, hp, hne, hpar]
              have hlb : ∀ k, linksToB m c k = false := by
                intro k; simp [linksToB, h, hp, hpar]
              refine ⟨fun k => ?_, ?_⟩
              · rw [(ih m _).1 k]
                simp [List.filter_cons, hlb]
              · rw [(ih m _).2]
                simp [hlog]
            · rw [linkStep_resolved h hp hne hpar]
              set m1 := mset m p.upper
                { parent with children := parent.children ++ [c] } with hm1
              have hfl : ∀ x k, linksToB m1 x k = linksToB m x k := fun x k =>
                linksToB_set_children _ hpar x k
              have hlg : ∀ x, logMsgOf m1 x = logMsgOf m x := fun x =>
                logMsgOf_set_children _ hpar x
              have hlbc : ∀ k, linksToB m c k = (p.upper == k) := by
                intro k
                simp [linksToB, h, hp, hpar, bne_iff_ne.mpr hne]
              refine ⟨fun k => ?_, ?_⟩
              · rw [(ih m1 logs).1 k]
                rw [List.filter_congr (fun x _ => hfl x k)]
                by_cases hk : p.upper = k
                · subst hk
                  rw [mget_mset_self, hpar]
                  have hcf : List.filter (fun x => linksToB m x p.upper) (c :: rest)
                      = c :: List.filter (fun x => linksToB m x p.upper) rest := by
                    simp [List.filter_cons, hlbc]
                  rw [hcf]
                  simp
                · rw [mget_mset_ne (fun he => hk he.symm)]
                  have hcf : List.filter (fun x => linksToB m x k) (c :: rest)
                      = List.filter (fun x => linksToB m x k) rest := by
                    simp [List.filter_cons, hlbc, hk]
                  rw [hcf]
              · rw [(ih m1 logs).2]
                have hlog : logMsgOf m c = [] := by
                  simp [logMsgOf, h, hp, hne, hpar]
                have hcong : rest.flatMap (logMsgOf m1) = rest.flatMap (logMsgOf m) :=
                  List.flatMap_congr (fun x _ => hlg x)
                rw [hcong]
                simp [List.flatMap_cons, hlog]

theorem mkeys_link_fold (ks : List String) :
    ∀ (m : DevMap) (logs : List String),
    mkeys (ks.foldl linkStep (m, logs)).1 = mkeys m := by
  induction ks with
  | nil => intro m logs; rfl
  | cons c rest ih =>
      intro m logs
      rw [List.foldl_cons]
      rcases h : mget m c with _ | dev
      · rw [linkStep_missing h]; exact ih m logs
      · rcases hp : dev.parentPath with _ | p
        · rw [linkStep_noparent h hp]; exact ih m _
        · by_cases hne : p = ""
          · subst hne
            rw [linkStep_emptyparent h hp]; exact ih m _
          · rcases hpar : mget m p.upper with _ | parent
            · rw [linkStep_orphan h hp hne hpar]; exact ih m _
            · rw [linkStep_resolved h hp hne hpar, ih]
              exact mkeys_mset_of_mem _ (by rw [← mget_isSome_iff, hpar]; rfl)

theorem comSortedMap_mget (devs : DevMap) (cps : List (String × ComPortSrc))
    (k : String) :
    mget (comSortedMap devs cps) k
      = (mget (assignedPair devs cps).1 k).map sortComPortsDev := by
  unfold comSortedMap sortComPortsAll
  exact mget_mapval _ sortComPortsDev k

theorem mkeys_comSortedMap (devs : DevMap) (cps : List (String × ComPortSrc)) :
    mkeys (comSortedMap devs cps) = mkeys devs := by
  unfold comSortedMap sortComPortsAll
  rw [mkeys_mapval]
  exact mkeys_assign_fold cps devs []

theorem sortChildrenAll_mget (m : DevMap) (k : String) :
    mget (sortChildrenAll m) k = (mget m k).map (sortChildrenDev m) := by
  unfold sortChildrenAll
  exact mget_mapval _ (sortChildrenDev m) k

theorem mkeys_sortChildrenAll (m : DevMap) :
    mkeys (sortChildrenAll m) = mkeys m := by
  unfold sortChildrenAll
  exact mkeys_mapval m _

theorem mkeys_linkedPair (devs : DevMap) (cps : List (String × ComPortSrc)) :
    mkeys (linkedPair devs cps).1 = mkeys devs := by
  unfold linkedPair linkChildren
  rw [mkeys_link_fold, mkeys_comSortedMap]

theorem mkeys_childSortedMap (devs : DevMap) (cps : List (String × ComPortSrc)) :
    mkeys (childSortedMap devs cps) = mkeys devs := by
  unfold childSortedMap
  rw [mkeys_sortChildrenAll, mkeys_linkedPair]

/-! Parent-chain machinery: iterated parent steps, distance to the root
candidate, and the chain the traversal assigns. -/

theorem pIter_zero (m : DevMap) (k : String) : pIter m 0 k = some k := rfl

theorem pIter_succ (m : DevMap) (t : Nat) (k : String) :
    pIter m (t + 1) k
      = match pNext m k with
        | some k1 => pIter m t k1
        | none => none := rfl

theorem pIter_add (m : DevMap) (a b : Nat) :
    ∀ k, pIter m (a + b) k
      = match pIter m a k with
        | some x => pIter m b x
        | none => none := by
  induction a with
  | zero => intro k; simp [pIter_zero, Nat.zero_add]
  | succ a ih =>
      intro k
      have hra : a + 1 + b = (a + b) + 1 := by omega
      rw [hra]
      rw [pIter_succ, pIter_succ]
      cases pNext m k with
      | none => rfl
      | some k1 => exact ih k1

theorem pIter_back (m : DevMap) (t : Nat) (k : String) :
    pIter m (t + 1) k
      = match pIter m t k with
        | some x => pNext m x
        | none => none := by
  rw [pIter_add m t 1]
  cases pIter m t k with
  | none => rfl
  | some x =>
      show pIter m 1 x = pNext m x
      rw [pIter_succ]
      cases pNext m x with
      | none => rfl
      | some y => rfl

theorem rootDist_none {m : DevMap} {f : Nat} {k : String}
    (hm : mget m k = none) : rootDist m (f + 1) k = none := by
  unfold rootDist
  simp [hm]

theorem rootDist_zero {m : DevMap} {f : Nat} {k : String} {dev : USBDevice}
    (hm : mget m k = some dev) (hr : resolvesParent m dev = false) :
    rootDist m (f + 1) k = some 0 := by
  unfold rootDist
  simp [hm, hr]

theorem rootDist_succ {m : DevMap} {f : Nat} {k : String} {dev : USBDevice}
    (hm : mget m k = some dev) (hr : resolvesParent m dev = true) :
    rootDist m (f + 1) k = (rootDist m f (parentKeyOf dev)).map (· + 1) := by
  conv_lhs => unfold rootDist
  simp [hm, hr]

theorem bool_eq_false_of_ne_true {b : Bool} (h : ¬b = true) : b = false := by
  cases b
  · rfl
  · exact absurd rfl h

theorem rootDist_cases {m : DevMap} {f : Nat} {k : String} {d : Nat}
    (h : rootDist m (f + 1) k = some d) :
    ∃ dev, mget m k = some dev ∧
      ((resolvesParent m dev = false ∧ d = 0) ∨
       (resolvesParent m dev = true ∧
         ∃ d0, d = d0 + 1 ∧ rootDist m f (parentKeyOf dev) = some d0)) := by
  rcases hm : mget m k with _ | dev
  · rw [rootDist_none hm] at h
    exact Option.noConfusion h
  · by_cases hr : resolvesParent m dev = true
    · rw [rootDist_succ hm hr] at h
      rcases hrec : rootDist m f (parentKeyOf dev) with _ | d0
      · rw [hrec] at h; exact Option.noConfusion h
      · rw [hrec] at h
        simp only [Option.map_some'] at h
        exact ⟨dev, rfl, Or.inr ⟨hr, d0, (Option.some.inj h).symm, hrec⟩⟩
    · have hr' := bool_eq_false_of_ne_true hr
      rw [rootDist_zero hm hr'] at h
      exact ⟨dev, rfl, Or.inl ⟨hr', (Option.some.inj h).symm⟩⟩

theorem rootDist_lt_fuel {m : DevMap} :
    ∀ {f : Nat} {k : String} {d : Nat}, rootDist m f k = some d → d < f := by
  intro f
  induction f with
  | zero => intro k d h; simp [rootDist] at h
  | succ f ih =>
      intro k d h
      rcases rootDist_cases h with ⟨dev, _, hc | hc⟩
      · omega
      · rcases hc with ⟨_, d0, rfl, hrec⟩
        exact Nat.succ_lt_succ (ih hrec)

theorem rootDist_mono {m : DevMap} :
    ∀ {f g : Nat} {k : String} {d : Nat}, f ≤ g →
      rootDist m f k = some d → rootDist m g k = some d := by
  intro f
  induction f with
  | zero => intro g k d _ h; simp [rootDist] at h
  | succ f ih =>
      intro g k d hfg h
      rcases g with _ | g
      · exact absurd hfg (by omega)
      rcases rootDist_cases h with ⟨dev, hm, hc | hc⟩
      · rcases hc with ⟨hr, rfl⟩
        exact rootDist_zero hm hr
      · rcases hc with ⟨hr, d0, rfl, hrec⟩
        rw [rootDist_succ hm hr, ih (by omega) hrec]
        rfl

theorem rootDist_unique {m : DevMap} {f g : Nat} {k : String} {a b : Nat}
    (ha : rootDist m f k = some a) (hb : rootDist m g k = some b) : a = b := by
  have h1 := rootDist_mono (Nat.le_max_left f g) ha
  have h2 := rootDist_mono (Nat.le_max_right f g) hb
  rw [h1] at h2
  exact Option.some.inj h2

theorem rootDist_mget {m : DevMap} {f : Nat} {k : String} {d : Nat}
    (h : rootDist m f k = some d) : ∃ dev, mget m k = some dev := by
  rcases f with _ | f
  · simp [rootDist] at h
  · rcases rootDist_cases h with ⟨dev, hm, _⟩
    exact ⟨dev, hm⟩

theorem pNext_of_resolves {m : DevMap} {k : String} {dev : USBDevice}
    (hm : mget m k = some dev) (hr : resolvesParent m dev = true) :
    pNext m k = some (parentKeyOf dev) := by
  unfold pNext
  simp [hm, hr]

theorem pNext_of_not_resolves {m : DevMap} {k : String} {dev : USBDevice}
    (hm : mget m k = some dev) (hr : resolvesParent m dev = false) :
    pNext m k = none := by
  unfold pNext
  simp [hm, hr]

theorem pNext_none_of_missing {m : DevMap} {k : String}
    (hm : mget m k = none) : pNext m k = none := by
  unfold pNext
  simp [hm]

theorem rootDist_step {m : DevMap} {f : Nat} {k : String} {d : Nat}
    (h : rootDist m (f + 1) k = some (d + 1)) :
    ∃ k1, pNext m k = some k1 ∧ rootDist m f k1 = some d := by
  rcases rootDist_cases h with ⟨dev, hm, hc | hc⟩
  · omega
  · rcases hc with ⟨hr, d0, hd, hrec⟩
    have hd0 : d0 = d := by omega
    exact ⟨parentKeyOf dev, pNext_of_resolves hm hr, hd0 ▸ hrec⟩

theorem pIter_rootDist {m : DevMap} :
    ∀ (t : Nat) {f : Nat} {k : String} {d : Nat} {x : String},
      rootDist m f k = some d → pIter m t k = some x →
      t ≤ d ∧ rootDist m (f - t) x = some (d - t) := by
  intro t
  induction t with
  | zero =>
      intro f k d x hd hx
      cases Option.some.inj hx
      exact ⟨Nat.zero_le d, by simpa using hd⟩
  | succ t ih =>
      intro f k d x hd hx
      rw [pIter_succ] at hx
      rcases hn : pNext m k with _ | k1
      · rw [hn] at hx; exact Option.noConfusion hx
      · rw [hn] at hx
        rcases f with _ | f
        · simp [rootDist] at hd
        rcases d with _ | d
        · rcases rootDist_cases hd with ⟨dev, hm, hc | hc⟩
          · rcases hc with ⟨hr, _⟩
            rw [pNext_of_not_resolves hm hr] at hn
            exact Option.noConfusion hn
          · rcases hc with ⟨_, d0, hd0, _⟩
            exact absurd hd0 (by omega)
        · rcases rootDist_step hd with ⟨k1', hn', hd'⟩
          rw [hn] at hn'
          cases Option.some.inj hn'
          rcases ih hd' hx with ⟨ht, hrd⟩
          refine ⟨by omega, ?_⟩
          have he1 : f + 1 - (t + 1) = f - t := by omega
          have he2 : d + 1 - (t + 1) = d - t := by omega
          rw [he1, he2]
          exact hrd

theorem pIter_mem {m : DevMap} {f : Nat} {k : String} {d : Nat}
    (hd : rootDist m f k = some d) {t : Nat} {x : String}
    (hx : pIter m t k = some x) : x ∈ mkeys m := by
  rcases pIter_rootDist t hd hx with ⟨ht, hrd⟩
  rcases rootDist_mget hrd with ⟨dev, hm⟩
  rw [← mget_isSome_iff, hm]
  rfl

theorem pIter_isSome_of_le {m : DevMap} {f : Nat} {k : String} {d : Nat}
    (hd : rootDist m f k = some d) :
    ∀ {t : Nat}, t ≤ d → (pIter m t k).isSome = true := by
  intro t
  induction t with
  | zero => intro _; rfl
  | succ t ih =>
      intro ht
      have ht' : t ≤ d := by omega
      rcases hx : pIter m t k with _ | x
      · rw [hx] at ih; exact absurd (ih ht') (by simp)
      · rcases pIter_rootDist t hd hx with ⟨_, hrd⟩
        have hdx : d - t ≠ 0 := by omega
        rcases hdt : d - t with _ | d1
        · exact absurd hdt hdx
        · rw [hdt] at hrd
          rcases hfd : f - t with _ | f1
          · rw [hfd] at hrd; simp [rootDist] at hrd
          · rw [hfd] at hrd
            rcases rootDist_step hrd with ⟨x1, hn, _⟩
            rw [pIter_back, hx]
            show (pNext m x).isSome = true
            rw [hn]
            rfl

theorem rootDist_lt_length {m : DevMap} {f : Nat} {k : String} {d : Nat}
    (h : rootDist m f k = some d) : d < m.length := by
  by_contra hge
  push_neg at hge
  set n := m.length with hn
  have hmap : ∀ i : Fin (n + 1), (pIter m (i : Nat) k).getD "" ∈ (mkeys m).toFinset := by
    intro i
    have hle : (i : Nat) ≤ d := by
      have := i.isLt
      omega
    have hs := pIter_isSome_of_le h hle
    rcases hx : pIter m (i : Nat) k with _ | x
    · rw [hx] at hs; exact absurd hs (by simp)
    · simp only [hx, Option.getD_some]
      rw [List.mem_toFinset]
      exact pIter_mem h hx
  have hcard : ((mkeys m).toFinset).card < (Finset.univ : Finset (Fin (n + 1))).card := by
    have h1 : ((mkeys m).toFinset).card ≤ (mkeys m).length := (mkeys m).toFinset_card_le
    have h2 : (mkeys m).length = n := by simp [mkeys, hn]
    simp only [Finset.card_univ, Fintype.card_fin]
    omega
  rcases Finset.exists_ne_map_eq_of_card_lt_of_maps_to hcard (fun i _ => hmap i)
    with ⟨i, _, j, _, hij, heq⟩
  rcases Nat.lt_or_ge (i : Nat) (j : Nat) with hlt | hge2
  case _ =>
    -- symmetric handling below; extract the contradiction for i < j
    have hile : (i : Nat) ≤ d := by have := i.isLt; omega
    have hjle : (j : Nat) ≤ d := by have := j.isLt; omega
    rcases hxi : pIter m (i : Nat) k with _ | x
    · have := pIter_isSome_of_le h hile; rw [hxi] at this; exact absurd this (by simp)
    rcases hxj : pIter m (j : Nat) k with _ | y
    · have := pIter_isSome_of_le h hjle; rw [hxj] at this; exact absurd this (by simp)
    have hxy : x = y := by
      have := heq
      rw [hxi, hxj] at this
      simpa using this
    subst hxy
    rcases pIter_rootDist (i : Nat) h hxi with ⟨_, hrdi⟩
    rcases pIter_rootDist (j : Nat) h hxj with ⟨_, hrdj⟩
    have : d - (i : Nat) = d - (j : Nat) := rootDist_unique hrdi hrdj
    omega
  case _ =>
    have hjlt : (j : Nat) < (i : Nat) := by
      rcases Nat.lt_or_ge (j : Nat) (i : Nat) with h1 | h1
      · exact h1
      · exact absurd (Fin.ext (by omega)) hij
    have hile : (i : Nat) ≤ d := by have := i.isLt; omega
    have hjle : (j : Nat) ≤ d := by have := j.isLt; omega
    rcases hxi : pIter m (i : Nat) k with _ | x
    · have := pIter_isSome_of_le h hile; rw [hxi] at this; exact absurd this (by simp)
    rcases hxj : pIter m (j : Nat) k with _ | y
    · have := pIter_isSome_of_le h hjle; rw [hxj] at this; exact absurd this (by simp)
    have hxy : x = y := by
      have := heq
      rw [hxi, hxj] at this
      simpa using this
    subst hxy
    rcases pIter_rootDist (i : Nat) h hxi with ⟨_, hrdi⟩
    rcases pIter_rootDist (j : Nat) h hxj with ⟨_, hrdj⟩
    have : d - (i : Nat) = d - (j : Nat) := rootDist_unique hrdi hrdj
    omega

theorem termRoot_none {m : DevMap} {f : Nat} {k : String}
    (hm : mget m k = none) : termRoot m (f + 1) k = none := by
  unfold termRoot
  simp [hm]

theorem termRoot_zero {m : DevMap} {f : Nat} {k : String} {dev : USBDevice}
    (hm : mget m k = some dev) (hr : resolvesParent m dev = false) :
    termRoot m (f + 1) k = some k := by
  unfold termRoot
  simp [hm, hr]

theorem termRoot_succ {m : DevMap} {f : Nat} {k : String} {dev : USBDevice}
    (hm : mget m k = some dev) (hr : resolvesParent m dev = true) :
    termRoot m (f + 1) k = termRoot m f (parentKeyOf dev) := by
  conv_lhs => unfold termRoot
  simp [hm, hr]

theorem specChain_none {m : DevMap} {f : Nat} {k : String}
    (hm : mget m k = none) : specChain m (f + 1) k = none := by
  unfold specChain
  simp [hm]

theorem specChain_base {m : DevMap} {f : Nat} {k : String} {dev : USBDevice}
    (hm : mget m k = some dev) (hr : resolvesParent m dev = false) :
    specChain m (f + 1) k = some "1" := by
  unfold specChain
  simp [hm, hr]

theorem specChain_succ {m : DevMap} {f : Nat} {k : String} {dev : USBDevice}
    (hm : mget m k = some dev) (hr : resolvesParent m dev = true) :
    specChain m (f + 1) k
      = (specChain m f (parentKeyOf dev)).map (· ++ "-" ++ Nat.repr dev.portNumber) := by
  conv_lhs => unfold specChain
  simp [hm, hr]

theorem rootDist_termRoot_specChain {m : DevMap} :
    ∀ {f : Nat} {k : String} {d : Nat}, rootDist m f k = some d →
      ∃ r c, termRoot m f k = some r ∧ specChain m f k = some c := by
  intro f
  induction f with
  | zero => intro k d h; simp [rootDist] at h
  | succ f ih =>
      intro k d h
      rcases rootDist_cases h with ⟨dev, hm, hc | hc⟩
      · rcases hc with ⟨hr, _⟩
        exact ⟨k, "1", termRoot_zero hm hr, specChain_base hm hr⟩
      · rcases hc with ⟨hr, d0, _, hrec⟩
        rcases ih hrec with ⟨r, c, htr, hsc⟩
        refine ⟨r, c ++ "-" ++ Nat.repr dev.portNumber, ?_, ?_⟩
        · rw [termRoot_succ hm hr]; exact htr
        · rw [specChain_succ hm hr, hsc]; rfl

theorem termRoot_mono {m : DevMap} :
    ∀ {f g : Nat} {k : String} {r : String} {d : Nat}, f ≤ g →
      rootDist m f k = some d →
      termRoot m f k = some r → termRoot m g k = some r := by
  intro f
  induction f with
  | zero => intro g k r d _ hd _; simp [rootDist] at hd
  | succ f ih =>
      intro g k r d hfg hd ht
      rcases g with _ | g
      · exact absurd hfg (by omega)
      rcases rootDist_cases hd with ⟨dev, hm, hc | hc⟩
      · rcases hc with ⟨hr, _⟩
        rw [termRoot_zero hm hr] at ht ⊢
        exact ht
      · rcases hc with ⟨hr, d0, _, hrec⟩
        rw [termRoot_succ hm hr] at ht
        rw [termRoot_succ hm hr]
        exact ih (by omega) hrec ht

theorem specChain_mono {m : DevMap} :
    ∀ {f g : Nat} {k : String} {c : String} {d : Nat}, f ≤ g →
      rootDist m f k = some d →
      specChain m f k = some c → specChain m g k = some c := by
  intro f
  induction f with
  | zero => intro g k c d _ hd _; simp [rootDist] at hd
  | succ f ih =>
      intro g k c d hfg hd hs
      rcases g with _ | g
      · exact absurd hfg (by omega)
      rcases rootDist_cases hd with ⟨dev, hm, hc | hc⟩
      · rcases hc with ⟨hr, _⟩
        rw [specChain_base hm hr] at hs ⊢
        exact hs
      · rcases hc with ⟨hr, d0, _, hrec⟩
        rw [specChain_succ hm hr] at hs
        rw [specChain_succ hm hr]
        rcases hsc : specChain m f (parentKeyOf dev) with _ | c0
        · rw [hsc] at hs; exact Option.noConfusion hs
        · rw [hsc] at hs
          rw [ih (by omega) hrec hsc]
          exact hs

theorem specChain_ne_empty {m : DevMap} :
    ∀ {f : Nat} {k : String} {c : String}, specChain m f k = some c → c ≠ "" := by
  intro f
  induction f with
  | zero => intro k c h; simp [specChain] at h
  | succ f ih =>
      intro k c h
      rcases hm : mget m k with _ | dev
      · rw [specChain_none hm] at h; exact Option.noConfusion h
      · by_cases hr : resolvesParent m dev = true
        · rw [specChain_succ hm hr] at h
          rcases hsc : specChain m f (parentKeyOf dev) with _ | c0
          · rw [hsc] at h; exact Option.noConfusion h
          · rw [hsc] at h
            simp only [Option.map_some'] at h
            cases Option.some.inj h
            intro he
            have hlen : (c0 ++ "-" ++ Nat.repr dev.portNumber).data
                = c0.data ++ "-".data ++ (Nat.repr dev.portNumber).data := by
              rw [String.data_append, String.data_append]
            rw [String.ext_iff] at he
            rw [hlen] at he
            simp at he
        · have hr' := bool_eq_false_of_ne_true hr
          rw [specChain_base hm hr'] at h
          cases Option.some.inj h
          intro he
          rw [String.ext_iff] at he
          simp at he

/-! SameStruct: transport of the parent-chain machinery across maps that
differ only in `portChain` fields (what the chain traversal mutates). -/

theorem sameShape_refl (d : USBDevice) : sameShape d d := rfl

theorem sameShape_fields {d d' : USBDevice} (h : sameShape d d') :
    d'.instancePath = d.instancePath ∧ d'.parentPath = d.parentPath ∧
    d'.portNumber = d.portNumber ∧ d'.isHub = d.isHub ∧ d'.vid = d.vid ∧
    d'.children = d.children ∧ d'.comPorts = d.comPorts := by
  rw [h]
  exact ⟨rfl, rfl, rfl, rfl, rfl, rfl, rfl⟩

theorem SameStruct_refl (m : DevMap) : SameStruct m m := by
  refine ⟨rfl, fun k => ?_⟩
  cases mget m k with
  | none => trivial
  | some d => exact sameShape_refl d

theorem SameStruct_mget_none {m m' : DevMap} (hS : SameStruct m m') {k : String}
    (h : mget m k = none) : mget m' k = none := by
  have h2 := hS.2 k
  rw [h] at h2
  cases hm' : mget m' k with
  | none => rfl
  | some d' => rw [hm'] at h2; exact absurd h2 (by simp)

theorem SameStruct_mget_some {m m' : DevMap} (hS : SameStruct m m') {k : String}
    {d : USBDevice} (h : mget m k = some d) :
    ∃ d', mget m' k = some d' ∧ sameShape d d' := by
  have h2 := hS.2 k
  rw [h] at h2
  cases hm' : mget m' k with
  | none => rw [hm'] at h2; exact absurd h2 (by simp)
  | some d' => rw [hm'] at h2; exact ⟨d', rfl, h2⟩

theorem SameStruct_resolves {m m' : DevMap} (hS : SameStruct m m')
    {d d' : USBDevice} (h : sameShape d d') :
    resolvesParent m' d' = resolvesParent m d := by
  have hpp := (sameShape_fields h).2.1
  cases hp : d.parentPath with
  | none => simp [resolvesParent, hpp, hp]
  | some p =>
      simp only [resolvesParent, hpp, hp]
      rw [mget_isSome_of_keys_eq hS.1]

theorem SameStruct_pNext {m m' : DevMap} (hS : SameStruct m m') (k : String) :
    pNext m' k = pNext m k := by
  cases hm : mget m k with
  | none =>
      unfold pNext
      rw [SameStruct_mget_none hS hm, hm]
  | some d =>
      rcases SameStruct_mget_some hS hm with ⟨d', hm', hsh⟩
      unfold pNext
      rw [hm', hm]
      show (if resolvesParent m' d' = true then some (parentKeyOf d') else none)
        = (if resolvesParent m d = true then some (parentKeyOf d) else none)
      rw [SameStruct_resolves hS hsh]
      have hpk : parentKeyOf d' = parentKeyOf d := by
        unfold parentKeyOf
        rw [(sameShape_fields hsh).2.1]
      rw [hpk]

theorem SameStruct_rootDist {m m' : DevMap} (hS : SameStruct m m') :
    ∀ (f : Nat) (k : String), rootDist m' f k = rootDist m f k := by
  intro f
  induction f with
  | zero => intro k; rfl
  | succ f ih =>
      intro k
      cases hm : mget m k with
      | none => rw [rootDist_none (SameStruct_mget_none hS hm), rootDist_none hm]
      | some d =>
          rcases SameStruct_mget_some hS hm with ⟨d', hm', hsh⟩
          have hres := SameStruct_resolves hS hsh
          have hpk : parentKeyOf d' = parentKeyOf d := by
            unfold parentKeyOf
            rw [(sameShape_fields hsh).2.1]
          cases hr : resolvesParent m d with
          | false =>
              rw [rootDist_zero hm hr, rootDist_zero hm' (by rw [hres, hr])]
          | true =>
              rw [rootDist_succ hm hr, rootDist_succ hm' (by rw [hres, hr]), hpk, ih]

theorem SameStruct_termRoot {m m' : DevMap} (hS : SameStruct m m') :
    ∀ (f : Nat) (k : String), termRoot m' f k = termRoot m f k := by
  intro f
  induction f with
  | zero => intro k; rfl
  | succ f ih =>
      intro k
      cases hm : mget m k with
      | none => rw [termRoot_none (SameStruct_mget_none hS hm), termRoot_none hm]
      | some d =>
          rcases SameStruct_mget_some hS hm with ⟨d', hm', hsh⟩
          have hres := SameStruct_resolves hS hsh
          have hpk : parentKeyOf d' = parentKeyOf d := by
            unfold parentKeyOf
            rw [(sameShape_fields hsh).2.1]
          cases hr : resolvesParent m d with
          | false =>
              rw [termRoot_zero hm hr, termRoot_zero hm' (by rw [hres, hr])]
          | true =>
              rw [termRoot_succ hm hr, termRoot_succ hm' (by rw [hres, hr]), hpk, ih]

theorem SameStruct_specChain {m m' : DevMap} (hS : SameStruct m m') :
    ∀ (f : Nat) (k : String), specChain m' f k = specChain m f k := by
  intro f
  induction f with
  | zero => intro k; rfl
  | succ f ih =>
      intro k
      cases hm : mget m k with
      | none => rw [specChain_none (SameStruct_mget_none hS hm), specChain_none hm]
      | some d =>
          rcases SameStruct_mget_some hS hm with ⟨d', hm', hsh⟩
          have hres := SameStruct_resolves hS hsh
          have hpk : parentKeyOf d' = parentKeyOf d := by
            unfold parentKeyOf
            rw [(sameShape_fields hsh).2.1]
          have hpn : d'.portNumber = d.portNumber := (sameShape_fields hsh).2.2.1
          cases hr : resolvesParent m d with
          | false =>
              rw [specChain_base hm hr, specChain_base hm' (by rw [hres, hr])]
          | true =>
              rw [specChain_succ hm hr, specChain_succ hm' (by rw [hres, hr]),
                hpk, ih, hpn]

theorem SameStruct_children {m m' : DevMap} (hS : SameStruct m m') (k : String) :
    childrenOfKey m' k = childrenOfKey m k := by
  cases hm : mget m k with
  | none => unfold childrenOfKey; rw [SameStruct_mget_none hS hm, hm]
  | some d =>
      rcases SameStruct_mget_some hS hm with ⟨d', hm', hsh⟩
      unfold childrenOfKey
      rw [hm', hm]
      show d'.children = d.children
      rw [(sameShape_fields hsh).2.2.2.2.2.1]

theorem SameStruct_mset_chain {m m' : DevMap} (hS : SameStruct m m') {k : String}
    {d' : USBDevice} (h : mget m' k = some d') (c : String) :
    SameStruct m (mset m' k { d' with portChain := c }) := by
  have hmem : k ∈ mkeys m' := by rw [← mget_isSome_iff, h]; rfl
  refine ⟨by rw [mkeys_mset_of_mem _ hmem, hS.1], fun q => ?_⟩
  by_cases hq : q = k
  · subst hq
    rw [mget_mset_self]
    have h2 := hS.2 q
    cases hm : mget m q with
    | none =>
        rw [hm, h] at h2
        exact (h2 : False).elim
    | some d =>
        rw [hm, h] at h2
        have h2' : sameShape d d' := h2
        show sameShape d { d' with portChain := c }
        unfold sameShape
        conv_lhs => rw [h2']
  · rw [mget_mset_ne hq]
    exact hS.2 q

theorem SameStruct_trans {m1 m2 m3 : DevMap} (h12 : SameStruct m1 m2)
    (h23 : SameStruct m2 m3) : SameStruct m1 m3 := by
  refine ⟨by rw [h23.1, h12.1], fun k => ?_⟩
  cases hm : mget m1 k with
  | none =>
      rw [SameStruct_mget_none h23 (SameStruct_mget_none h12 hm)]
      trivial
  | some d =>
      rcases SameStruct_mget_some h12 hm with ⟨d2, hm2, hs2⟩
      rcases SameStruct_mget_some h23 hm2 with ⟨d3, hm3, hs3⟩
      rw [hm3]
      show sameShape d d3
      unfold sameShape
      conv_lhs => rw [hs3, hs2]

/-! Further chain lemmas feeding the traversal correctness proof. -/

theorem pNext_inv {m : DevMap} {j j1 : String} (h : pNext m j = some j1) :
    ∃ dev, mget m j = some dev ∧ resolvesParent m dev = true ∧ parentKeyOf dev = j1 := by
  unfold pNext at h
  rcases hm : mget m j with _ | dev
  · rw [hm] at h; exact Option.noConfusion h
  · rw [hm] at h
    have h2 : (if resolvesParent m dev = true then some (parentKeyOf dev) else none)
        = some j1 := h
    by_cases hr : resolvesParent m dev = true
    · rw [if_pos hr] at h2
      exact ⟨dev, rfl, hr, Option.some.inj h2⟩
    · rw [if_neg hr] at h2
      exact Option.noConfusion h2

theorem rootDist_min {m : DevMap} :
    ∀ {d : Nat} {f : Nat} {k : String}, rootDist m f k = some d →
      rootDist m (d + 1) k = some d := by
  intro d
  induction d with
  | zero =>
      intro f k h
      rcases f with _ | f
      · simp [rootDist] at h
      rcases rootDist_cases h with ⟨dev, hm, hc | hc⟩
      · exact rootDist_zero hm hc.1
      · rcases hc with ⟨_, d0, hd0, _⟩
        exact absurd hd0 (by omega)
  | succ d ih =>
      intro f k h
      rcases f with _ | f
      · simp [rootDist] at h
      rcases rootDist_cases h with ⟨dev, hm, hc | hc⟩
      · rcases hc with ⟨_, hd0⟩
        exact absurd hd0 (by omega)
      · rcases hc with ⟨hr, d0, hd0, hrec⟩
        have hdd : d0 = d := by omega
        subst hdd
        rw [rootDist_succ hm hr, ih hrec]
        rfl

theorem rootDist_any_fuel {m : DevMap} {f g : Nat} {k : String} {d : Nat}
    (h : rootDist m f k = some d) (hg : d < g) : rootDist m g k = some d :=
  rootDist_mono (by omega) (rootDist_min h)

theorem rootDist_child {m : DevMap} {c k : String} {f : Nat} {d : Nat}
    (hn : pNext m c = some k) (hd : rootDist m f k = some d) :
    rootDist m (f + 1) c = some (d + 1) := by
  rcases pNext_inv hn with ⟨dev, hm, hr, hpk⟩
  rw [rootDist_succ hm hr, hpk, hd]
  rfl

theorem rootDist_of_pIter_to {m : DevMap} :
    ∀ (t : Nat) {j k : String} {f : Nat} {d : Nat},
      pIter m t j = some k → rootDist m f k = some d →
      rootDist m (f + t) j = some (d + t) := by
  intro t
  induction t with
  | zero =>
      intro j k f d hj hd
      cases Option.some.inj hj
      simpa using hd
  | succ t ih =>
      intro j k f d hj hd
      rw [pIter_succ] at hj
      rcases hn : pNext m j with _ | j1
      · rw [hn] at hj; exact Option.noConfusion hj
      · rw [hn] at hj
        have hj1 := ih hj hd
        have := rootDist_child hn hj1
        have he : f + t + 1 = f + (t + 1) := by omega
        rw [he] at this
        have he2 : d + t + 1 = d + (t + 1) := by omega
        rw [he2] at this
        exact this

theorem specChain_parent {m : DevMap} {k : String} {dev : USBDevice} {F : Nat}
    {d0 : Nat} (hm : mget m k = some dev) (hr : resolvesParent m dev = true)
    (hd : rootDist m F (parentKeyOf dev) = some d0) (hF : d0 + 1 < F) :
    specChain m F k
      = (specChain m F (parentKeyOf dev)).map (· ++ "-" ++ Nat.repr dev.portNumber) := by
  rcases F with _ | F
  · simp [rootDist] at hd
  rw [specChain_succ hm hr]
  have hdF : rootDist m F (parentKeyOf dev) = some d0 :=
    rootDist_any_fuel hd (by omega)
  rcases rootDist_termRoot_specChain hdF with ⟨r, c, _, hsc⟩
  rw [hsc]
  have hscF : specChain m (F + 1) (parentKeyOf dev) = some c :=
    specChain_mono (by omega) hdF hsc
  rw [hscF]

theorem termRoot_parent {m : DevMap} {k : String} {dev : USBDevice} {F : Nat}
    {d0 : Nat} (hm : mget m k = some dev) (hr : resolvesParent m dev = true)
    (hd : rootDist m F (parentKeyOf dev) = some d0) (hF : d0 + 1 < F) :
    termRoot m F k = termRoot m F (parentKeyOf dev) := by
  rcases F with _ | F
  · simp [rootDist] at hd
  rw [termRoot_succ hm hr]
  have hdF : rootDist m F (parentKeyOf dev) = some d0 :=
    rootDist_any_fuel hd (by omega)
  rcases rootDist_termRoot_specChain hdF with ⟨r, c, htr, _⟩
  rw [htr]
  exact (termRoot_mono (by omega) hdF htr).symm

theorem desc_refl (m : DevMap) (k : String) : Desc m k k := ⟨0, rfl⟩

theorem desc_child {m : DevMap} {j c k : String} (hn : pNext m c = some k)
    (hd : Desc m j c) : Desc m j k := by
  rcases hd with ⟨t, ht⟩
  refine ⟨t + 1, ?_⟩
  rw [pIter_add m t 1, ht]
  show pIter m 1 c = some k
  rw [pIter_succ, hn]
  rfl

theorem desc_rootDist_ge {m : DevMap} {j k : String} {F : Nat} {d dj : Nat}
    (hk : rootDist m F k = some d) (hj : rootDist m F j = some dj)
    (hd : Desc m j k) : ∃ t, pIter m t j = some k ∧ dj = d + t := by
  rcases hd with ⟨t, ht⟩
  have := rootDist_of_pIter_to t ht hk
  have hu := rootDist_unique hj (this)
  exact ⟨t, ht, hu⟩

theorem desc_not_k_of_deeper {m : DevMap} {k : String} {F : Nat} {d : Nat}
    (hk : rootDist m F k = some d) {c : String} (hn : pNext m c = some k)
    (hd : Desc m k c) : False := by
  rcases hd with ⟨t, ht⟩
  have hdc : rootDist m (F + 1) c = some (d + 1) := rootDist_child hn hk
  have := rootDist_of_pIter_to t ht hdc
  have hkF1 : rootDist m (F + 1 + t) k = some d :=
    rootDist_any_fuel hk (by
      have := rootDist_lt_fuel hk
      omega)
  have := rootDist_unique this hkF1
  omega

theorem sibling_desc_disjoint {m : DevMap} {k c c' : String} {F : Nat} {d : Nat}
    (hk : rootDist m F k = some d)
    (hn : pNext m c = some k) (hn' : pNext m c' = some k) (hne : c ≠ c')
    {j : String} (hjc : Desc m j c) (hjc' : Desc m j c') : False := by
  rcases hjc with ⟨t, ht⟩
  rcases hjc' with ⟨t', ht'⟩
  rcases Nat.lt_trichotomy t t' with hlt | heq | hgt
  · -- c' = pIter (t' - t) c with t' - t ≥ 1, so c' is an ancestor of k
    have hsplit : pIter m (t + (t' - t)) j = pIter m (t' - t) c := by
      rw [pIter_add m t (t' - t), ht]
    have he : t + (t' - t) = t' := by omega
    rw [he, ht'] at hsplit
    have hs1 : t' - t = (t' - t - 1) + 1 := by omega
    rw [hs1] at hsplit
    rw [pIter_succ, hn] at hsplit
    -- some c' = pIter (t' - t - 1) k
    have hdc' : rootDist m (F + 1) c' = some (d + 1) := rootDist_child hn' hk
    have hkk : rootDist m F k = some d := hk
    rcases pIter_rootDist (t' - t - 1) (rootDist_any_fuel hkk
        (by have := rootDist_lt_fuel hkk; omega) :
        rootDist m (F + 1) k = some d) hsplit.symm with ⟨hle, hrd⟩
    have := rootDist_unique hdc' hrd
    omega
  · subst heq
    rw [ht] at ht'
    exact hne (Option.some.inj ht')
  · have hsplit : pIter m (t' + (t - t')) j = pIter m (t - t') c' := by
      rw [pIter_add m t' (t - t'), ht']
    have he : t' + (t - t') = t := by omega
    rw [he, ht] at hsplit
    have hs1 : t - t' = (t - t' - 1) + 1 := by omega
    rw [hs1] at hsplit
    rw [pIter_succ, hn'] at hsplit
    have hdc : rootDist m (F + 1) c = some (d + 1) := rootDist_child hn hk
    rcases pIter_rootDist (t - t' - 1) (rootDist_any_fuel hk
        (by have := rootDist_lt_fuel hk; omega) :
        rootDist m (F + 1) k = some d) hsplit.symm with ⟨hle, hrd⟩
    have := rootDist_unique hdc hrd
    omega

theorem desc_step_decompose {m : DevMap} {j k : String} (hd : Desc m j k)
    (hne : j ≠ k) : ∃ x, Desc m j x ∧ pNext m x = some k := by
  rcases hd with ⟨t, ht⟩
  rcases t with _ | t
  · exact absurd (Option.some.inj ht) hne
  · rw [pIter_back] at ht
    rcases hx : pIter m t j with _ | x
    · rw [hx] at ht; exact Option.noConfusion ht
    · rw [hx] at ht
      exact ⟨x, ⟨t, hx⟩, ht⟩

theorem buildPortChain_succ_some {f : Nat} {acc : DevMap} {k pc : String}
    {dev : USBDevice} (h : mget acc k = some dev) :
    buildPortChain (f + 1) acc k pc
      = dev.children.foldl (fun a c => buildPortChain f a c (chainOf pc dev))
          (mset acc k { dev with portChain := chainOf pc dev }) := by
  conv_lhs => unfold buildPortChain
  simp [h]

theorem bpc_go {m0 : DevMap} (hInv : LinkInv m0) {F : Nat}
    (hF : F = m0.length + 1) :
    ∀ (fuel : Nat) (acc : DevMap) (k : String) (pc : String) (d : Nat),
    SameStruct m0 acc →
    rootDist m0 F k = some d →
    (pc = "" ∧ d = 0 ∨ (∃ pk, pNext m0 k = some pk ∧ specChain m0 F pk = some pc)) →
    m0.length + 1 ≤ fuel + d →
    SameStruct m0 (buildPortChain fuel acc k pc) ∧
    (∀ j, Desc m0 j k →
        ∃ dj cj, mget acc j = some dj ∧ specChain m0 F j = some cj ∧
          mget (buildPortChain fuel acc k pc) j = some { dj with portChain := cj }) ∧
    (∀ j, ¬Desc m0 j k → mget (buildPortChain fuel acc k pc) j = mget acc j) := by
  subst hF
  intro fuel
  induction fuel with
  | zero =>
      intro acc k pc d hS hd hpc hfuel
      have h1 := rootDist_lt_length hd
      omega
  | succ f ih =>
      intro acc k pc d hS hd hpc hfuel
      rcases rootDist_mget hd with ⟨dev0, hm0⟩
      rcases SameStruct_mget_some hS hm0 with ⟨dev', hacc, hsh⟩
      have hport : dev'.portNumber = dev0.portNumber := (sameShape_fields hsh).2.2.1
      have hchildren : dev'.children = dev0.children := (sameShape_fields hsh).2.2.2.2.2.1
      have hdlt : d < m0.length := rootDist_lt_length hd
      -- the chain written at k is exactly the specified chain
      have hchain : specChain m0 (m0.length + 1) k = some (chainOf pc dev') := by
        rcases hpc with ⟨hpce, hd0⟩ | ⟨pk, hn, hsc⟩
        · subst hpce hd0
          rcases rootDist_cases hd with ⟨dev1, hm1, hc | hc⟩
          · rw [specChain_base hm1 hc.1]
            unfold chainOf
            simp
          · rcases hc with ⟨_, d0, hd0, _⟩
            exact absurd hd0 (by omega)
        · rcases pNext_inv hn with ⟨dev1, hm1, hr1, hpk1⟩
          have hde : dev1 = dev0 := by
            rw [hm0] at hm1
            exact (Option.some.inj hm1).symm
          rw [hde] at hr1 hpk1
          rcases rootDist_cases hd with ⟨dev2, hm2, hc | hc⟩
          · have hde2 : dev2 = dev0 := by
              rw [hm0] at hm2
              exact (Option.some.inj hm2).symm
            rw [hde2, hr1] at hc
            exact Bool.noConfusion hc.1
          · rcases hc with ⟨_, d0, hdd, hrec⟩
            have hde2 : dev2 = dev0 := by
              rw [hm0] at hm2
              exact (Option.some.inj hm2).symm
            rw [hde2] at hrec
            have hrecF : rootDist m0 (m0.length + 1) (parentKeyOf dev0) = some d0 :=
              rootDist_any_fuel hrec (by omega)
            have hne : pc ≠ "" := specChain_ne_empty hsc
            rw [specChain_parent hm0 hr1 hrecF (by omega), hpk1, hsc]
            unfold chainOf
            rw [if_pos hne]
            simp [hport]
      have hmem0 : (k, dev0) ∈ m0 := mem_of_mget hm0
      have hchildlink : ∀ c ∈ dev0.children, pNext m0 c = some k := by
        intro c hc
        rcases hInv.2.1 (k, dev0) hmem0 c hc with ⟨cdev, hcm, hcr, hcpk⟩
        rw [pNext_of_resolves hcm hcr, hcpk]
      have hchildnodup : dev0.children.Nodup := hInv.2.2.2 (k, dev0) hmem0
      have hdc : ∀ c ∈ dev0.children, rootDist m0 (m0.length + 1) c = some (d + 1) := by
        intro c hc
        exact rootDist_any_fuel (rootDist_child (hchildlink c hc) hd) (by omega)
      rw [buildPortChain_succ_some hacc]
      set chain := chainOf pc dev' with hchaindef
      set m1 := mset acc k { dev' with portChain := chain } with hm1def
      have hS1 : SameStruct m0 m1 := SameStruct_mset_chain hS hacc chain
      -- inner fold over the children
      have hfold : ∀ (cs : List String), cs.Nodup → (∀ c ∈ cs, pNext m0 c = some k) →
          ∀ (s : DevMap), SameStruct m0 s →
          SameStruct m0 (cs.foldl (fun a c => buildPortChain f a c chain) s) ∧
          (∀ j, (∃ c ∈ cs, Desc m0 j c) →
              ∃ dj cj, mget s j = some dj ∧
                specChain m0 (m0.length + 1) j = some cj ∧
                mget (cs.foldl (fun a c => buildPortChain f a c chain) s) j
                  = some { dj with portChain := cj }) ∧
          (∀ j, ¬(∃ c ∈ cs, Desc m0 j c) →
              mget (cs.foldl (fun a c => buildPortChain f a c chain) s) j = mget s j) := by
        intro cs
        induction cs with
        | nil =>
            intro _ _ s hSs
            refine ⟨hSs, fun j hj => ?_, fun j _ => rfl⟩
            rcases hj with ⟨c, hc, _⟩
            exact absurd hc (List.not_mem_nil c)
        | cons c rest ihc =>
            intro hnd hlink s hSs
            have hcnd : rest.Nodup := (List.nodup_cons.mp hnd).2
            have hcnotin : c ∉ rest := (List.nodup_cons.mp hnd).1
            have hnc : pNext m0 c = some k := hlink c (by simp)
            have hdc1 : rootDist m0 (m0.length + 1) c = some (d + 1) :=
              rootDist_any_fuel (rootDist_child hnc hd) (by omega)
            have hcall := ih s c chain (d + 1) hSs hdc1
              (Or.inr ⟨k, hnc, hchain⟩) (by omega)
            rcases hcall with ⟨hSc, hBc, hCc⟩
            rw [List.foldl_cons]
            have hrest := ihc hcnd (fun x hx => hlink x (by simp [hx]))
              (buildPortChain f s c chain) hSc
            rcases hrest with ⟨hSr, hBr, hCr⟩
            refine ⟨hSr, fun j hj => ?_, fun j hj => ?_⟩
            · rcases hj with ⟨c1, hc1, hdesc⟩
              rcases List.mem_cons.mp hc1 with rfl | hc1r
              · -- j descends through c itself
                rcases hBc j hdesc with ⟨dj, cj, hs, hsc, hout⟩
                have hnorest : ¬(∃ c2 ∈ rest, Desc m0 j c2) := by
                  rintro ⟨c2, hc2, hdesc2⟩
                  have hne : c1 ≠ c2 := fun he => hcnotin (he ▸ hc2)
                  exact sibling_desc_disjoint hd hnc (hlink c2 (by simp [hc2]))
                    hne hdesc hdesc2
                rw [hCr j hnorest]
                exact ⟨dj, cj, hs, hsc, hout⟩
              · -- j descends through one of the remaining children
                have hnoc : ¬Desc m0 j c := by
                  intro hdesc1
                  have hne : c ≠ c1 := fun he => hcnotin (he ▸ hc1r)
                  exact sibling_desc_disjoint hd hnc (hlink c1 (by simp [hc1r]))
                    hne hdesc1 hdesc
                rcases hBr j ⟨c1, hc1r, hdesc⟩ with ⟨dj, cj, hs, hsc, hout⟩
                rw [hCc j hnoc] at hs
                exact ⟨dj, cj, hs, hsc, hout⟩
            · push_neg at hj
              have hnoc : ¬Desc m0 j c := hj c (by simp)
              have hnorest : ¬(∃ c2 ∈ rest, Desc m0 j c2) := by
                rintro ⟨c2, hc2, hdesc2⟩
                exact hj c2 (by simp [hc2]) hdesc2
              rw [hCr j hnorest, hCc j hnoc]
      rw [hchildren]
      rcases hfold dev0.children hchildnodup hchildlink m1 hS1 with ⟨hSf, hBf, hCf⟩
      refine ⟨hSf, fun j hj => ?_, fun j hj => ?_⟩
      · by_cases hjk : j = k
        · subst hjk
          have hnochild : ¬(∃ c ∈ dev0.children, Desc m0 j c) := by
            rintro ⟨c, hc, hdesc⟩
            exact desc_not_k_of_deeper hd (hchildlink c hc) hdesc
          rw [hCf j hnochild]
          rw [hm1def, mget_mset_self]
          exact ⟨dev', chain, hacc, hchain, rfl⟩
        · rcases desc_step_decompose hj hjk with ⟨x, hdx, hnx⟩
          rcases pNext_inv hnx with ⟨xdev, hxm, hxr, hxpk⟩
          have hxmem : x ∈ childrenOfKey m0 k := by
            have := hInv.2.2.1 x xdev hxm hxr
            rw [hxpk] at this
            exact this
          have hxmem' : x ∈ dev0.children := by
            unfold childrenOfKey at hxmem
            rw [hm0] at hxmem
            exact hxmem
          rcases hBf j ⟨x, hxmem', hdx⟩ with ⟨dj, cj, hs, hsc, hout⟩
          rw [hm1def, mget_mset_ne hjk] at hs
          exact ⟨dj, cj, hs, hsc, hout⟩
      · have hjk : j ≠ k := fun he => hj (he ▸ desc_refl m0 k)
        have hnochild : ¬(∃ c ∈ dev0.children, Desc m0 j c) := by
          rintro ⟨c, hc, hdesc⟩
          exact hj (desc_child (hchildlink c hc) hdesc)
        rw [hCf j hnochild, hm1def, mget_mset_ne hjk]

theorem rootKeys_mem {m : DevMap} (hnd : (mkeys m).Nodup) (k : String) :
    k ∈ rootKeys m ↔
      ∃ dev, mget m k = some dev ∧ resolvesParent m dev = false ∧
        (dev.isHub || dev.vid == "ROOT") = true := by
  unfold rootKeys
  constructor
  · intro h
    rcases List.mem_map.mp h with ⟨kv, hkv, hk1⟩
    rcases List.mem_filter.mp hkv with ⟨hmem, hP⟩
    rcases (Bool.and_eq_true _ _).mp hP with ⟨hP1, hP2⟩
    refine ⟨kv.2, ?_, ?_, hP2⟩
    · rw [← hk1]
      exact mget_of_mem_nodup hnd (by
        rw [show (kv.1, kv.2) = kv from rfl]
        exact hmem)
    · rcases hb : resolvesParent m kv.2 with _ | _
      · rfl
      · rw [hb] at hP1; exact Bool.noConfusion hP1
  · rintro ⟨dev, hm, hres, hqual⟩
    refine List.mem_map.mpr ⟨(k, dev), List.mem_filter.mpr ⟨mem_of_mget hm, ?_⟩, rfl⟩
    rw [Bool.and_eq_true _ _]
    exact ⟨by rw [hres]; rfl, hqual⟩

theorem rootKeys_nodup {m : DevMap} (hnd : (mkeys m).Nodup) :
    (rootKeys m).Nodup := by
  unfold rootKeys mkeys
  exact (List.Sublist.map _ (List.filter_sublist m)).nodup hnd

theorem rootKeys_dist {m : DevMap} (hnd : (mkeys m).Nodup) {F : Nat}
    (hFpos : 0 < F) {r : String} (hr : r ∈ rootKeys m) :
    rootDist m F r = some 0 := by
  rcases (rootKeys_mem hnd r).mp hr with ⟨dev, hm, hres, _⟩
  rcases F with _ | F
  · omega
  · exact rootDist_zero hm hres

theorem desc_terminal_unique {m : DevMap} {F : Nat} {r r' j : String}
    (hr : rootDist m F r = some 0) (hr' : rootDist m F r' = some 0)
    (hj : Desc m j r) (hj' : Desc m j r') : r = r' := by
  rcases hj with ⟨t, ht⟩
  rcases hj' with ⟨t', ht'⟩
  have h1 := rootDist_of_pIter_to t ht hr
  have h2 := rootDist_of_pIter_to t' ht' hr'
  have he : 0 + t = 0 + t' := rootDist_unique h1 h2
  have : t = t' := by omega
  subst this
  rw [ht] at ht'
  exact Option.some.inj ht'

theorem roots_fold {m0 : DevMap} (hInv : LinkInv m0) {F : Nat}
    (hF : F = m0.length + 1) :
    ∀ (rl : List String), rl.Nodup → (∀ r ∈ rl, rootDist m0 F r = some 0) →
    ∀ s, SameStruct m0 s →
    SameStruct m0 (rl.foldl (fun acc r => buildPortChain F acc r "") s) ∧
    (∀ j, (∃ r ∈ rl, Desc m0 j r) →
        ∃ dj cj, mget s j = some dj ∧ specChain m0 F j = some cj ∧
          mget (rl.foldl (fun acc r => buildPortChain F acc r "") s) j
            = some { dj with portChain := cj }) ∧
    (∀ j, ¬(∃ r ∈ rl, Desc m0 j r) →
        mget (rl.foldl (fun acc r => buildPortChain F acc r "") s) j = mget s j) := by
  intro rl
  induction rl with
  | nil =>
      intro _ _ s hSs
      refine ⟨hSs, fun j hj => ?_, fun j _ => rfl⟩
      rcases hj with ⟨r, hr, _⟩
      exact absurd hr (List.not_mem_nil r)
  | cons r rest ihr =>
      intro hnd hdist s hSs
      have hrd : rootDist m0 F r = some 0 := hdist r (by simp)
      have hcall := bpc_go hInv hF F s r "" 0 hSs hrd (Or.inl ⟨rfl, rfl⟩) (by omega)
      rcases hcall with ⟨hSc, hBc, hCc⟩
      rw [List.foldl_cons]
      have hrest := ihr (List.nodup_cons.mp hnd).2
        (fun x hx => hdist x (by simp [hx])) (buildPortChain F s r "") hSc
      rcases hrest with ⟨hSr, hBr, hCr⟩
      refine ⟨hSr, fun j hj => ?_, fun j hj => ?_⟩
      · rcases hj with ⟨r1, hr1, hdesc⟩
        rcases List.mem_cons.mp hr1 with rfl | hr1r
        · rcases hBc j hdesc with ⟨dj, cj, hs, hsc, hout⟩
          have hnorest : ¬(∃ r2 ∈ rest, Desc m0 j r2) := by
            rintro ⟨r2, hr2, hdesc2⟩
            have : r1 = r2 := desc_terminal_unique hrd (hdist r2 (by simp [hr2]))
              hdesc hdesc2
            exact (List.nodup_cons.mp hnd).1 (this ▸ hr2)
          rw [hCr j hnorest]
          exact ⟨dj, cj, hs, hsc, hout⟩
        · have hnor : ¬Desc m0 j r := by
            intro hdescr
            have : r = r1 := desc_terminal_unique hrd (hdist r1 (by simp [hr1r]))
              hdescr hdesc
            exact (List.nodup_cons.mp hnd).1 (this ▸ hr1r)
          rcases hBr j ⟨r1, hr1r, hdesc⟩ with ⟨dj, cj, hs, hsc, hout⟩
          rw [hCc j hnor] at hs
          exact ⟨dj, cj, hs, hsc, hout⟩
      · push_neg at hj
        have hnor : ¬Desc m0 j r := hj r (by simp)
        have hnorest : ¬(∃ r2 ∈ rest, Desc m0 j r2) := by
          rintro ⟨r2, hr2, hdesc2⟩
          exact hj r2 (by simp [hr2]) hdesc2
        rw [hCr j hnorest, hCc j hnor]

/-! Closed forms of the pre-chain stages and the link invariant. -/

theorem comSortedMap_mget_closed (devs : DevMap) (cps : List (String × ComPortSrc))
    (k : String) :
    mget (comSortedMap devs cps) k
      = (mget devs k).map
          (fun d => sortComPortsDev { d with comPorts := d.comPorts ++ assignedComs cps k }) := by
  rw [comSortedMap_mget]
  unfold assignedPair assignComPorts
  rw [assign_fold_fst]
  cases mget devs k <;> rfl

theorem linkedPair_mget (devs : DevMap) (cps : List (String × ComPortSrc))
    (k : String) :
    mget (linkedPair devs cps).1 k
      = (mget (comSortedMap devs cps) k).map
          (fun d => { d with
            children := d.children ++ (mkeys (comSortedMap devs cps)).filter
              (fun c => linksToB (comSortedMap devs cps) c k) }) := by
  unfold linkedPair linkChildren
  exact (link_fold (mkeys (comSortedMap devs cps)) (comSortedMap devs cps) []).1 k

theorem linkedPair_logs (devs : DevMap) (cps : List (String × ComPortSrc)) :
    (linkedPair devs cps).2
      = (mkeys (comSortedMap devs cps)).flatMap (logMsgOf (comSortedMap devs cps)) := by
  unfold linkedPair linkChildren
  exact (link_fold (mkeys (comSortedMap devs cps)) (comSortedMap devs cps) []).2

theorem resolvesParent_congr {m : DevMap} {d d' : USBDevice}
    (h : d'.parentPath = d.parentPath) :
    resolvesParent m d' = resolvesParent m d := by
  unfold resolvesParent
  rw [h]

theorem childSortedMap_mget_closed (devs : DevMap) (cps : List (String × ComPortSrc))
    (hWF : WFdev devs) (k : String) :
    mget (childSortedMap devs cps) k
      = (mget devs k).map (fun d =>
          { d with
            comPorts := sortByLe (fun a b => comLe a.port b.port) (assignedComs cps k)
            children := sortByLe (childLe (linkedPair devs cps).1)
              ((mkeys (comSortedMap devs cps)).filter
                (fun c => linksToB (comSortedMap devs cps) c k)) }) := by
  unfold childSortedMap
  rw [sortChildrenAll_mget, linkedPair_mget, comSortedMap_mget_closed]
  cases hd : mget devs k with
  | none => rfl
  | some d =>
      rcases hWF.2 (k, d) (mem_of_mget hd) with ⟨_, hch, hcp, _⟩
      simp only [Option.map_some']
      unfold sortComPortsDev sortChildrenDev
      rw [hch, hcp]
      rfl

theorem linkInv_childSorted (devs : DevMap) (cps : List (String × ComPortSrc))
    (hWF : WFdev devs) : LinkInv (childSortedMap devs cps) := by
  have hkeys4 : mkeys (childSortedMap devs cps) = mkeys devs :=
    mkeys_childSortedMap devs cps
  have hkeys2 : mkeys (comSortedMap devs cps) = mkeys devs :=
    mkeys_comSortedMap devs cps
  have hnd4 : (mkeys (childSortedMap devs cps)).Nodup := by
    rw [hkeys4]; exact hWF.1
  have hchild : ∀ k dev4, mget (childSortedMap devs cps) k = some dev4 →
      ∀ c, (c ∈ dev4.children ↔
        (c ∈ mkeys (comSortedMap devs cps) ∧
          linksToB (comSortedMap devs cps) c k = true)) := by
    intro k dev4 hm4 c
    rw [childSortedMap_mget_closed devs cps hWF k] at hm4
    rcases hd : mget devs k with _ | d
    · rw [hd] at hm4; exact Option.noConfusion hm4
    · rw [hd] at hm4
      simp only [Option.map_some'] at hm4
      cases Option.some.inj hm4
      constructor
      · intro hc
        exact List.mem_filter.mp ((mem_sortByLe _ _ c).mp hc)
      · intro hc
        exact (mem_sortByLe _ _ c).mpr (List.mem_filter.mpr ⟨hc.1, hc.2⟩)
  have hpp : ∀ k dev4, mget (childSortedMap devs cps) k = some dev4 →
      ∃ d0, mget devs k = some d0 ∧ dev4.parentPath = d0.parentPath ∧
        dev4.instancePath = d0.instancePath := by
    intro k dev4 hm4
    rw [childSortedMap_mget_closed devs cps hWF k] at hm4
    rcases hd : mget devs k with _ | d
    · rw [hd] at hm4; exact Option.noConfusion hm4
    · rw [hd] at hm4
      simp only [Option.map_some'] at hm4
      cases Option.some.inj hm4
      exact ⟨d, rfl, rfl, rfl⟩
  have hpp2 : ∀ k d2, mget (comSortedMap devs cps) k = some d2 →
      ∃ d0, mget devs k = some d0 ∧ d2.parentPath = d0.parentPath := by
    intro k d2 hm2
    rw [comSortedMap_mget_closed devs cps k] at hm2
    rcases hd : mget devs k with _ | d
    · rw [hd] at hm2; exact Option.noConfusion hm2
    · rw [hd] at hm2
      simp only [Option.map_some'] at hm2
      cases Option.some.inj hm2
      exact ⟨d, rfl, rfl⟩
  have hltb : ∀ c k, linksToB (comSortedMap devs cps) c k = true →
      ∃ cdev, mget (childSortedMap devs cps) c = some cdev ∧
        resolvesParent (childSortedMap devs cps) cdev = true ∧
        parentKeyOf cdev = k := by
    intro c k hc
    unfold linksToB at hc
    rcases hm2 : mget (comSortedMap devs cps) c with _ | d2
    · rw [hm2] at hc; exact Bool.noConfusion hc
    · rw [hm2] at hc
      have hcr : (match d2.parentPath with
          | some p => p != "" && p.upper == k
              && (mget (comSortedMap devs cps) p.upper).isSome
          | none => false) = true := hc
      rcases hp : d2.parentPath with _ | p
      · rw [hp] at hcr; exact Bool.noConfusion hcr
      · rw [hp] at hcr
        have hc2 : (p != "" && p.upper == k
            && (mget (comSortedMap devs cps) p.upper).isSome) = true := hcr
        rcases (Bool.and_eq_true _ _).mp hc2 with ⟨hc1, hc3⟩
        rcases (Bool.and_eq_true _ _).mp hc1 with ⟨hp1, hpk⟩
        have hcm : c ∈ mkeys devs := by
          rw [← hkeys2, ← mget_isSome_iff, hm2]; rfl
        have hcm4 : (mget (childSortedMap devs cps) c).isSome = true := by
          rw [mget_isSome_iff, hkeys4]; exact hcm
        rcases hm4 : mget (childSortedMap devs cps) c with _ | cdev
        · rw [hm4] at hcm4; exact Bool.noConfusion hcm4
        · rcases hpp c cdev hm4 with ⟨d0, hd0, hppc, _⟩
          rcases hpp2 c d2 hm2 with ⟨d0b, hd0b, hppb⟩
          have hdd : d0b = d0 := by
            rw [hd0] at hd0b
            exact (Option.some.inj hd0b).symm
          rw [hdd] at hppb
          have hcp : cdev.parentPath = some p := by
            rw [hppc, ← hppb, hp]
          refine ⟨cdev, rfl, ?_, ?_⟩
          · unfold resolvesParent
            rw [hcp]
            show (p != "" && (mget (childSortedMap devs cps) p.upper).isSome) = true
            rw [Bool.and_eq_true _ _]
            refine ⟨hp1, ?_⟩
            rw [mget_isSome_iff, hkeys4, ← hkeys2, ← mget_isSome_iff]
            exact hc3
          · unfold parentKeyOf
            rw [hcp]
            show p.upper = k
            exact beq_iff_eq.mp hpk
  refine ⟨hnd4, ?_, ?_, ?_⟩
  · intro kv hkv c hc
    have hm4 : mget (childSortedMap devs cps) kv.1 = some kv.2 :=
      mget_of_mem_nodup hnd4 (by
        rw [show (kv.1, kv.2) = kv from rfl]
        exact hkv)
    rcases (hchild kv.1 kv.2 hm4 c).mp hc with ⟨_, hlb⟩
    exact hltb c kv.1 hlb
  · intro k dev hm4 hres
    unfold resolvesParent at hres
    rcases hp : dev.parentPath with _ | p
    · rw [hp] at hres; exact Bool.noConfusion hres
    · rw [hp] at hres
      have hres2 : (p != "" && (mget (childSortedMap devs cps) p.upper).isSome)
          = true := hres
      rcases (Bool.and_eq_true _ _).mp hres2 with ⟨hp1, hp2⟩
      have hq : parentKeyOf dev = p.upper := by
        unfold parentKeyOf
        rw [hp]
      rcases hmq : mget (childSortedMap devs cps) p.upper with _ | pdev
      · rw [hmq] at hp2; exact Bool.noConfusion hp2
      · rw [hq]
        unfold childrenOfKey
        rw [hmq]
        refine (hchild p.upper pdev hmq k).mpr ⟨?_, ?_⟩
        · rw [hkeys2, ← hkeys4, ← mget_isSome_iff, hm4]; rfl
        · rcases hpp k dev hm4 with ⟨d0, hd0, hppk, _⟩
          have hm2k : (mget (comSortedMap devs cps) k).isSome = true := by
            rw [mget_isSome_iff, hkeys2, ← hkeys4, ← mget_isSome_iff, hm4]; rfl
          rcases hm2 : mget (comSortedMap devs cps) k with _ | d2
          · rw [hm2] at hm2k; exact Bool.noConfusion hm2k
          · rcases hpp2 k d2 hm2 with ⟨d0b, hd0b, hppb⟩
            have hdd : d0b = d0 := by
              rw [hd0] at hd0b
              exact (Option.some.inj hd0b).symm
            rw [hdd] at hppb
            have hd2p : d2.parentPath = some p := by
              rw [hppb, ← hppk, hp]
            unfold linksToB
            rw [hm2]
            show (match d2.parentPath with
              | some p1 => p1 != "" && p1.upper == p.upper
                  && (mget (comSortedMap devs cps) p1.upper).isSome
              | none => false) = true
            rw [hd2p]
            show (p != "" && p.upper == p.upper
                && (mget (comSortedMap devs cps) p.upper).isSome) = true
            rw [Bool.and_eq_true _ _, Bool.and_eq_true _ _]
            refine ⟨⟨hp1, by rw [beq_iff_eq]⟩, ?_⟩
            rw [mget_isSome_iff, hkeys2, ← hkeys4, ← mget_isSome_iff]
            exact hp2
  · intro kv hkv
    have hm4 : mget (childSortedMap devs cps) kv.1 = some kv.2 :=
      mget_of_mem_nodup hnd4 (by
        rw [show (kv.1, kv.2) = kv from rfl]
        exact hkv)
    rw [childSortedMap_mget_closed devs cps hWF kv.1] at hm4
    rcases hd : mget devs kv.1 with _ | d
    · rw [hd] at hm4; exact Option.noConfusion hm4
    · rw [hd] at hm4
      simp only [Option.map_some'] at hm4
      have hc : kv.2.children = sortByLe (childLe (linkedPair devs cps).1)
          ((mkeys (comSortedMap devs cps)).filter
            (fun c => linksToB (comSortedMap devs cps) c kv.1)) := by
        rw [← Option.some.inj hm4]
      rw [hc]
      refine (sortByLe_perm _ _).nodup_iff.mpr ?_
      refine List.Nodup.filter _ ?_
      rw [hkeys2]
      exact hWF.1

theorem termRoot_pIter {m : DevMap} :
    ∀ {f : Nat} {k : String} {d : Nat}, rootDist m f k = some d →
      ∃ r, termRoot m f k = some r ∧ pIter m d k = some r := by
  intro f
  induction f with
  | zero => intro k d h; simp [rootDist] at h
  | succ f ih =>
      intro k d h
      rcases rootDist_cases h with ⟨dev, hm, hc | hc⟩
      · rcases hc with ⟨hr, rfl⟩
        exact ⟨k, termRoot_zero hm hr, rfl⟩
      · rcases hc with ⟨hr, d0, rfl, hrec⟩
        rcases ih hrec with ⟨r, htr, hpi⟩
        refine ⟨r, ?_, ?_⟩
        · rw [termRoot_succ hm hr]; exact htr
        · have he : d0 + 1 = 1 + d0 := by omega
          rw [he, pIter_add]
          have h1 : pIter m 1 k = some (parentKeyOf dev) := by
            rw [pIter_succ, pNext_of_resolves hm hr]
            rfl
          rw [h1]
          exact hpi

theorem reach_iff_termRoot {m : DevMap} (hnd : (mkeys m).Nodup) {F : Nat}
    (hF : F = m.length + 1) (j : String) :
    (∃ r ∈ rootKeys m, Desc m j r) ↔
      (∃ d r, rootDist m F j = some d ∧ termRoot m F j = some r ∧ r ∈ rootKeys m) := by
  subst hF
  constructor
  · rintro ⟨r, hr, t, ht⟩
    have hr0 : rootDist m (m.length + 1) r = some 0 := rootKeys_dist hnd (by omega) hr
    have hj' := rootDist_of_pIter_to t ht hr0
    have hjlt : 0 + t < m.length := rootDist_lt_length hj'
    have hj : rootDist m (m.length + 1) j = some (0 + t) :=
      rootDist_any_fuel hj' (by omega)
    rcases termRoot_pIter hj with ⟨r', htr, hpi⟩
    have h0t : 0 + t = t := by omega
    rw [h0t] at hpi
    rw [ht] at hpi
    have hrr : r' = r := (Option.some.inj hpi).symm
    rw [hrr] at htr
    exact ⟨0 + t, r, hj, htr, hr⟩
  · rintro ⟨d, r, hd, htr, hr⟩
    rcases termRoot_pIter hd with ⟨r', htr', hpi⟩
    rw [htr] at htr'
    cases Option.some.inj htr'
    exact ⟨r, hr, d, hpi⟩

theorem chainedMap_master (devs : DevMap) (cps : List (String × ComPortSrc))
    (hWF : WFdev devs) :
    SameStruct (childSortedMap devs cps) (chainedMap devs cps) ∧
    (∀ j, (∃ r ∈ declaredRoots devs cps, Desc (childSortedMap devs cps) j r) →
        ∃ dj cj, mget (childSortedMap devs cps) j = some dj ∧
          specChain (childSortedMap devs cps)
            ((childSortedMap devs cps).length + 1) j = some cj ∧
          mget (chainedMap devs cps) j = some { dj with portChain := cj }) ∧
    (∀ j, ¬(∃ r ∈ declaredRoots devs cps, Desc (childSortedMap devs cps) j r) →
        mget (chainedMap devs cps) j = mget (childSortedMap devs cps) j) := by
  have hInv := linkInv_childSorted devs cps hWF
  have hnd : (mkeys (childSortedMap devs cps)).Nodup := hInv.1
  have hfold := roots_fold hInv rfl (rootKeys (childSortedMap devs cps))
    (rootKeys_nodup hnd)
    (fun r hr => rootKeys_dist hnd (by omega) hr)
    (childSortedMap devs cps) (SameStruct_refl _)
  unfold chainedMap declaredRoots
  exact hfold

/-! Synthesis pass: step equations and closed forms. -/

theorem mset_mset {α : Type} (m : List (String × α)) (k : String) (a b : α) :
    mset (mset m k a) k b = mset m k b := by
  induction m with
  | nil => simp [mset]
  | cons kv rest ih =>
      obtain ⟨k1, v1⟩ := kv
      by_cases h : k1 = k
      · simp [mset, h]
      · simp [mset, h, ih]

theorem mset_append_left {α : Type} {m : List (String × α)} (m' : List (String × α))
    {k : String} (v : α) (h : k ∈ mkeys m) :
    mset (m ++ m') k v = mset m k v ++ m' := by
  induction m with
  | nil => simp [mkeys] at h
  | cons kv rest ih =>
      obtain ⟨k1, v1⟩ := kv
      by_cases h1 : k1 = k
      · simp [mset, h1]
      · simp only [mkeys, List.map_cons, List.mem_cons] at h
        rcases h with h2 | h2
        · exact absurd h2.symm h1
        · simp [mset, h1, ih h2]

theorem mget_position {α : Type} {m : List (String × α)}
    (hnd : (mkeys m).Nodup) {i : Nat} (hi : i < m.length) :
    mget m (m.get ⟨i, hi⟩).1 = some (m.get ⟨i, hi⟩).2 := by
  exact mget_of_mem_nodup hnd (by
    rw [show ((m.get ⟨i, hi⟩).1, (m.get ⟨i, hi⟩).2) = m.get ⟨i, hi⟩ from rfl]
    exact m.get_mem i hi)

theorem synthStep_missing {s : DevMap × CPMap} {k : String}
    (h : mget s.1 k = none) : synthStep s k = s := by
  unfold synthStep
  rw [h]

theorem synthStep_noop {s : DevMap × CPMap} {k : String} {dev : USBDevice}
    (h : mget s.1 k = some dev) (hlen : ¬dev.comPorts.length > 1) :
    synthStep s k = s := by
  unfold synthStep
  rw [h]
  simp [hlen]

theorem mset_same {α : Type} {m : List (String × α)} {k : String} {v : α}
    (h : mget m k = some v) : mset m k v = m := by
  induction m with
  | nil => simp [mget] at h
  | cons kv rest ih =>
      obtain ⟨k1, v1⟩ := kv
      by_cases h1 : k1 = k
      · subst h1
        simp only [mget, if_pos rfl] at h
        simp [mset, Option.some.inj h]
      · simp only [mget, h1, if_false] at h
        simp [mset, h1, ih h]

theorem synth_inner (dev : USBDevice) (k : String) :
    ∀ (cis : List ComPortInfo) (X : DevMap) (c0 : CPMap) (dcur : USBDevice),
    mget X k = some dcur →
    (∀ ci ∈ cis, (dev.instancePath ++ "#" ++ ci.port) ∉ mkeys X) →
    ((cis.map fun ci => dev.instancePath ++ "#" ++ ci.port).Nodup) →
    cis.foldl (synthChildStep dev k) (X, c0)
      = (mset X k { dcur with children :=
            dcur.children ++ cis.map (fun ci => dev.instancePath ++ "#" ++ ci.port) }
          ++ cis.map (fun ci => (dev.instancePath ++ "#" ++ ci.port, synthChild dev ci)),
         cis.foldl (fun a ci => mset a ci.port (dev.instancePath ++ "#" ++ ci.port, ci)) c0) := by
  intro cis
  induction cis with
  | nil =>
      intro X c0 dcur hm _ _
      simp only [List.foldl_nil, List.map_nil, List.append_nil]
      rw [mset_same hm]
  | cons ci cis ih =>
      intro X c0 dcur hm hfresh hnd
      rw [List.foldl_cons]
      have hstep : synthChildStep dev k (X, c0) ci
          = (mset X k { dcur with children := dcur.children
                ++ [dev.instancePath ++ "#" ++ ci.port] }
              ++ [(dev.instancePath ++ "#" ++ ci.port, synthChild dev ci)],
             mset c0 ci.port (dev.instancePath ++ "#" ++ ci.port, ci)) := by
        unfold synthChildStep
        simp only [hm]
        have hsk : (synthChild dev ci).instancePath
            = dev.instancePath ++ "#" ++ ci.port := rfl
        rw [hsk]
        have hnotin : dev.instancePath ++ "#" ++ ci.port
            ∉ mkeys (mset X k { dcur with children := dcur.children
                ++ [dev.instancePath ++ "#" ++ ci.port] }) := by
          rw [mkeys_mset_of_mem _ (by rw [← mget_isSome_iff, hm]; rfl)]
          exact hfresh ci (by simp)
        rw [mset_of_not_mem _ hnotin]
      rw [hstep]
      have hmem : k ∈ mkeys (mset X k { dcur with children := dcur.children
          ++ [dev.instancePath ++ "#" ++ ci.port] }) := by
        rw [mkeys_mset_of_mem _ (by rw [← mget_isSome_iff, hm]; rfl)]
        rw [← mget_isSome_iff, hm]
        rfl
      have hm' : mget (mset X k { dcur with children := dcur.children
            ++ [dev.instancePath ++ "#" ++ ci.port] }
          ++ [(dev.instancePath ++ "#" ++ ci.port, synthChild dev ci)]) k
          = some { dcur with children := dcur.children
              ++ [dev.instancePath ++ "#" ++ ci.port] } := by
        rw [mget_append_left _ hmem, mget_mset_self]
      have hfresh' : ∀ x ∈ cis, (dev.instancePath ++ "#" ++ x.port)
          ∉ mkeys (mset X k { dcur with children := dcur.children
                ++ [dev.instancePath ++ "#" ++ ci.port] }
              ++ [(dev.instancePath ++ "#" ++ ci.port, synthChild dev ci)]) := by
        intro x hx
        rw [mkeys_append, mkeys_mset_of_mem _ (by rw [← mget_isSome_iff, hm]; rfl)]
        simp only [List.mem_append]
        push_neg
        constructor
        · exact hfresh x (by simp [hx])
        · intro hmem2
          have hx1 : dev.instancePath ++ "#" ++ x.port
              = dev.instancePath ++ "#" ++ ci.port := by
            simpa [mkeys] using hmem2
          have hxin : dev.instancePath ++ "#" ++ x.port
              ∈ cis.map (fun y => dev.instancePath ++ "#" ++ y.port) :=
            List.mem_map.mpr ⟨x, hx, rfl⟩
          rw [hx1] at hxin
          exact (List.nodup_cons.mp hnd).1 hxin
      have hnd' : ((cis.map fun ci => dev.instancePath ++ "#" ++ ci.port)).Nodup :=
        (List.nodup_cons.mp hnd).2
      rw [ih _ _ _ hm' hfresh' hnd']
      refine Prod.ext ?_ rfl
      show _ = _
      have hassoc : mset (mset X k { dcur with children := dcur.children
            ++ [dev.instancePath ++ "#" ++ ci.port] }
          ++ [(dev.instancePath ++ "#" ++ ci.port, synthChild dev ci)]) k
            { { dcur with children := dcur.children
                ++ [dev.instancePath ++ "#" ++ ci.port] } with
              children := (dcur.children ++ [dev.instancePath ++ "#" ++ ci.port])
                ++ cis.map (fun x => dev.instancePath ++ "#" ++ x.port) }
          = mset X k { dcur with children := dcur.children
              ++ ((dev.instancePath ++ "#" ++ ci.port)
                :: cis.map (fun x => dev.instancePath ++ "#" ++ x.port)) }
            ++ [(dev.instancePath ++ "#" ++ ci.port, synthChild dev ci)] := by
        rw [mset_append_left _ _ (by
          rw [mkeys_mset_of_mem _ (by rw [← mget_isSome_iff, hm]; rfl)]
          rw [← mget_isSome_iff, hm]; rfl)]
        rw [mset_mset]
        rw [List.append_assoc]
        rfl
      simp only [List.map_cons]
      rw [hassoc]
      rw [List.append_assoc]
      rfl

theorem synthEntries_eq_flatMap (m : DevMap) : synthEntries m = m.flatMap entriesOf := rfl

theorem allSynthKeys_eq_flatMap (m : DevMap) :
    FreshSynth.allSynthKeys m = m.flatMap synthKeysBlock := rfl

theorem mkeys_entriesOf (kv : String × USBDevice) :
    mkeys (entriesOf kv) = synthKeysBlock kv := by
  unfold entriesOf synthKeysBlock
  by_cases h : kv.2.comPorts.length > 1
  · simp [h, mkeys, synthKeysOf, List.map_map]
  · simp [h, mkeys]

theorem mkeys_flatMap_entriesOf (l : DevMap) :
    mkeys (l.flatMap entriesOf) = l.flatMap synthKeysBlock := by
  induction l with
  | nil => rfl
  | cons kv rest ih =>
      simp only [List.flatMap_cons, mkeys_append, ih, mkeys_entriesOf]

theorem mkeys_synthPartialMap (m : DevMap) (i : Nat) :
    mkeys (synthPartialMap m i) = mkeys m ++ (m.take i).flatMap synthKeysBlock := by
  unfold synthPartialMap
  rw [mkeys_append, mkeys_append, mkeys_mapval, mkeys_flatMap_entriesOf]
  have : mkeys (m.take i) ++ mkeys (m.drop i) = mkeys m := by
    simp [mkeys, ← List.map_append]
  rw [List.append_assoc, ← List.append_assoc (mkeys (m.take i)), this]

theorem synthUpd_portNumber (m : DevMap) (d : USBDevice) :
    (synthUpd m d).portNumber = d.portNumber := by
  unfold synthUpd
  split <;> rfl

theorem mkeys_take_drop {α : Type} (m : List (String × α)) (i : Nat) :
    mkeys (m.take i) ++ mkeys (m.drop i) = mkeys m := by
  simp [mkeys, ← List.map_append]

theorem portOfKey_synthPartialMap (m : DevMap) (i : Nat) {a : String}
    (ha : a ∈ mkeys m) :
    portOfKey (synthPartialMap m i) a = portOfKey m a := by
  unfold synthPartialMap portOfKey
  by_cases hta : a ∈ mkeys (m.take i)
  · have haM : a ∈ mkeys ((m.take i).map fun kv => (kv.1, synthUpd m kv.2)) := by
      rw [mkeys_mapval]
      exact hta
    have haM2 : a ∈ mkeys (((m.take i).map fun kv => (kv.1, synthUpd m kv.2))
        ++ m.drop i) := by
      rw [mkeys_append]
      exact List.mem_append_left _ haM
    rw [mget_append_left _ haM2, mget_append_left _ haM, mget_mapval]
    have hsome : (mget (m.take i) a).isSome := (mget_isSome_iff _ _).mpr hta
    obtain ⟨d, hd⟩ := Option.isSome_iff_exists.mp hsome
    have hmd : mget m a = some d := by
      conv_lhs => rw [← List.take_append_drop i m]
      rw [mget_append_left _ hta, hd]
    rw [hd, hmd, Option.map_some']
    simp [synthUpd_portNumber]
  · have hda : a ∈ mkeys (m.drop i) := by
      rw [← mkeys_take_drop m i, List.mem_append] at ha
      exact ha.resolve_left hta
    have haM : a ∉ mkeys ((m.take i).map fun kv => (kv.1, synthUpd m kv.2)) := by
      rw [mkeys_mapval]
      exact hta
    rw [List.append_assoc, mget_append_right _ haM, mget_append_left _ hda]
    have hmd : mget m a = mget (m.drop i) a := by
      conv_lhs => rw [← List.take_append_drop i m]
      rw [mget_append_right _ hta]
    rw [hmd]

theorem freshSynth_disjoint {m : DevMap} (hfs : FreshSynth m) :
    ∀ a ∈ mkeys m, a ∉ m.flatMap synthKeysBlock := by
  have h := hfs.1
  rw [allSynthKeys_eq_flatMap] at h
  exact (List.nodup_append.mp h).2.2

theorem freshSynth_nodup_synth {m : DevMap} (hfs : FreshSynth m) :
    (m.flatMap synthKeysBlock).Nodup := by
  have h := hfs.1
  rw [allSynthKeys_eq_flatMap] at h
  exact (List.nodup_append.mp h).2.1

theorem synthKeysBlock_decomp (m : DevMap) {i : Nat} (hi : i < m.length) :
    m.flatMap synthKeysBlock
      = (m.take i).flatMap synthKeysBlock
        ++ (synthKeysBlock (m.get ⟨i, hi⟩)
        ++ (m.drop (i + 1)).flatMap synthKeysBlock) := by
  conv_lhs => rw [← List.take_append_drop i m]
  rw [List.flatMap_append]
  congr 1
  rw [List.drop_eq_getElem_cons hi, List.flatMap_cons]
  rfl

theorem synthStep_multi {X : DevMap} {c0 : CPMap} {k : String} {dev : USBDevice}
    (hm : mget X k = some dev) (hlen : dev.comPorts.length > 1)
    (hfresh : ∀ ci ∈ dev.comPorts, (dev.instancePath ++ "#" ++ ci.port) ∉ mkeys X)
    (hnd : ((dev.comPorts.map fun ci => dev.instancePath ++ "#" ++ ci.port)).Nodup) :
    synthStep (X, c0) k =
      (mset X k { dev with
          comPorts := []
          children := sortByLe
            (childLe (mset X k { dev with
                comPorts := []
                children := dev.children
                  ++ dev.comPorts.map (fun ci => dev.instancePath ++ "#" ++ ci.port) }
              ++ dev.comPorts.map (fun ci =>
                  (dev.instancePath ++ "#" ++ ci.port, synthChild dev ci))))
            (dev.children
              ++ dev.comPorts.map (fun ci => dev.instancePath ++ "#" ++ ci.port)) }
        ++ dev.comPorts.map (fun ci => (dev.instancePath ++ "#" ++ ci.port, synthChild dev ci)),
       dev.comPorts.foldl
         (fun a ci => mset a ci.port (dev.instancePath ++ "#" ++ ci.port, ci)) c0) := by
  have hkX : k ∈ mkeys X := (mget_isSome_iff _ _).mp (by rw [hm]; rfl)
  have hinner := synth_inner dev k dev.comPorts X c0 dev hm hfresh hnd
  unfold synthStep
  simp only [show mget (X, c0).1 k = some dev from hm]
  rw [if_pos hlen]
  simp only [hinner]
  have hm1 : mget (mset X k { dev with children :=
        dev.children ++ dev.comPorts.map (fun ci => dev.instancePath ++ "#" ++ ci.port) }
      ++ dev.comPorts.map (fun ci =>
        (dev.instancePath ++ "#" ++ ci.port, synthChild dev ci))) k
      = some { dev with children :=
          dev.children ++ dev.comPorts.map (fun ci => dev.instancePath ++ "#" ++ ci.port) } := by
    rw [mget_append_left _ (by rw [mkeys_mset_of_mem _ hkX]; exact hkX), mget_mset_self]
  simp only [hm1]
  have hs2 : mset (mset X k { dev with children :=
        dev.children ++ dev.comPorts.map (fun ci => dev.instancePath ++ "#" ++ ci.port) }
      ++ dev.comPorts.map (fun ci =>
        (dev.instancePath ++ "#" ++ ci.port, synthChild dev ci))) k
      { dev with
        comPorts := []
        children :=
          dev.children ++ dev.comPorts.map (fun ci => dev.instancePath ++ "#" ++ ci.port) }
      = mset X k { dev with
          comPorts := []
          children :=
            dev.children ++ dev.comPorts.map (fun ci => dev.instancePath ++ "#" ++ ci.port) }
        ++ dev.comPorts.map (fun ci =>
          (dev.instancePath ++ "#" ++ ci.port, synthChild dev ci)) := by
    rw [mset_append_left _ _ (by rw [mkeys_mset_of_mem _ hkX]; exact hkX), mset_mset]
  rw [hs2]
  have hm2 : mget (mset X k { dev with
        comPorts := []
        children :=
          dev.children ++ dev.comPorts.map (fun ci => dev.instancePath ++ "#" ++ ci.port) }
      ++ dev.comPorts.map (fun ci =>
        (dev.instancePath ++ "#" ++ ci.port, synthChild dev ci))) k
      = some { dev with
          comPorts := []
          children :=
            dev.children ++ dev.comPorts.map (fun ci => dev.instancePath ++ "#" ++ ci.port) } := by
    rw [mget_append_left _ (by rw [mkeys_mset_of_mem _ hkX]; exact hkX), mget_mset_self]
  simp only [hm2]
  have hs3 : mset (mset X k { dev with
        comPorts := []
        children :=
          dev.children ++ dev.comPorts.map (fun ci => dev.instancePath ++ "#" ++ ci.port) }
      ++ dev.comPorts.map (fun ci =>
        (dev.instancePath ++ "#" ++ ci.port, synthChild dev ci))) k
      { dev with
        comPorts := []
        children := sortByLe
          (childLe (mset X k { dev with
              comPorts := []
              children := dev.children
                ++ dev.comPorts.map (fun ci => dev.instancePath ++ "#" ++ ci.port) }
            ++ dev.comPorts.map (fun ci =>
                (dev.instancePath ++ "#" ++ ci.port, synthChild dev ci))))
          (dev.children
            ++ dev.comPorts.map (fun ci => dev.instancePath ++ "#" ++ ci.port)) }
      = mset X k { dev with
          comPorts := []
          children := sortByLe
            (childLe (mset X k { dev with
                comPorts := []
                children := dev.children
                  ++ dev.comPorts.map (fun ci => dev.instancePath ++ "#" ++ ci.port) }
              ++ dev.comPorts.map (fun ci =>
                  (dev.instancePath ++ "#" ++ ci.port, synthChild dev ci))))
            (dev.children
              ++ dev.comPorts.map (fun ci => dev.instancePath ++ "#" ++ ci.port)) }
        ++ dev.comPorts.map (fun ci =>
          (dev.instancePath ++ "#" ++ ci.port, synthChild dev ci)) := by
    rw [mset_append_left _ _ (by rw [mkeys_mset_of_mem _ hkX]; exact hkX), mset_mset]
  rw [hs3]

theorem mset_head {α : Type} (k : String) (w v : α) (rest : List (String × α)) :
    mset ((k, w) :: rest) k v = (k, v) :: rest := by
  simp [mset]

theorem mset_append_right {α : Type} {m : List (String × α)}
    (m' : List (String × α)) {k : String} (v : α) (h : k ∉ mkeys m) :
    mset (m ++ m') k v = m ++ mset m' k v := by
  induction m with
  | nil => simp
  | cons kv rest ih =>
      obtain ⟨k1, v1⟩ := kv
      simp only [mkeys, List.map_cons, List.mem_cons] at h
      push_neg at h
      simp [mset, Ne.symm h.1, ih h.2]

theorem mget_map_key {α β : Type} (f : α → String) (g : α → β) (l : List α)
    (hnd : (l.map f).Nodup) {a : α} (ha : a ∈ l) :
    mget (l.map fun x => (f x, g x)) (f a) = some (g a) := by
  induction l with
  | nil => simp at ha
  | cons b rest ih =>
      rcases List.mem_cons.mp ha with hab | har
      · subst hab
        simp [mget]
      · have hne : f b ≠ f a := by
          intro he
          exact (List.nodup_cons.mp hnd).1 (he ▸ List.mem_map.mpr ⟨a, har, rfl⟩)
        simp only [List.map_cons, mget, hne, if_false]
        exact ih (List.nodup_cons.mp hnd).2 har

theorem flatMap_take_get_drop {α β : Type} (l : List α) (f : α → List β)
    {i : Nat} (hi : i < l.length) :
    l.flatMap f = (l.take i).flatMap f
      ++ (f (l.get ⟨i, hi⟩) ++ (l.drop (i + 1)).flatMap f) := by
  conv_lhs => rw [← List.take_append_drop i l]
  rw [List.flatMap_append]
  congr 1
  rw [List.drop_eq_getElem_cons hi, List.flatMap_cons]
  rfl

theorem take_succ_getElem {α : Type} (l : List α) {i : Nat} (hi : i < l.length) :
    l.take (i + 1) = l.take i ++ [l.get ⟨i, hi⟩] := by
  rw [List.take_succ]
  congr 1
  rw [List.getElem?_eq_getElem hi]
  rfl

theorem synthUpd_noop (m : DevMap) {d : USBDevice} (h : ¬d.comPorts.length > 1) :
    synthUpd m d = d := by
  unfold synthUpd
  rw [if_neg h]

theorem entriesOf_noop {kv : String × USBDevice} (h : ¬kv.2.comPorts.length > 1) :
    entriesOf kv = [] := by
  unfold entriesOf
  rw [if_neg h]

theorem portOfKey_congr_mget {m1 m2 : DevMap} {x : String}
    (h : mget m1 x = mget m2 x) : portOfKey m1 x = portOfKey m2 x := by
  unfold portOfKey
  rw [h]

theorem portOfKey_eq_of_mget {s : DevMap} {x : String} {d : USBDevice}
    (h : mget s x = some d) : portOfKey s x = d.portNumber := by
  unfold portOfKey
  rw [h]

theorem portOfKey_synthAug_mem {m : DevMap} {x : String} (hx : x ∈ mkeys m) :
    portOfKey (synthAug m) x = portOfKey m x := by
  apply portOfKey_congr_mget
  unfold synthAug
  exact mget_append_left _ hx

theorem synth_fresh_at {m : DevMap} (hfs : FreshSynth m) {i : Nat} (hi : i < m.length)
    {k : String} {dev : USBDevice} (hkd : m.get ⟨i, hi⟩ = (k, dev))
    (hlen : dev.comPorts.length > 1) :
    (∀ ci ∈ dev.comPorts,
        (dev.instancePath ++ "#" ++ ci.port) ∉ mkeys (synthPartialMap m i)) ∧
    ((dev.comPorts.map fun ci => dev.instancePath ++ "#" ++ ci.port)).Nodup := by
  have hdec := synthKeysBlock_decomp m hi
  rw [hkd] at hdec
  have hblock : synthKeysBlock (k, dev)
      = dev.comPorts.map fun ci => dev.instancePath ++ "#" ++ ci.port := by
    unfold synthKeysBlock synthKeysOf
    rw [if_pos hlen]
  have hndA := freshSynth_nodup_synth hfs
  rw [hdec, hblock] at hndA
  obtain ⟨hnd1, hnd2, hd12⟩ := List.nodup_append.mp hndA
  obtain ⟨hndB, hndF2, hdB2⟩ := List.nodup_append.mp hnd2
  refine ⟨?_, hndB⟩
  intro ci hci
  have hskB : dev.instancePath ++ "#" ++ ci.port
      ∈ dev.comPorts.map fun x => dev.instancePath ++ "#" ++ x.port :=
    List.mem_map.mpr ⟨ci, hci, rfl⟩
  rw [mkeys_synthPartialMap]
  simp only [List.mem_append]
  push_neg
  constructor
  · intro hmem
    have hflat : dev.instancePath ++ "#" ++ ci.port ∈ m.flatMap synthKeysBlock := by
      rw [hdec, hblock]
      exact List.mem_append_right _ (List.mem_append_left _ hskB)
    exact freshSynth_disjoint hfs _ hmem hflat
  · intro hF1
    exact hd12 hF1 (List.mem_append_left _ hskB)

theorem portOfKey_step_congr {m : DevMap} (hnd : (mkeys m).Nodup) (hfs : FreshSynth m)
    (hch : ∀ kv ∈ m, ∀ ck ∈ kv.2.children, ck ∈ mkeys m)
    {i : Nat} (hi : i < m.length) {k : String} {dev : USBDevice}
    (hkd : m.get ⟨i, hi⟩ = (k, dev)) (hlen : dev.comPorts.length > 1) :
    ∀ x ∈ dev.children
        ++ dev.comPorts.map (fun ci => dev.instancePath ++ "#" ++ ci.port),
      portOfKey (mset (synthPartialMap m i) k { dev with
          comPorts := []
          children := dev.children
            ++ dev.comPorts.map (fun ci => dev.instancePath ++ "#" ++ ci.port) }
        ++ dev.comPorts.map (fun ci =>
            (dev.instancePath ++ "#" ++ ci.port, synthChild dev ci))) x
      = portOfKey (synthAug m) x := by
  intro x hx
  have hmemm : (k, dev) ∈ m := by
    rw [← hkd]
    exact m.get_mem i hi
  have hkm : k ∈ mkeys m := List.mem_map.mpr ⟨(k, dev), hmemm, rfl⟩
  have hkP : k ∈ mkeys (synthPartialMap m i) := by
    rw [mkeys_synthPartialMap]
    exact List.mem_append_left _ hkm
  have hgetk : mget m k = some dev := mget_of_mem_nodup hnd hmemm
  have hfr := synth_fresh_at hfs hi hkd hlen
  rcases List.mem_append.mp hx with hxc | hxs
  · have hxm : x ∈ mkeys m := hch (k, dev) hmemm x hxc
    rw [portOfKey_synthAug_mem hxm]
    have hxP : x ∈ mkeys (mset (synthPartialMap m i) k { dev with
        comPorts := []
        children := dev.children
          ++ dev.comPorts.map (fun ci => dev.instancePath ++ "#" ++ ci.port) }) := by
      rw [mkeys_mset_of_mem _ hkP, mkeys_synthPartialMap]
      exact List.mem_append_left _ hxm
    by_cases hxk : x = k
    · subst hxk
      have h1 : mget (mset (synthPartialMap m i) x { dev with
            comPorts := []
            children := dev.children
              ++ dev.comPorts.map (fun ci => dev.instancePath ++ "#" ++ ci.port) }
          ++ dev.comPorts.map (fun ci =>
              (dev.instancePath ++ "#" ++ ci.port, synthChild dev ci))) x
          = some { dev with
              comPorts := []
              children := dev.children
                ++ dev.comPorts.map (fun ci => dev.instancePath ++ "#" ++ ci.port) } := by
        rw [mget_append_left _ hxP, mget_mset_self]
      rw [portOfKey_eq_of_mget h1, portOfKey_eq_of_mget hgetk]
    · have h1 : mget (mset (synthPartialMap m i) k { dev with
            comPorts := []
            children := dev.children
              ++ dev.comPorts.map (fun ci => dev.instancePath ++ "#" ++ ci.port) }
          ++ dev.comPorts.map (fun ci =>
              (dev.instancePath ++ "#" ++ ci.port, synthChild dev ci))) x
          = mget (synthPartialMap m i) x := by
        rw [mget_append_left _ hxP, mget_mset_ne hxk]
      exact (portOfKey_congr_mget h1).trans (portOfKey_synthPartialMap m i hxm)
  · obtain ⟨ci0, hci0, rfl⟩ := List.mem_map.mp hxs
    have hskP : dev.instancePath ++ "#" ++ ci0.port ∉ mkeys (synthPartialMap m i) :=
      hfr.1 ci0 hci0
    have hskm : dev.instancePath ++ "#" ++ ci0.port ∉ mkeys m := by
      intro hmem
      apply hskP
      rw [mkeys_synthPartialMap]
      exact List.mem_append_left _ hmem
    have hset : mget (mset (synthPartialMap m i) k { dev with
          comPorts := []
          children := dev.children
            ++ dev.comPorts.map (fun ci => dev.instancePath ++ "#" ++ ci.port) }
        ++ dev.comPorts.map (fun ci =>
            (dev.instancePath ++ "#" ++ ci.port, synthChild dev ci)))
          (dev.instancePath ++ "#" ++ ci0.port)
        = some (synthChild dev ci0) := by
      rw [mget_append_right _ (by
        rw [mkeys_mset_of_mem _ hkP]
        exact hskP)]
      exact mget_map_key (fun ci => dev.instancePath ++ "#" ++ ci.port)
        (fun ci => synthChild dev ci) dev.comPorts hfr.2 hci0
    rw [portOfKey_eq_of_mget hset]
    have haug : mget (synthAug m) (dev.instancePath ++ "#" ++ ci0.port)
        = some (synthChild dev ci0) := by
      unfold synthAug
      rw [mget_append_right _ hskm, synthEntries_eq_flatMap,
        flatMap_take_get_drop m entriesOf hi, hkd]
      have hF1 : dev.instancePath ++ "#" ++ ci0.port
          ∉ mkeys ((m.take i).flatMap entriesOf) := by
        rw [mkeys_flatMap_entriesOf]
        intro hmem
        apply hskP
        rw [mkeys_synthPartialMap]
        exact List.mem_append_right _ hmem
      rw [mget_append_right _ hF1]
      have hEkv : entriesOf (k, dev)
          = dev.comPorts.map fun ci =>
              (dev.instancePath ++ "#" ++ ci.port, synthChild dev ci) := by
        unfold entriesOf
        rw [if_pos hlen]
      rw [hEkv]
      have hinb : dev.instancePath ++ "#" ++ ci0.port
          ∈ mkeys (dev.comPorts.map fun ci =>
              (dev.instancePath ++ "#" ++ ci.port, synthChild dev ci)) := by
        rw [← mget_isSome_iff]
        rw [mget_map_key (fun ci => dev.instancePath ++ "#" ++ ci.port)
          (fun ci => synthChild dev ci) dev.comPorts hfr.2 hci0]
        rfl
      rw [mget_append_left _ hinb]
      exact mget_map_key (fun ci => dev.instancePath ++ "#" ++ ci.port)
        (fun ci => synthChild dev ci) dev.comPorts hfr.2 hci0
    rw [portOfKey_eq_of_mget haug]

theorem mset_head_pair {α : Type} (p : String × α) (rest : List (String × α)) (v : α) :
    mset (p :: rest) p.1 v = (p.1, v) :: rest := by
  obtain ⟨a, b⟩ := p
  simp [mset]

theorem mget_cons_pair {α : Type} (p : String × α) (rest : List (String × α)) :
    mget (p :: rest) p.1 = some p.2 := by
  obtain ⟨a, b⟩ := p
  simp [mget]

theorem synth_key_in_drop {m : DevMap} {i : Nat} (hi : i < m.length) :
    (m.get ⟨i, hi⟩).1 ∈ mkeys (m.drop i) := by
  rw [List.drop_eq_getElem_cons hi]
  exact List.mem_map.mpr ⟨m.get ⟨i, hi⟩, List.mem_cons_self _ _, rfl⟩

theorem synth_key_not_take {m : DevMap} (hnd : (mkeys m).Nodup) {i : Nat}
    (hi : i < m.length) : (m.get ⟨i, hi⟩).1 ∉ mkeys (m.take i) := by
  rw [← mkeys_take_drop m i] at hnd
  exact fun h => (List.nodup_append.mp hnd).2.2 h (synth_key_in_drop hi)

theorem mget_synthPartialMap_at {m : DevMap} (hnd : (mkeys m).Nodup) {i : Nat}
    (hi : i < m.length) :
    mget (synthPartialMap m i) (m.get ⟨i, hi⟩).1 = some (m.get ⟨i, hi⟩).2 := by
  unfold synthPartialMap
  have hnt : (m.get ⟨i, hi⟩).1
      ∉ mkeys ((m.take i).map fun kv => (kv.1, synthUpd m kv.2)) := by
    rw [mkeys_mapval]
    exact synth_key_not_take hnd hi
  rw [List.append_assoc, mget_append_right _ hnt,
    mget_append_left _ (synth_key_in_drop hi), List.drop_eq_getElem_cons hi]
  exact mget_cons_pair _ _

theorem synth_step_partial_noop {m : DevMap} (c : CPMap)
    (hnd : (mkeys m).Nodup) {i : Nat} (hi : i < m.length)
    (hlen : ¬(m.get ⟨i, hi⟩).2.comPorts.length > 1) :
    synthStep (synthPartialMap m i, synthPartialCPM m c i) (m.get ⟨i, hi⟩).1
      = (synthPartialMap m (i + 1), synthPartialCPM m c (i + 1)) := by
  rw [synthStep_noop (mget_synthPartialMap_at hnd hi) hlen]
  refine Prod.ext ?_ ?_
  · show synthPartialMap m i = synthPartialMap m (i + 1)
    unfold synthPartialMap
    rw [take_succ_getElem m hi, List.map_append, List.flatMap_append]
    rw [List.drop_eq_getElem_cons hi]
    have h1 : ([m.get ⟨i, hi⟩].map fun kv => (kv.1, synthUpd m kv.2))
        = [m.get ⟨i, hi⟩] := by
      rw [List.map_cons, List.map_nil, synthUpd_noop m hlen]
    have h2 : [m.get ⟨i, hi⟩].flatMap entriesOf = [] := by
      rw [List.flatMap_cons, entriesOf_noop hlen]
      rfl
    rw [h1, h2]
    simp [List.append_assoc]
  · show synthPartialCPM m c i = synthPartialCPM m c (i + 1)
    unfold synthPartialCPM synthCPM
    rw [take_succ_getElem m hi, List.foldl_append]
    simp only [List.foldl_cons, List.foldl_nil]
    rw [if_neg hlen]

theorem synth_step_partial_multi {m : DevMap} (c : CPMap)
    (hnd : (mkeys m).Nodup) (hfs : FreshSynth m)
    (hch : ∀ kv ∈ m, ∀ ck ∈ kv.2.children, ck ∈ mkeys m)
    {i : Nat} (hi : i < m.length) {k : String} {dev : USBDevice}
    (hkd : m.get ⟨i, hi⟩ = (k, dev)) (hlen : dev.comPorts.length > 1) :
    synthStep (synthPartialMap m i, synthPartialCPM m c i) k
      = (synthPartialMap m (i + 1), synthPartialCPM m c (i + 1)) := by
  have hmk0 := mget_synthPartialMap_at hnd hi
  rw [hkd] at hmk0
  have hmk : mget (synthPartialMap m i) k = some dev := hmk0
  have hfr := synth_fresh_at hfs hi hkd hlen
  have pc := portOfKey_step_congr hnd hfs hch hi hkd hlen
  have hcongr := sortByLe_congr
    (childLe (mset (synthPartialMap m i) k { dev with
        comPorts := []
        children := dev.children
          ++ dev.comPorts.map (fun ci => dev.instancePath ++ "#" ++ ci.port) }
      ++ dev.comPorts.map (fun ci =>
          (dev.instancePath ++ "#" ++ ci.port, synthChild dev ci))))
    (childLe (synthAug m))
    (dev.children ++ dev.comPorts.map (fun ci => dev.instancePath ++ "#" ++ ci.port))
    (fun a ha b hb => by
      unfold childLe
      rw [pc a ha, pc b hb])
  have hupd : synthUpd m dev = { dev with
      comPorts := []
      children := sortByLe (childLe (synthAug m))
        (dev.children
          ++ dev.comPorts.map (fun ci => dev.instancePath ++ "#" ++ ci.port)) } := by
    unfold synthUpd synthKeysOf
    rw [if_pos hlen]
  rw [synthStep_multi hmk hlen hfr.1 hfr.2, hcongr, ← hupd]
  have hknA : k ∉ mkeys ((m.take i).map fun kv => (kv.1, synthUpd m kv.2)) := by
    rw [mkeys_mapval]
    have h := synth_key_not_take hnd hi
    rw [hkd] at h
    exact h
  have hkdrop : k ∈ mkeys (m.drop i) := by
    have h := synth_key_in_drop (m := m) hi
    rw [hkd] at h
    exact h
  refine Prod.ext ?_ ?_
  · show mset (synthPartialMap m i) k (synthUpd m dev)
        ++ dev.comPorts.map (fun ci =>
            (dev.instancePath ++ "#" ++ ci.port, synthChild dev ci))
      = synthPartialMap m (i + 1)
    unfold synthPartialMap
    rw [take_succ_getElem m hi, hkd, List.map_append, List.flatMap_append]
    rw [mset_append_left _ _ (by
      rw [mkeys_append]
      exact List.mem_append_right _ hkdrop)]
    rw [mset_append_right _ _ hknA]
    have hkd' : m[i] = (k, dev) := hkd
    rw [List.drop_eq_getElem_cons hi, hkd']
    have hhead : mset ((k, dev) :: m.drop (i + 1)) k (synthUpd m dev)
        = (k, synthUpd m dev) :: m.drop (i + 1) := by
      simp [mset]
    rw [hhead]
    have hEkv : entriesOf (k, dev)
        = dev.comPorts.map fun ci =>
            (dev.instancePath ++ "#" ++ ci.port, synthChild dev ci) := by
      unfold entriesOf
      rw [if_pos (show ((k, dev) : String × USBDevice).2.comPorts.length > 1 from hlen)]
    simp [hEkv, List.append_assoc]
  · show dev.comPorts.foldl
        (fun a ci => mset a ci.port (dev.instancePath ++ "#" ++ ci.port, ci))
        (synthPartialCPM m c i)
      = synthPartialCPM m c (i + 1)
    unfold synthPartialCPM synthCPM
    rw [take_succ_getElem m hi, hkd, List.foldl_append]
    simp only [List.foldl_cons, List.foldl_nil]
    rw [if_pos (show ((k, dev) : String × USBDevice).2.comPorts.length > 1 from hlen)]

theorem synth_step_partial {m : DevMap} (c : CPMap)
    (hnd : (mkeys m).Nodup) (hfs : FreshSynth m)
    (hch : ∀ kv ∈ m, ∀ ck ∈ kv.2.children, ck ∈ mkeys m)
    {i : Nat} (hi : i < m.length) :
    synthStep (synthPartialMap m i, synthPartialCPM m c i) (m.get ⟨i, hi⟩).1
      = (synthPartialMap m (i + 1), synthPartialCPM m c (i + 1)) := by
  by_cases hlen : (m.get ⟨i, hi⟩).2.comPorts.length > 1
  · exact synth_step_partial_multi c hnd hfs hch hi rfl hlen
  · exact synth_step_partial_noop c hnd hi hlen

theorem length_synthPartialMap (m : DevMap) {i : Nat} (hi : i ≤ m.length) :
    (synthPartialMap m i).length
      = m.length + ((m.take i).flatMap entriesOf).length := by
  unfold synthPartialMap
  simp only [List.length_append, List.length_map, List.length_take, List.length_drop]
  omega

theorem get_synthPartialMap_at (m : DevMap) {i : Nat} (hi : i < m.length)
    (hlen : i < (synthPartialMap m i).length) :
    (synthPartialMap m i).get ⟨i, hlen⟩ = m.get ⟨i, hi⟩ := by
  show (synthPartialMap m i)[i] = m[i]
  unfold synthPartialMap
  have hA : (((m.take i).map fun kv => (kv.1, synthUpd m kv.2)) ++ m.drop i).length
      = m.length := by
    simp only [List.length_append, List.length_map, List.length_take, List.length_drop]
    omega
  have h1 : i < (((m.take i).map fun kv => (kv.1, synthUpd m kv.2)) ++ m.drop i).length := by
    omega
  rw [List.getElem_append_left h1]
  have hAl : (((m.take i).map fun kv => (kv.1, synthUpd m kv.2))).length = i := by
    simp only [List.length_map, List.length_take]
    omega
  rw [List.getElem_append_right (by omega)]
  rw [List.getElem_drop _]
  congr 1
  simp only [List.length_map, List.length_take]
  omega

theorem synth_loop_phase1 {m : DevMap} (c : CPMap)
    (hnd : (mkeys m).Nodup) (hfs : FreshSynth m)
    (hch : ∀ kv ∈ m, ∀ ck ∈ kv.2.children, ck ∈ mkeys m) :
    ∀ (d i fuel : Nat), i + d = m.length → d ≤ fuel →
    synthLoop fuel (synthPartialMap m i, synthPartialCPM m c i) i
      = synthLoop (fuel - d)
          (synthPartialMap m m.length, synthPartialCPM m c m.length) m.length := by
  intro d
  induction d with
  | zero =>
      intro i fuel hin _
      have : i = m.length := by omega
      subst this
      rfl
  | succ d ih =>
      intro i fuel hin hdf
      have hi : i < m.length := by omega
      match fuel, hdf with
      | fuel + 1, _ =>
        have hilen : i < (synthPartialMap m i, synthPartialCPM m c i).1.length := by
          show i < (synthPartialMap m i).length
          rw [length_synthPartialMap m (le_of_lt hi)]
          omega
        have hstep : synthLoop (fuel + 1) (synthPartialMap m i, synthPartialCPM m c i) i
            = synthLoop fuel
                (synthStep (synthPartialMap m i, synthPartialCPM m c i)
                  (((synthPartialMap m i, synthPartialCPM m c i).1.get ⟨i, hilen⟩).1))
                (i + 1) := by
          conv_lhs => unfold synthLoop
          rw [dif_pos hilen]
        rw [hstep]
        have hkey : ((synthPartialMap m i, synthPartialCPM m c i).1.get ⟨i, hilen⟩).1
            = (m.get ⟨i, hi⟩).1 := by
          rw [get_synthPartialMap_at m hi hilen]
        rw [hkey, synth_step_partial c hnd hfs hch hi]
        have := ih (i + 1) fuel (by omega) (by omega)
        rw [this]
        congr 1
        omega

theorem synthLoop_noop_tail :
    ∀ (fuel : Nat) (s : DevMap × CPMap) (i : Nat),
    (∀ j (hj : j < s.1.length), i ≤ j →
      ∀ d, mget s.1 (s.1.get ⟨j, hj⟩).1 = some d → ¬d.comPorts.length > 1) →
    synthLoop fuel s i = s := by
  intro fuel
  induction fuel with
  | zero =>
      intro s i _
      rfl
  | succ fuel ih =>
      intro s i h
      by_cases hij : i < s.1.length
      · have hstep : synthLoop (fuel + 1) s i
            = synthLoop fuel (synthStep s ((s.1.get ⟨i, hij⟩).1)) (i + 1) := by
          conv_lhs => unfold synthLoop
          rw [dif_pos hij]
        have hnoop : synthStep s ((s.1.get ⟨i, hij⟩).1) = s := by
          cases hm : mget s.1 ((s.1.get ⟨i, hij⟩).1) with
          | none => exact synthStep_missing hm
          | some d => exact synthStep_noop hm (h i hij (le_refl i) d hm)
        rw [hstep, hnoop]
        exact ih s (i + 1) (fun j hj hij2 d hmd => h j hj (by omega) d hmd)
      · conv_lhs => unfold synthLoop
        rw [dif_neg hij]

theorem synthEntries_comPorts {m : DevMap} :
    ∀ e ∈ synthEntries m, e.2.comPorts.length = 1 := by
  intro e he
  rw [synthEntries_eq_flatMap] at he
  obtain ⟨kv, _, hkv⟩ := List.mem_flatMap.mp he
  unfold entriesOf at hkv
  by_cases hb : kv.2.comPorts.length > 1
  · rw [if_pos hb] at hkv
    obtain ⟨ci, _, rfl⟩ := List.mem_map.mp hkv
    rfl
  · rw [if_neg hb] at hkv
    simp at hkv

theorem mkeys_synthSpecMap (m : DevMap) :
    mkeys (synthSpecMap m) = mkeys m ++ FreshSynth.allSynthKeys m := by
  unfold synthSpecMap
  rw [mkeys_append, mkeys_mapval, synthEntries_eq_flatMap, mkeys_flatMap_entriesOf,
    allSynthKeys_eq_flatMap]

theorem synthLoop_master {m : DevMap} (c : CPMap)
    (hnd : (mkeys m).Nodup) (hfs : FreshSynth m)
    (hch : ∀ kv ∈ m, ∀ ck ∈ kv.2.children, ck ∈ mkeys m) :
    synthLoop (synthFuel m) (m, c) 0 = (synthSpecMap m, synthCPM m c) := by
  have h0map : synthPartialMap m 0 = m := by
    unfold synthPartialMap
    simp
  have h0cpm : synthPartialCPM m c 0 = c := by
    unfold synthPartialCPM synthCPM
    simp
  have hnmap : synthPartialMap m m.length = synthSpecMap m := by
    unfold synthPartialMap synthSpecMap
    rw [List.take_length, List.drop_length, synthEntries_eq_flatMap]
    simp
  have hncpm : synthPartialCPM m c m.length = synthCPM m c := by
    unfold synthPartialCPM
    rw [List.take_length]
  have h1 := synth_loop_phase1 c hnd hfs hch m.length 0 (synthFuel m) (by omega)
    (by unfold synthFuel; omega)
  rw [h0map, h0cpm, hnmap, hncpm] at h1
  rw [h1]
  apply synthLoop_noop_tail
  intro j hj hij d hmd
  have hndS : (mkeys (synthSpecMap m)).Nodup := by
    rw [mkeys_synthSpecMap]
    exact hfs.1
  have hpos := mget_position hndS hj
  rw [hmd] at hpos
  have hd : d = ((synthSpecMap m).get ⟨j, hj⟩).2 := Option.some.inj hpos
  have hjm : (List.map (fun kv => (kv.1, synthUpd m kv.2)) m).length ≤ j := by
    rw [List.length_map]
    exact hij
  have hmem : (synthSpecMap m).get ⟨j, hj⟩ ∈ synthEntries m := by
    show (synthSpecMap m)[j] ∈ synthEntries m
    unfold synthSpecMap
    rw [List.getElem_append_right hjm]
    exact List.getElem_mem _
  rw [hd, synthEntries_comPorts _ hmem]
  omega

theorem mkeys_chainedMap (devs : DevMap) (cps : List (String × ComPortSrc))
    (hWF : WFdev devs) :
    mkeys (chainedMap devs cps) = mkeys (childSortedMap devs cps) :=
  (chainedMap_master devs cps hWF).1.1

theorem chainedMap_nodup (devs : DevMap) (cps : List (String × ComPortSrc))
    (hWF : WFdev devs) : (mkeys (chainedMap devs cps)).Nodup := by
  rw [mkeys_chainedMap devs cps hWF]
  exact (linkInv_childSorted devs cps hWF).1

theorem chainedMap_children_keys (devs : DevMap) (cps : List (String × ComPortSrc))
    (hWF : WFdev devs) :
    ∀ kv ∈ chainedMap devs cps, ∀ ck ∈ kv.2.children,
      ck ∈ mkeys (chainedMap devs cps) := by
  intro kv hkv ck hck
  have hInv := linkInv_childSorted devs cps hWF
  have hndM : (mkeys (chainedMap devs cps)).Nodup := chainedMap_nodup devs cps hWF
  have hgM : mget (chainedMap devs cps) kv.1 = some kv.2 := mget_of_mem_nodup hndM hkv
  have hkmem : kv.1 ∈ mkeys (childSortedMap devs cps) := by
    rw [← mkeys_chainedMap devs cps hWF]
    exact List.mem_map.mpr ⟨kv, hkv, rfl⟩
  obtain ⟨d, hd⟩ := Option.isSome_iff_exists.mp ((mget_isSome_iff _ _).mpr hkmem)
  have hss := (chainedMap_master devs cps hWF).1.2 kv.1
  rw [hd, hgM] at hss
  have hchildren : kv.2.children = d.children := (sameShape_fields hss).2.2.2.2.2.1
  rw [hchildren] at hck
  obtain ⟨cdev, hcd, _, _⟩ := hInv.2.1 (kv.1, d) (mem_of_mget hd) ck hck
  rw [mkeys_chainedMap devs cps hWF]
  exact (mget_isSome_iff _ _).mp (by rw [hcd]; rfl)

theorem synthPair_closed (devs : DevMap) (cps : List (String × ComPortSrc))
    (hWF : WFinput devs cps) :
    synthPair devs cps
      = (synthSpecMap (chainedMap devs cps),
         synthCPM (chainedMap devs cps) (assignedPair devs cps).2) := by
  unfold synthPair
  exact synthLoop_master (assignedPair devs cps).2
    (chainedMap_nodup devs cps hWF.1) hWF.2.2
    (chainedMap_children_keys devs cps hWF.1)

theorem flatMap_nodup_each {α β : Type} {l : List α} {g : α → List β}
    (h : (l.flatMap g).Nodup) : ∀ a ∈ l, (g a).Nodup := by
  induction l with
  | nil => intro a ha; simp at ha
  | cons b rest ih =>
      rw [List.flatMap_cons] at h
      obtain ⟨hb, hrest, _⟩ := List.nodup_append.mp h
      intro a ha
      rcases List.mem_cons.mp ha with hab | har
      · subst hab; exact hb
      · exact ih hrest a har

theorem flatMap_nodup_disjoint {α β : Type} {l : List α} {g : α → List β}
    (h : (l.flatMap g).Nodup) {a1 a2 : α} (h1 : a1 ∈ l) (h2 : a2 ∈ l)
    (hne : a1 ≠ a2) : ∀ x ∈ g a1, x ∉ g a2 := by
  induction l with
  | nil => simp at h1
  | cons b rest ih =>
      rw [List.flatMap_cons] at h
      obtain ⟨hb, hrest, hdisj⟩ := List.nodup_append.mp h
      rcases List.mem_cons.mp h1 with hb1 | hr1 <;>
        rcases List.mem_cons.mp h2 with hb2 | hr2
      · exact absurd (hb1.trans hb2.symm) hne
      · subst hb1
        intro x hx hx2
        exact hdisj hx (List.mem_flatMap.mpr ⟨a2, hr2, hx2⟩)
      · subst hb2
        intro x hx hx2
        exact hdisj hx2 (List.mem_flatMap.mpr ⟨a1, hr1, hx⟩)
      · exact ih hrest hr1 hr2

theorem synthKids_sub_flat {M : DevMap} {j x : String}
    (hx : x ∈ synthKidsOf M j) : ∃ dj, mget M j = some dj ∧ (j, dj) ∈ M ∧
      x ∈ synthKeysBlock (j, dj) := by
  unfold synthKidsOf at hx
  cases hj : mget M j with
  | none => rw [hj] at hx; simp at hx
  | some dj =>
      rw [hj] at hx
      refine ⟨dj, rfl, mem_of_mget hj, ?_⟩
      unfold synthKeysBlock
      exact hx

theorem synthKids_not_key {M : DevMap} (hfs : FreshSynth M) {j x : String}
    (hx : x ∈ synthKidsOf M j) : x ∉ mkeys M := by
  obtain ⟨dj, _, hmem, hb⟩ := synthKids_sub_flat hx
  intro hk
  exact freshSynth_disjoint hfs x hk (List.mem_flatMap.mpr ⟨(j, dj), hmem, hb⟩)

theorem synthKids_nodup {M : DevMap} (hfs : FreshSynth M) (j : String) :
    (synthKidsOf M j).Nodup := by
  unfold synthKidsOf
  cases hj : mget M j with
  | none => exact List.nodup_nil
  | some dj =>
      have := flatMap_nodup_each (freshSynth_nodup_synth hfs) (j, dj) (mem_of_mget hj)
      unfold synthKeysBlock at this
      exact this

theorem synthKids_inj {M : DevMap} (hfs : FreshSynth M)
    {j1 j2 x : String} (h1 : x ∈ synthKidsOf M j1) (h2 : x ∈ synthKidsOf M j2) :
    j1 = j2 := by
  obtain ⟨d1, hm1, hmem1, hb1⟩ := synthKids_sub_flat h1
  obtain ⟨d2, hm2, hmem2, hb2⟩ := synthKids_sub_flat h2
  by_contra hne
  have hpe : (j1, d1) ≠ (j2, d2) := by
    intro he
    exact hne (congrArg Prod.fst he)
  exact flatMap_nodup_disjoint (freshSynth_nodup_synth hfs) hmem1 hmem2 hpe x hb1 hb2

theorem mget_synthSpecMap_orig {M : DevMap} {k : String} {dk : USBDevice}
    (h : mget M k = some dk) :
    mget (synthSpecMap M) k = some (synthUpd M dk) := by
  unfold synthSpecMap
  have hk : k ∈ mkeys ((M.map fun kv => (kv.1, synthUpd M kv.2))) := by
    rw [mkeys_mapval]
    exact (mget_isSome_iff _ _).mp (by rw [h]; rfl)
  rw [mget_append_left _ hk, mget_mapval, h, Option.map_some']

theorem mget_synthEntries_key {M : DevMap}
    (hnds : (M.flatMap synthKeysBlock).Nodup) :
    ∀ {j : String} {dj : USBDevice}, (j, dj) ∈ M → dj.comPorts.length > 1 →
    ∀ {ci : ComPortInfo}, ci ∈ dj.comPorts →
    mget (M.flatMap entriesOf) (dj.instancePath ++ "#" ++ ci.port)
      = some (synthChild dj ci) := by
  induction M with
  | nil => intro j dj hmem; simp at hmem
  | cons kv rest ih =>
      intro j dj hmem hlen ci hci
      rw [List.flatMap_cons] at hnds ⊢
      obtain ⟨hb, hrest, hdisj⟩ := List.nodup_append.mp hnds
      have hbk : (dj.comPorts.map fun x => dj.instancePath ++ "#" ++ x.port).Nodup
          → mget (dj.comPorts.map fun x =>
              (dj.instancePath ++ "#" ++ x.port, synthChild dj x))
              (dj.instancePath ++ "#" ++ ci.port) = some (synthChild dj ci) :=
        fun hn => mget_map_key (fun x => dj.instancePath ++ "#" ++ x.port)
          (fun x => synthChild dj x) dj.comPorts hn hci
      rcases List.mem_cons.mp hmem with hh | hr
      · subst hh
        have hE : entriesOf (j, dj)
            = dj.comPorts.map fun x =>
                (dj.instancePath ++ "#" ++ x.port, synthChild dj x) := by
          unfold entriesOf
          rw [if_pos hlen]
        have hBnd : (dj.comPorts.map fun x => dj.instancePath ++ "#" ++ x.port).Nodup := by
          have := hb
          unfold synthKeysBlock synthKeysOf at this
          rw [if_pos hlen] at this
          exact this
        have hmemB : dj.instancePath ++ "#" ++ ci.port
            ∈ mkeys (entriesOf (j, dj)) := by
          rw [hE, ← mget_isSome_iff, hbk hBnd]
          rfl
        rw [mget_append_left _ hmemB, hE]
        exact hbk hBnd
      · have hnotB : dj.instancePath ++ "#" ++ ci.port ∉ mkeys (entriesOf kv) := by
          rw [mkeys_entriesOf]
          intro hmem2
          apply hdisj hmem2
          refine List.mem_flatMap.mpr ⟨(j, dj), hr, ?_⟩
          unfold synthKeysBlock synthKeysOf
          rw [if_pos hlen]
          exact List.mem_map.mpr ⟨ci, hci, rfl⟩
        rw [mget_append_right _ hnotB]
        exact ih hrest hr hlen hci

theorem mget_synthSpecMap_synth {M : DevMap} (hfs : FreshSynth M)
    {j : String} {dj : USBDevice} (hj : mget M j = some dj)
    (hlen : dj.comPorts.length > 1) {ci : ComPortInfo} (hci : ci ∈ dj.comPorts) :
    mget (synthSpecMap M) (dj.instancePath ++ "#" ++ ci.port)
      = some (synthChild dj ci) := by
  unfold synthSpecMap
  have hfresh : dj.instancePath ++ "#" ++ ci.port ∉ mkeys M := by
    apply synthKids_not_key hfs (j := j)
    unfold synthKidsOf
    rw [hj]
    show dj.instancePath ++ "#" ++ ci.port
      ∈ (if dj.comPorts.length > 1 then synthKeysOf dj else [])
    rw [if_pos hlen]
    exact List.mem_map.mpr ⟨ci, hci, rfl⟩
  have hnm : dj.instancePath ++ "#" ++ ci.port
      ∉ mkeys (M.map fun kv => (kv.1, synthUpd M kv.2)) := by
    rw [mkeys_mapval]
    exact hfresh
  rw [mget_append_right _ hnm, synthEntries_eq_flatMap]
  exact mget_synthEntries_key (freshSynth_nodup_synth hfs) (mem_of_mget hj) hlen hci

theorem childrenOfKey_synthSpecMap {M : DevMap} {k : String} {dk : USBDevice}
    (h : mget M k = some dk) :
    List.Perm (childrenOfKey (synthSpecMap M) k) (dk.children ++ synthKidsOf M k) := by
  unfold childrenOfKey
  rw [mget_synthSpecMap_orig h]
  show List.Perm (synthUpd M dk).children (dk.children ++ synthKidsOf M k)
  unfold synthUpd synthKidsOf
  rw [h]
  by_cases hlen : dk.comPorts.length > 1
  · rw [if_pos hlen]
    show List.Perm (sortByLe (childLe (synthAug M)) (dk.children ++ synthKeysOf dk))
      (dk.children ++ if dk.comPorts.length > 1 then synthKeysOf dk else [])
    rw [if_pos hlen]
    exact sortByLe_perm _ _
  · rw [if_neg hlen]
    show List.Perm dk.children
      (dk.children ++ if dk.comPorts.length > 1 then synthKeysOf dk else [])
    rw [if_neg hlen, List.append_nil]

theorem childrenOfKey_synth_leaf {M : DevMap} (hfs : FreshSynth M)
    {j : String} {dj : USBDevice} (hj : mget M j = some dj)
    (hlen : dj.comPorts.length > 1) {x : String} (hx : x ∈ synthKidsOf M j) :
    childrenOfKey (synthSpecMap M) x = [] := by
  unfold synthKidsOf at hx
  rw [hj] at hx
  have hx' : x ∈ (if dj.comPorts.length > 1 then synthKeysOf dj else []) := hx
  rw [if_pos hlen] at hx'
  obtain ⟨ci, hci, rfl⟩ := List.mem_map.mp hx'
  unfold childrenOfKey
  rw [mget_synthSpecMap_synth hfs hj hlen hci]
  rfl

theorem subtree_synth_leaf {M : DevMap} (hfs : FreshSynth M)
    {j : String} {dj : USBDevice} (hj : mget M j = some dj)
    (hlen : dj.comPorts.length > 1) {x : String} (hx : x ∈ synthKidsOf M j)
    {fuel : Nat} (hf : 0 < fuel) :
    subtreeKeys (synthSpecMap M) fuel x = [x] := by
  match fuel, hf with
  | fuel + 1, _ =>
    show x :: (childrenOfKey (synthSpecMap M) x).flatMap
        (subtreeKeys (synthSpecMap M) fuel) = [x]
    rw [childrenOfKey_synth_leaf hfs hj hlen hx]
    rfl

theorem desc_mem {C : DevMap} {x k : String} (hd : Desc C x k) {F dd : Nat}
    (hk : rootDist C F k = some dd) : x ∈ mkeys C := by
  obtain ⟨t, ht⟩ := hd
  have := rootDist_of_pIter_to t ht hk
  obtain ⟨dev, hm⟩ := rootDist_mget this
  rw [← mget_isSome_iff, hm]
  rfl

theorem child_pNext {C : DevMap} (hInv : LinkInv C) {k : String} {cdev : USBDevice}
    (hm : mget C k = some cdev) {c : String} (hc : c ∈ cdev.children) :
    pNext C c = some k := by
  obtain ⟨cd, hmc, hres, hpk⟩ := hInv.2.1 (k, cdev) (mem_of_mget hm) c hc
  unfold pNext
  rw [hmc]
  show (if resolvesParent C cd = true then some (parentKeyOf cd) else none) = some k
  rw [if_pos hres, hpk]

theorem childrenOfKey_eq {C : DevMap} {k : String} {cdev : USBDevice}
    (hm : mget C k = some cdev) : childrenOfKey C k = cdev.children := by
  unfold childrenOfKey
  rw [hm]

theorem subtree_master {C M : DevMap} (hInv : LinkInv C) (hss : SameStruct C M)
    (hfs : FreshSynth M) :
    ∀ (fuel : Nat) (k : String) (d : Nat),
      rootDist C (C.length + 1) k = some d →
      C.length + 1 - d ≤ fuel →
      (∀ x, x ∈ subtreeKeys (synthSpecMap M) fuel k ↔
        (Desc C x k ∨ ∃ j, Desc C j k ∧ x ∈ synthKidsOf M j)) ∧
      (subtreeKeys (synthSpecMap M) fuel k).Nodup := by
  intro fuel
  induction fuel with
  | zero =>
      intro k d hk hfu
      have := rootDist_lt_length hk
      omega
  | succ fuel ih =>
      intro k d hk hfu
      have hdlt : d < C.length := rootDist_lt_length hk
      obtain ⟨cdev, hmC⟩ := rootDist_mget hk
      obtain ⟨mdev, hmM, hshape⟩ := SameStruct_mget_some hss hmC
      have hchC : mdev.children = cdev.children := (sameShape_fields hshape).2.2.2.2.2.1
      have hkeysCM : mkeys M = mkeys C := hss.1
      have hkM : k ∈ mkeys M := (mget_isSome_iff _ _).mp (by rw [hmM]; rfl)
      have hCL := childrenOfKey_synthSpecMap hmM
      have hchild : ∀ c ∈ cdev.children, pNext C c = some k :=
        fun c hc => child_pNext hInv hmC hc
      have hchildDist : ∀ c ∈ cdev.children,
          rootDist C (C.length + 1) c = some (d + 1) := by
        intro c hc
        have h1 := rootDist_child (hchild c hc) hk
        exact rootDist_any_fuel h1 (by have := rootDist_lt_length h1; omega)
      have hIHc := fun c (hc : c ∈ cdev.children) =>
        ih c (d + 1) (hchildDist c hc) (by omega)
      have hsub : ∀ x ∈ synthKidsOf M k,
          subtreeKeys (synthSpecMap M) fuel x = [x] := by
        intro x hx
        have hx0 := hx
        unfold synthKidsOf at hx0
        rw [hmM] at hx0
        have hx' : x ∈ (if mdev.comPorts.length > 1 then synthKeysOf mdev else []) := hx0
        by_cases hlen : mdev.comPorts.length > 1
        · exact subtree_synth_leaf hfs hmM hlen hx (by omega)
        · rw [if_neg hlen] at hx'
          simp at hx'
      have hexp : subtreeKeys (synthSpecMap M) (fuel + 1) k
          = k :: (childrenOfKey (synthSpecMap M) k).flatMap
              (subtreeKeys (synthSpecMap M) fuel) := rfl
      have hmemCL : ∀ c, c ∈ childrenOfKey (synthSpecMap M) k ↔
          (c ∈ cdev.children ∨ c ∈ synthKidsOf M k) := by
        intro c
        rw [hCL.mem_iff, List.mem_append, hchC]
      have hmemChar : ∀ x, x ∈ subtreeKeys (synthSpecMap M) (fuel + 1) k ↔
          (Desc C x k ∨ ∃ j, Desc C j k ∧ x ∈ synthKidsOf M j) := by
        intro x
        rw [hexp]
        constructor
        · intro hx
          rcases List.mem_cons.mp hx with hxk | hxf
          · exact Or.inl (hxk ▸ desc_refl C k)
          · obtain ⟨c, hcCL, hxsub⟩ := List.mem_flatMap.mp hxf
            rcases (hmemCL c).mp hcCL with hcO | hcS
            · rcases ((hIHc c hcO).1 x).mp hxsub with hdx | ⟨j, hj, hxj⟩
              · exact Or.inl (desc_child (hchild c hcO) hdx)
              · exact Or.inr ⟨j, desc_child (hchild c hcO) hj, hxj⟩
            · rw [hsub c hcS] at hxsub
              have : x = c := by simpa using hxsub
              subst this
              exact Or.inr ⟨k, desc_refl C k, hcS⟩
        · intro hP
          rcases hP with hdx | ⟨j, hj, hxj⟩
          · by_cases hxk : x = k
            · exact hxk ▸ List.mem_cons_self _ _
            · obtain ⟨y, hxy, hyk⟩ := desc_step_decompose hdx hxk
              obtain ⟨ydev, hmy, hyres, hypk⟩ := pNext_inv hyk
              have hyC : y ∈ cdev.children := by
                have := hInv.2.2.1 y ydev hmy hyres
                rw [hypk] at this
                rw [childrenOfKey_eq hmC] at this
                exact this
              refine List.mem_cons_of_mem _ (List.mem_flatMap.mpr ⟨y, ?_, ?_⟩)
              · exact (hmemCL y).mpr (Or.inl hyC)
              · exact ((hIHc y hyC).1 x).mpr (Or.inl hxy)
          · by_cases hjk : j = k
            · subst hjk
              refine List.mem_cons_of_mem _ (List.mem_flatMap.mpr ⟨x, ?_, ?_⟩)
              · exact (hmemCL x).mpr (Or.inr hxj)
              · rw [hsub x hxj]
                exact List.mem_singleton.mpr rfl
            · obtain ⟨y, hjy, hyk⟩ := desc_step_decompose hj hjk
              obtain ⟨ydev, hmy, hyres, hypk⟩ := pNext_inv hyk
              have hyC : y ∈ cdev.children := by
                have := hInv.2.2.1 y ydev hmy hyres
                rw [hypk] at this
                rw [childrenOfKey_eq hmC] at this
                exact this
              refine List.mem_cons_of_mem _ (List.mem_flatMap.mpr ⟨y, ?_, ?_⟩)
              · exact (hmemCL y).mpr (Or.inl hyC)
              · exact ((hIHc y hyC).1 x).mpr (Or.inr ⟨j, hjy, hxj⟩)
      refine ⟨hmemChar, ?_⟩
      rw [hexp, List.nodup_cons]
      have hsubmem : ∀ c, (c ∈ cdev.children ∨ c ∈ synthKidsOf M k) → ∀ x,
          x ∈ subtreeKeys (synthSpecMap M) fuel c →
          (Desc C x c ∨ ∃ j, Desc C j c ∧ x ∈ synthKidsOf M j) ∨ x = c := by
        intro c hc x hx
        rcases hc with hcO | hcS
        · exact Or.inl (((hIHc c hcO).1 x).mp hx)
        · rw [hsub c hcS] at hx
          exact Or.inr (by simpa using hx)
      constructor
      · intro hkf
        obtain ⟨c, hcCL, hksub⟩ := List.mem_flatMap.mp hkf
        rcases (hmemCL c).mp hcCL with hcO | hcS
        · rcases ((hIHc c hcO).1 k).mp hksub with hdk | ⟨j, _, hkj⟩
          · exact desc_not_k_of_deeper hk (hchild c hcO) hdk
          · exact synthKids_not_key hfs hkj hkM
        · rw [hsub c hcS] at hksub
          have hkc : k = c := by simpa using hksub
          subst hkc
          exact synthKids_not_key hfs hcS hkM
      · apply List.nodup_flatMap.mpr
        refine ⟨?_, ?_⟩
        · intro c hcCL
          rcases (hmemCL c).mp hcCL with hcO | hcS
          · exact (hIHc c hcO).2
          · rw [hsub c hcS]
            exact List.nodup_singleton c
        · have hCLnd : (childrenOfKey (synthSpecMap M) k).Nodup := by
            apply hCL.nodup_iff.mpr
            apply List.nodup_append.mpr
            refine ⟨?_, synthKids_nodup hfs k, ?_⟩
            · rw [hchC]
              exact hInv.2.2.2 (k, cdev) (mem_of_mget hmC)
            · intro c hcO hcS
              rw [hchC] at hcO
              obtain ⟨cd, hmc, _, _⟩ := hInv.2.1 (k, cdev) (mem_of_mget hmC) c hcO
              have hcMem : c ∈ mkeys M := by
                rw [hkeysCM, ← mget_isSome_iff, hmc]
                rfl
              exact synthKids_not_key hfs hcS hcMem
          apply hCLnd.imp_of_mem
          intro c1 c2 hc1 hc2 hne
          intro x hx1 hx2
          rcases (hmemCL c1).mp hc1 with hO1 | hS1 <;>
            rcases (hmemCL c2).mp hc2 with hO2 | hS2
          · rcases ((hIHc c1 hO1).1 x).mp hx1 with hd1 | ⟨j1, hj1, hxj1⟩ <;>
              rcases ((hIHc c2 hO2).1 x).mp hx2 with hd2 | ⟨j2, hj2, hxj2⟩
            · exact sibling_desc_disjoint hk (hchild c1 hO1) (hchild c2 hO2) hne hd1 hd2
            · exact synthKids_not_key hfs hxj2
                (by rw [hkeysCM]; exact desc_mem hd1 (hchildDist c1 hO1))
            · exact synthKids_not_key hfs hxj1
                (by rw [hkeysCM]; exact desc_mem hd2 (hchildDist c2 hO2))
            · have hj12 : j1 = j2 := synthKids_inj hfs hxj1 hxj2
              subst hj12
              exact sibling_desc_disjoint hk (hchild c1 hO1) (hchild c2 hO2) hne hj1 hj2
          · rw [hsub c2 hS2] at hx2
            have hxc2 : x = c2 := by simpa using hx2
            subst hxc2
            rcases ((hIHc c1 hO1).1 x).mp hx1 with hd1 | ⟨j1, hj1, hxj1⟩
            · exact synthKids_not_key hfs hS2
                (by rw [hkeysCM]; exact desc_mem hd1 (hchildDist c1 hO1))
            · have hj1k : j1 = k := synthKids_inj hfs hxj1 hS2
              subst hj1k
              exact desc_not_k_of_deeper hk (hchild c1 hO1) hj1
          · rw [hsub c1 hS1] at hx1
            have hxc1 : x = c1 := by simpa using hx1
            subst hxc1
            rcases ((hIHc c2 hO2).1 x).mp hx2 with hd2 | ⟨j2, hj2, hxj2⟩
            · exact synthKids_not_key hfs hS1
                (by rw [hkeysCM]; exact desc_mem hd2 (hchildDist c2 hO2))
            · have hj2k : j2 = k := synthKids_inj hfs hxj2 hS1
              subst hj2k
              exact desc_not_k_of_deeper hk (hchild c2 hO2) hj2
          · rw [hsub c1 hS1] at hx1
            rw [hsub c2 hS2] at hx2
            have h1 : x = c1 := by simpa using hx1
            have h2 : x = c2 := by simpa using hx2
            exact hne (h1 ▸ h2)

theorem length_synthSpecMap (M : DevMap) :
    (synthSpecMap M).length = M.length + (synthEntries M).length := by
  unfold synthSpecMap
  simp

theorem length_eq_of_mkeys {m m' : DevMap} (h : mkeys m = mkeys m') :
    m.length = m'.length := by
  have := congrArg List.length h
  simpa [mkeys] using this

theorem treeNodeKeys_master (devs : DevMap) (cps : List (String × ComPortSrc))
    (hWF : WFinput devs cps) :
    (∀ x, x ∈ treeNodeKeys (buildUSBTree devs cps).tree ↔
      ∃ r ∈ rootKeys (childSortedMap devs cps),
        (Desc (childSortedMap devs cps) x r ∨
         ∃ j, Desc (childSortedMap devs cps) j r ∧
           x ∈ synthKidsOf (chainedMap devs cps) j)) ∧
    (treeNodeKeys (buildUSBTree devs cps).tree).Nodup := by
  have hInv := linkInv_childSorted devs cps hWF.1
  have hss : SameStruct (childSortedMap devs cps) (chainedMap devs cps) :=
    (chainedMap_master devs cps hWF.1).1
  have hfs : FreshSynth (chainedMap devs cps) := hWF.2.2
  have hMC : (chainedMap devs cps).length = (childSortedMap devs cps).length :=
    length_eq_of_mkeys hss.1
  have htk : treeNodeKeys (buildUSBTree devs cps).tree
      = (rootKeys (childSortedMap devs cps)).flatMap
          (subtreeKeys (synthSpecMap (chainedMap devs cps))
            ((synthSpecMap (chainedMap devs cps)).length + 1)) := by
    unfold treeNodeKeys buildUSBTree declaredRoots
    rw [synthPair_closed devs cps hWF]
  have hfuel : (childSortedMap devs cps).length + 1
      ≤ (synthSpecMap (chainedMap devs cps)).length + 1 := by
    rw [length_synthSpecMap, hMC]
    omega
  have hroot : ∀ r ∈ rootKeys (childSortedMap devs cps),
      rootDist (childSortedMap devs cps) ((childSortedMap devs cps).length + 1) r
        = some 0 :=
    fun r hr => rootKeys_dist hInv.1 (by omega) hr
  have hsm := fun r (hr : r ∈ rootKeys (childSortedMap devs cps)) =>
    subtree_master hInv hss hfs
      ((synthSpecMap (chainedMap devs cps)).length + 1) r 0 (hroot r hr)
      (by omega)
  constructor
  · intro x
    rw [htk, List.mem_flatMap]
    constructor
    · rintro ⟨r, hr, hx⟩
      exact ⟨r, hr, ((hsm r hr).1 x).mp hx⟩
    · rintro ⟨r, hr, hx⟩
      exact ⟨r, hr, ((hsm r hr).1 x).mpr hx⟩
  · rw [htk]
    apply List.nodup_flatMap.mpr
    refine ⟨fun r hr => (hsm r hr).2, ?_⟩
    apply (rootKeys_nodup hInv.1).imp_of_mem
    intro r1 r2 hr1 hr2 hne x hx1 hx2
    have hc1 := ((hsm r1 hr1).1 x).mp hx1
    have hc2 := ((hsm r2 hr2).1 x).mp hx2
    have hkeysCM : mkeys (chainedMap devs cps) = mkeys (childSortedMap devs cps) :=
      hss.1
    rcases hc1 with hd1 | ⟨j1, hj1, hxj1⟩ <;> rcases hc2 with hd2 | ⟨j2, hj2, hxj2⟩
    · exact hne (desc_terminal_unique (hroot r1 hr1) (hroot r2 hr2) hd1 hd2)
    · exact synthKids_not_key hfs hxj2
        (by rw [hkeysCM]; exact desc_mem hd1 (hroot r1 hr1))
    · exact synthKids_not_key hfs hxj1
        (by rw [hkeysCM]; exact desc_mem hd2 (hroot r2 hr2))
    · have hj12 : j1 = j2 := synthKids_inj hfs hxj1 hxj2
      subst hj12
      exact hne (desc_terminal_unique (hroot r1 hr1) (hroot r2 hr2) hj1 hj2)

theorem childSorted_value (devs : DevMap) (cps : List (String × ComPortSrc))
    (hWF : WFdev devs) {k : String} {d : USBDevice} (h : mget devs k = some d) :
    mget (childSortedMap devs cps) k
      = some { d with
          comPorts := sortByLe (fun a b => comLe a.port b.port) (assignedComs cps k)
          children := sortByLe (childLe (linkedPair devs cps).1)
            ((mkeys (comSortedMap devs cps)).filter
              (fun c => linksToB (comSortedMap devs cps) c k)) } := by
  rw [childSortedMap_mget_closed devs cps hWF, h, Option.map_some']

theorem childSorted_value_none (devs : DevMap) (cps : List (String × ComPortSrc))
    (hWF : WFdev devs) {k : String} (h : mget devs k = none) :
    mget (childSortedMap devs cps) k = none := by
  rw [childSortedMap_mget_closed devs cps hWF, h]
  rfl

/-- The relation "same keys, values agreeing on parentPath": everything the
parent-walk functions read. -/
def ParentAgree (m m' : DevMap) : Prop :=
  mkeys m' = mkeys m ∧
  ∀ k, match mget m k, mget m' k with
    | some d, some d' => d'.parentPath = d.parentPath
    | none, none => True
    | _, _ => False

theorem parentAgree_childSorted (devs : DevMap) (cps : List (String × ComPortSrc))
    (hWF : WFdev devs) : ParentAgree devs (childSortedMap devs cps) := by
  refine ⟨mkeys_childSortedMap devs cps, ?_⟩
  intro k
  cases hq : mget devs k with
  | none =>
      rw [childSorted_value_none devs cps hWF hq]
      trivial
  | some d =>
      rw [childSorted_value devs cps hWF hq]

theorem rootDist_parentAgree {m m' : DevMap} (h : ParentAgree m m') :
    ∀ (f : Nat) (k : String), rootDist m' f k = rootDist m f k := by
  intro f
  induction f with
  | zero => intro k; rfl
  | succ f ih =>
      intro k
      have hk := h.2 k
      cases hq : mget m k with
      | none =>
          cases hq' : mget m' k with
          | none => rw [rootDist_none hq', rootDist_none hq]
          | some d' => rw [hq, hq'] at hk; exact absurd hk (by simp)
      | some d =>
          cases hq' : mget m' k with
          | none => rw [hq, hq'] at hk; exact absurd hk (by simp)
          | some d' =>
              rw [hq, hq'] at hk
              have hres : resolvesParent m' d' = resolvesParent m d := by
                rw [resolvesParent_congr hk]
                exact resolvesParent_keys_eq h.1 d
              have hpk : parentKeyOf d' = parentKeyOf d := by
                unfold parentKeyOf
                rw [hk]
              cases hr : resolvesParent m d with
              | false =>
                  rw [rootDist_zero hq' (by rw [hres]; exact hr), rootDist_zero hq hr]
              | true =>
                  rw [rootDist_succ hq' (by rw [hres]; exact hr), rootDist_succ hq hr,
                    hpk, ih]

theorem pIter_parentAgree {m m' : DevMap} (h : ParentAgree m m') :
    ∀ (t : Nat) (k : String), pIter m' t k = pIter m t k := by
  intro t
  induction t with
  | zero => intro k; rfl
  | succ t ih =>
      intro k
      have hk := h.2 k
      have hpn : pNext m' k = pNext m k := by
        unfold pNext
        cases hq : mget m k with
        | none =>
            cases hq' : mget m' k with
            | none => rfl
            | some d' => rw [hq, hq'] at hk; exact absurd hk (by simp)
        | some d =>
            cases hq' : mget m' k with
            | none => rw [hq, hq'] at hk; exact absurd hk (by simp)
            | some d' =>
                rw [hq, hq'] at hk
                show (if resolvesParent m' d' = true then some (parentKeyOf d') else none)
                  = (if resolvesParent m d = true then some (parentKeyOf d) else none)
                have hres : resolvesParent m' d' = resolvesParent m d := by
                  rw [resolvesParent_congr hk]
                  exact resolvesParent_keys_eq h.1 d
                have hpk : parentKeyOf d' = parentKeyOf d := by
                  unfold parentKeyOf
                  rw [hk]
                rw [hres, hpk]
      show (match pNext m' k with
        | some k1 => pIter m' t k1
        | none => none) = (match pNext m k with
        | some k1 => pIter m t k1
        | none => none)
      rw [hpn]
      cases pNext m k with
      | none => rfl
      | some k1 => exact ih k1

theorem reach_of_wf (devs : DevMap) (cps : List (String × ComPortSrc))
    (hWF : WFinput devs cps) (hRQ : RootsQualified devs)
    (hAC : AcyclicParents devs) :
    ∀ k ∈ mkeys devs, ∃ r ∈ rootKeys (childSortedMap devs cps),
      Desc (childSortedMap devs cps) k r := by
  have hInv := linkInv_childSorted devs cps hWF.1
  have hPA := parentAgree_childSorted devs cps hWF.1
  have hlenC : (childSortedMap devs cps).length = devs.length :=
    length_eq_of_mkeys (mkeys_childSortedMap devs cps)
  intro k hk
  obtain ⟨d, hd⟩ := Option.isSome_iff_exists.mp (hAC k hk)
  have hdC : rootDist (childSortedMap devs cps)
      ((childSortedMap devs cps).length + 1) k = some d := by
    rw [rootDist_parentAgree hPA, hlenC]
    exact hd
  obtain ⟨r0, c0, htr, hsc⟩ := rootDist_termRoot_specChain hdC
  obtain ⟨r, htr', hpi⟩ := termRoot_pIter hdC
  have hdesc : Desc (childSortedMap devs cps) k r := ⟨d, hpi⟩
  obtain ⟨hdd, hr0⟩ := pIter_rootDist d hdC hpi
  have hdlt : d < (childSortedMap devs cps).length := rootDist_lt_length hdC
  have hfe : (childSortedMap devs cps).length + 1 - d
      = ((childSortedMap devs cps).length - d) + 1 := by omega
  rw [hfe] at hr0
  obtain ⟨rdev, hmr, hcase⟩ := rootDist_cases hr0
  have hres : resolvesParent (childSortedMap devs cps) rdev = false := by
    rcases hcase with ⟨hres, _⟩ | ⟨_, d0, h0, _⟩
    · exact hres
    · omega
  cases hq : mget devs r with
  | none =>
      rw [childSorted_value_none devs cps hWF.1 hq] at hmr
      exact absurd hmr (by simp)
  | some rd =>
      have hcv := childSorted_value devs cps hWF.1 hq
      rw [hmr] at hcv
      have hrdev := Option.some.inj hcv
      have hpp : rdev.parentPath = rd.parentPath := by rw [hrdev]
      have hhub : rdev.isHub = rd.isHub := by rw [hrdev]
      have hvid : rdev.vid = rd.vid := by rw [hrdev]
      have hresd : resolvesParent devs rd = false := by
        rw [← resolvesParent_congr hpp,
          ← resolvesParent_keys_eq (mkeys_childSortedMap devs cps) rdev] at *
        · exact hres
      have hqual := hRQ (r, rd) (mem_of_mget hq) hresd
      have hbool : (rdev.isHub || rdev.vid == "ROOT") = true := by
        rw [hhub, hvid]
        rcases hqual with h1 | h1
        · rw [h1]; rfl
        · rw [h1]; simp
      exact ⟨r, (rootKeys_mem hInv.1 r).mpr ⟨rdev, hmr, hres, hbool⟩, hdesc⟩

theorem synthUpd_portChain (m : DevMap) (d : USBDevice) :
    (synthUpd m d).portChain = d.portChain := by
  unfold synthUpd
  split <;> rfl

theorem portOfKey_synthSpec_aug (M : DevMap) (x : String) :
    portOfKey (synthSpecMap M) x = portOfKey (synthAug M) x := by
  unfold synthSpecMap synthAug
  by_cases hx : x ∈ mkeys M
  · have hxm : x ∈ mkeys (M.map fun kv => (kv.1, synthUpd M kv.2)) := by
      rw [mkeys_mapval]
      exact hx
    unfold portOfKey
    rw [mget_append_left _ hxm, mget_append_left _ hx, mget_mapval]
    cases hg : mget M x with
    | none => rfl
    | some d =>
        rw [Option.map_some']
        exact synthUpd_portNumber M d
  · have hxm : x ∉ mkeys (M.map fun kv => (kv.1, synthUpd M kv.2)) := by
      rw [mkeys_mapval]
      exact hx
    unfold portOfKey
    rw [mget_append_right _ hxm, mget_append_right _ hx]

theorem desc_trans {m : DevMap} {a b c : String} (h1 : Desc m a b)
    (h2 : Desc m b c) : Desc m a c := by
  obtain ⟨t1, ht1⟩ := h1
  obtain ⟨t2, ht2⟩ := h2
  refine ⟨t1 + t2, ?_⟩
  rw [pIter_add m t1 t2, ht1]
  exact ht2

theorem desc_of_pNext {m : DevMap} {c p : String} (hn : pNext m c = some p) :
    Desc m c p := by
  refine ⟨1, ?_⟩
  show (match pNext m c with
    | some k1 => pIter m 0 k1
    | none => none) = some p
  rw [hn]
  rfl

theorem synthKids_multi {M : DevMap} {j x : String} (hx : x ∈ synthKidsOf M j) :
    ∃ dj ci, mget M j = some dj ∧ dj.comPorts.length > 1 ∧ ci ∈ dj.comPorts ∧
      x = dj.instancePath ++ "#" ++ ci.port := by
  unfold synthKidsOf at hx
  cases hj : mget M j with
  | none => rw [hj] at hx; simp at hx
  | some dj =>
      rw [hj] at hx
      have hx' : x ∈ (if dj.comPorts.length > 1 then synthKeysOf dj else []) := hx
      by_cases hlen : dj.comPorts.length > 1
      · rw [if_pos hlen] at hx'
        obtain ⟨ci, hci, rfl⟩ := List.mem_map.mp hx'
        exact ⟨dj, ci, rfl, hlen, hci, rfl⟩
      · rw [if_neg hlen] at hx'
        simp at hx'

theorem chainOfKey_final_reachable (devs : DevMap) (cps : List (String × ComPortSrc))
    (hWF : WFinput devs cps) {x r : String}
    (hr : r ∈ rootKeys (childSortedMap devs cps))
    (hx : Desc (childSortedMap devs cps) x r) :
    ∃ c cx, specChain (childSortedMap devs cps)
        ((childSortedMap devs cps).length + 1) x = some c ∧
      mget (childSortedMap devs cps) x = some cx ∧
      chainOfKey (synthSpecMap (chainedMap devs cps)) x = c ∧
      portOfKey (synthSpecMap (chainedMap devs cps)) x = cx.portNumber := by
  have hreach : ∃ r' ∈ declaredRoots devs cps,
      Desc (childSortedMap devs cps) x r' := ⟨r, hr, hx⟩
  obtain ⟨dj, cj, hmC, hsc, hmM⟩ := (chainedMap_master devs cps hWF.1).2.1 x hreach
  refine ⟨cj, dj, hsc, hmC, ?_, ?_⟩
  · unfold chainOfKey
    rw [mget_synthSpecMap_orig hmM]
    show (synthUpd (chainedMap devs cps) { dj with portChain := cj }).portChain = cj
    rw [synthUpd_portChain]
  · unfold portOfKey
    rw [mget_synthSpecMap_orig hmM]
    show (synthUpd (chainedMap devs cps) { dj with portChain := cj }).portNumber
      = dj.portNumber
    rw [synthUpd_portNumber]

theorem chainOfKey_final_synth (devs : DevMap) (cps : List (String × ComPortSrc))
    (hWF : WFinput devs cps) {j x : String}
    (hx : x ∈ synthKidsOf (chainedMap devs cps) j) :
    chainOfKey (synthSpecMap (chainedMap devs cps)) x
      = chainOfKey (synthSpecMap (chainedMap devs cps)) j ++ "-"
        ++ Nat.repr (portOfKey (synthSpecMap (chainedMap devs cps)) x) := by
  obtain ⟨dj, ci, hj, hlen, hci, rfl⟩ := synthKids_multi hx
  have hsk := mget_synthSpecMap_synth hWF.2.2 hj hlen hci
  unfold chainOfKey portOfKey
  rw [hsk, mget_synthSpecMap_orig hj]
  show (synthChild dj ci).portChain
    = (synthUpd (chainedMap devs cps) dj).portChain ++ "-"
      ++ Nat.repr (synthChild dj ci).portNumber
  rw [synthUpd_portChain]
  rfl

theorem specChain_edge {C : DevMap} (hInv : LinkInv C) {p : String}
    {pdev : USBDevice} (hmp : mget C p = some pdev) {dp : Nat}
    (hdp : rootDist C (C.length + 1) p = some dp)
    {c : String} (hc : c ∈ pdev.children) :
    ∃ cdev, mget C c = some cdev ∧
      specChain C (C.length + 1) c
        = (specChain C (C.length + 1) p).map
            (· ++ "-" ++ Nat.repr cdev.portNumber) := by
  obtain ⟨cdev, hmc, hres, hpk⟩ := hInv.2.1 (p, pdev) (mem_of_mget hmp) c hc
  refine ⟨cdev, hmc, ?_⟩
  have hdlt : dp < C.length := rootDist_lt_length hdp
  have := specChain_parent hmc hres (by rw [hpk]; exact hdp) (by omega)
  rw [hpk] at this
  exact this

/-- The per-edge chain law on the assembled tree: every child's chain is its
parent's chain, a hyphen, and its own port number. -/
theorem edge_chain_law (devs : DevMap) (cps : List (String × ComPortSrc))
    (hWF : WFinput devs cps) :
    ∀ p ∈ treeNodeKeys (buildUSBTree devs cps).tree,
    ∀ c ∈ childrenOfKey (buildUSBTree devs cps).tree.allDevices p,
      chainOfKey (buildUSBTree devs cps).tree.allDevices c
        = chainOfKey (buildUSBTree devs cps).tree.allDevices p ++ "-"
          ++ Nat.repr (portOfKey (buildUSBTree devs cps).tree.allDevices c) := by
  have hInv := linkInv_childSorted devs cps hWF.1
  have hss : SameStruct (childSortedMap devs cps) (chainedMap devs cps) :=
    (chainedMap_master devs cps hWF.1).1
  have halld : (buildUSBTree devs cps).tree.allDevices
      = synthSpecMap (chainedMap devs cps) := by
    show (synthPair devs cps).1 = _
    rw [synthPair_closed devs cps hWF]
  intro p hp c hc
  rw [halld] at hc ⊢
  rcases ((treeNodeKeys_master devs cps hWF).1 p).mp hp with
    ⟨r, hr, hpr | ⟨j, hjr, hpj⟩⟩
  · -- p is an original reachable node
    obtain ⟨cp, pC, hscp, hmpC, hchainp, _⟩ :=
      chainOfKey_final_reachable devs cps hWF hr hpr
    obtain ⟨pM, hmpM, hshp⟩ := SameStruct_mget_some hss hmpC
    have hchsame : pM.children = pC.children := (sameShape_fields hshp).2.2.2.2.2.1
    have hCL := childrenOfKey_synthSpecMap hmpM
    rcases List.mem_append.mp (hCL.mem_iff.mp hc) with hcO | hcS
    · rw [hchsame] at hcO
      have hnext : pNext (childSortedMap devs cps) c = some p :=
        child_pNext hInv hmpC hcO
      have hcr : Desc (childSortedMap devs cps) c r :=
        desc_trans (desc_of_pNext hnext) hpr
      obtain ⟨cc, cC, hscc, hmcC, hchainc, hportc⟩ :=
        chainOfKey_final_reachable devs cps hWF hr hcr
      obtain ⟨t, ht⟩ := hpr
      have hr0 : rootDist (childSortedMap devs cps)
          ((childSortedMap devs cps).length + 1) r = some 0 :=
        rootKeys_dist hInv.1 (by omega) hr
      have hbig := rootDist_of_pIter_to t ht hr0
      have hplt := rootDist_lt_length hbig
      have hdp : rootDist (childSortedMap devs cps)
          ((childSortedMap devs cps).length + 1) p = some (0 + t) :=
        rootDist_any_fuel hbig (by omega)
      obtain ⟨cdev, hmc2, hedge⟩ := specChain_edge hInv hmpC hdp hcO
      have hcde : cdev = cC := by
        rw [hmcC] at hmc2
        exact (Option.some.inj hmc2).symm
      rw [hscc, hscp] at hedge
      have hcc : cc = cp ++ "-" ++ Nat.repr cC.portNumber := by
        rw [hcde] at hedge
        exact Option.some.inj hedge
      rw [hchainc, hchainp, hportc, hcc]
    · exact (chainOfKey_final_synth devs cps hWF hcS).trans (by
        obtain ⟨cp, pC, hscp2, hmpC2, hchainp2, _⟩ :=
          chainOfKey_final_reachable devs cps hWF hr hpr
        rfl)
  · -- p is a synthetic leaf: no children
    obtain ⟨dj, ci, hj, hlen, hci, rfl⟩ := synthKids_multi hpj
    rw [childrenOfKey_synth_leaf hWF.2.2 hj hlen hpj] at hc
    simp at hc

theorem synthUpd_multi {m : DevMap} {d : USBDevice} (hlen : d.comPorts.length > 1) :
    synthUpd m d = { d with
      comPorts := []
      children := sortByLe (childLe (synthAug m)) (d.children ++ synthKeysOf d) } := by
  unfold synthUpd
  rw [if_pos hlen]

theorem childLe_total (m : DevMap) (a b : String) :
    childLe m a b = true ∨ childLe m b a = true := by
  unfold childLe
  rcases Nat.le_total (portOfKey m a) (portOfKey m b) with h | h
  · exact Or.inl (by simpa using h)
  · exact Or.inr (by simpa using h)

theorem childLe_trans (m : DevMap) (a b c : String) (h1 : childLe m a b = true)
    (h2 : childLe m b c = true) : childLe m a c = true := by
  unfold childLe at *
  simp only [decide_eq_true_iff] at *
  omega

theorem multiport_synthesis (devs : DevMap) (cps : List (String × ComPortSrc))
    (hWF : WFinput devs cps) :
    ∀ k d, mget (chainedMap devs cps) k = some d →
      (d.comPorts.length > 1 →
        mget (buildUSBTree devs cps).tree.allDevices k
            = some (synthUpd (chainedMap devs cps) d) ∧
        (synthUpd (chainedMap devs cps) d).comPorts = [] ∧
        List.Perm (synthUpd (chainedMap devs cps) d).children
          (d.children ++ synthKeysOf d) ∧
        (∀ ci ∈ d.comPorts,
          mget (buildUSBTree devs cps).tree.allDevices
              (d.instancePath ++ "#" ++ ci.port)
            = some (synthChild d ci)) ∧
        List.Pairwise (fun a b =>
            portOfKey (buildUSBTree devs cps).tree.allDevices a
              ≤ portOfKey (buildUSBTree devs cps).tree.allDevices b)
          (synthUpd (chainedMap devs cps) d).children) ∧
      (¬d.comPorts.length > 1 →
        mget (buildUSBTree devs cps).tree.allDevices k = some d ∧
        synthKidsOf (chainedMap devs cps) k = []) := by
  have halld : (buildUSBTree devs cps).tree.allDevices
      = synthSpecMap (chainedMap devs cps) := by
    show (synthPair devs cps).1 = _
    rw [synthPair_closed devs cps hWF]
  intro k d hmd
  constructor
  · intro hlen
    refine ⟨?_, ?_, ?_, ?_, ?_⟩
    · rw [halld]
      exact mget_synthSpecMap_orig hmd
    · rw [synthUpd_multi hlen]
    · rw [synthUpd_multi hlen]
      exact sortByLe_perm _ _
    · intro ci hci
      rw [halld]
      exact mget_synthSpecMap_synth hWF.2.2 hmd hlen hci
    · rw [synthUpd_multi hlen]
      show List.Pairwise _ (sortByLe (childLe (synthAug (chainedMap devs cps)))
        (d.children ++ synthKeysOf d))
      have hpw := sortByLe_pairwise (childLe (synthAug (chainedMap devs cps)))
        (fun _ => True) (d.children ++ synthKeysOf d) (fun a _ => trivial)
        (fun a b _ _ => childLe_total _ a b)
        (fun a b c _ _ _ => childLe_trans _ a b c)
      apply hpw.imp
      intro a b hab
      unfold childLe at hab
      rw [halld, portOfKey_synthSpec_aug, portOfKey_synthSpec_aug]
      exact decide_eq_true_iff.mp hab
  · intro hlen
    constructor
    · rw [halld, mget_synthSpecMap_orig hmd, synthUpd_noop _ hlen]
    · unfold synthKidsOf
      rw [hmd]
      show (if d.comPorts.length > 1 then synthKeysOf d else []) = []
      rw [if_neg hlen]

theorem unreachable_final (devs : DevMap) (cps : List (String × ComPortSrc))
    (hWF : WFinput devs cps) {k : String} {d0 : USBDevice}
    (hq : mget devs k = some d0)
    (hnr : ¬∃ r ∈ rootKeys (childSortedMap devs cps),
      Desc (childSortedMap devs cps) k r) :
    ∃ df, mget (buildUSBTree devs cps).tree.allDevices k = some df ∧
      df.portChain = d0.portChain ∧
      k ∉ treeNodeKeys (buildUSBTree devs cps).tree := by
  have halld : (buildUSBTree devs cps).tree.allDevices
      = synthSpecMap (chainedMap devs cps) := by
    show (synthPair devs cps).1 = _
    rw [synthPair_closed devs cps hWF]
  have hmC := childSorted_value devs cps hWF.1 hq
  have huntouched := (chainedMap_master devs cps hWF.1).2.2 k (by
    intro hcon
    exact hnr hcon)
  rw [hmC] at huntouched
  refine ⟨synthUpd (chainedMap devs cps) { d0 with
      comPorts := sortByLe (fun a b => comLe a.port b.port) (assignedComs cps k)
      children := sortByLe (childLe (linkedPair devs cps).1)
        ((mkeys (comSortedMap devs cps)).filter
          (fun c => linksToB (comSortedMap devs cps) c k)) }, ?_, ?_, ?_⟩
  · rw [halld]
    exact mget_synthSpecMap_orig huntouched
  · rw [synthUpd_portChain]
  · intro hmem
    rcases ((treeNodeKeys_master devs cps hWF).1 k).mp hmem with
      ⟨r, hr, hkr | ⟨j, _, hkj⟩⟩
    · exact hnr ⟨r, hr, hkr⟩
    · have hkM : k ∈ mkeys (chainedMap devs cps) := by
        rw [← mget_isSome_iff, huntouched]
        rfl
      exact synthKids_not_key hWF.2.2 hkj hkM

theorem cycle_unreachable (devs : DevMap) (cps : List (String × ComPortSrc))
    (hWF : WFdev devs) {k : String}
    (hcyc : rootDist devs (devs.length + 1) k = none) :
    ¬∃ r ∈ rootKeys (childSortedMap devs cps),
      Desc (childSortedMap devs cps) k r := by
  have hInv := linkInv_childSorted devs cps hWF
  have hPA := parentAgree_childSorted devs cps hWF
  have hlenC : (childSortedMap devs cps).length = devs.length :=
    length_eq_of_mkeys (mkeys_childSortedMap devs cps)
  rintro ⟨r, hr, t, ht⟩
  have hr0 : rootDist (childSortedMap devs cps)
      ((childSortedMap devs cps).length + 1) r = some 0 :=
    rootKeys_dist hInv.1 (by omega) hr
  have hbig := rootDist_of_pIter_to t ht hr0
  have hlt := rootDist_lt_length hbig
  have hk : rootDist (childSortedMap devs cps)
      ((childSortedMap devs cps).length + 1) k = some (0 + t) :=
    rootDist_any_fuel hbig (by omega)
  rw [rootDist_parentAgree hPA, hlenC] at hk
  rw [hcyc] at hk
  exact Option.noConfusion hk

theorem orphan_unreachable (devs : DevMap) (cps : List (String × ComPortSrc))
    (hWF : WFdev devs) {k : String} {d0 : USBDevice}
    (hq : mget devs k = some d0) (hres : resolvesParent devs d0 = false)
    (hnq : (d0.isHub || d0.vid == "ROOT") = false) :
    ¬∃ r ∈ rootKeys (childSortedMap devs cps),
      Desc (childSortedMap devs cps) k r := by
  have hInv := linkInv_childSorted devs cps hWF
  have hcv := childSorted_value devs cps hWF hq
  obtain ⟨dC, hmC2, hppC, hhubC, hvidC⟩ :
      ∃ dC, mget (childSortedMap devs cps) k = some dC ∧
        dC.parentPath = d0.parentPath ∧ dC.isHub = d0.isHub ∧ dC.vid = d0.vid :=
    ⟨_, hcv, rfl, rfl, rfl⟩
  have hresC : resolvesParent (childSortedMap devs cps) dC = false := by
    rw [resolvesParent_congr hppC,
      resolvesParent_keys_eq (mkeys_childSortedMap devs cps) d0]
    exact hres
  have hk0 : rootDist (childSortedMap devs cps)
      ((childSortedMap devs cps).length + 1) k = some 0 :=
    rootDist_zero hmC2 hresC
  rintro ⟨r, hr, hdesc⟩
  have hr0 : rootDist (childSortedMap devs cps)
      ((childSortedMap devs cps).length + 1) r = some 0 :=
    rootKeys_dist hInv.1 (by omega) hr
  obtain ⟨t, hpit, h0t⟩ := desc_rootDist_ge hr0 hk0 hdesc
  have ht0 : t = 0 := by omega
  subst ht0
  have hkr : k = r := Option.some.inj hpit
  subst hkr
  obtain ⟨rdev, hmr, hresr, hqual⟩ := (rootKeys_mem hInv.1 k).mp hr
  rw [hmC2] at hmr
  have hrd : rdev = dC := (Option.some.inj hmr).symm
  rw [hrd, hhubC, hvidC] at hqual
  rw [hnq] at hqual
  exact Bool.noConfusion hqual

theorem mset_nodup {α : Type} {c : List (String × α)} (h : (mkeys c).Nodup)
    (k : String) (v : α) : (mkeys (mset c k v)).Nodup := by
  by_cases hk : k ∈ mkeys c
  · rw [mkeys_mset_of_mem v hk]
    exact h
  · rw [mset_of_not_mem v hk, mkeys_append]
    apply List.nodup_append.mpr
    refine ⟨h, List.nodup_singleton k, ?_⟩
    intro a ha hb
    rw [show mkeys [(k, v)] = [k] from rfl] at hb
    rw [List.mem_singleton.mp hb] at ha
    exact hk ha

theorem mem_mset_nodup {α : Type} :
    ∀ {c : List (String × α)}, (mkeys c).Nodup → ∀ {k : String} {v : α}
    {e : String × α}, e ∈ mset c k v → e = (k, v) ∨ (e ∈ c ∧ e.1 ≠ k) := by
  intro c
  induction c with
  | nil =>
      intro _ k v e he
      exact Or.inl (by simpa [mset] using he)
  | cons kv rest ih =>
      intro hnd k v e he
      obtain ⟨k1, v1⟩ := kv
      rw [show mkeys ((k1, v1) :: rest) = k1 :: mkeys rest from rfl,
        List.nodup_cons] at hnd
      by_cases h1 : k1 = k
      · subst h1
        rw [show mset ((k1, v1) :: rest) k1 v = (k1, v) :: rest from by
          simp [mset]] at he
        rcases List.mem_cons.mp he with hh | ht
        · exact Or.inl hh
        · refine Or.inr ⟨List.mem_cons_of_mem _ ht, ?_⟩
          intro hek
          apply hnd.1
          rw [← hek]
          exact List.mem_map.mpr ⟨e, ht, rfl⟩
      · rw [show mset ((k1, v1) :: rest) k v = (k1, v1) :: mset rest k v from by
          simp [mset, h1]] at he
        rcases List.mem_cons.mp he with hh | ht
        · refine Or.inr ⟨hh ▸ List.mem_cons_self _ _, ?_⟩
          rw [hh]
          exact h1
        · rcases ih hnd.2 ht with h | ⟨hmem, hne⟩
          · exact Or.inl h
          · exact Or.inr ⟨List.mem_cons_of_mem _ hmem, hne⟩

theorem inner_cpm_fold (f : ComPortInfo → String × ComPortInfo) :
    ∀ (l : List ComPortInfo) (c : CPMap), (mkeys c).Nodup →
    ((l.map (fun ci => ci.port)).Nodup) →
    (mkeys (l.foldl (fun a ci => mset a ci.port (f ci)) c)).Nodup ∧
    ∀ e ∈ l.foldl (fun a ci => mset a ci.port (f ci)) c,
      (∃ ci ∈ l, e = (ci.port, f ci))
        ∨ (e ∈ c ∧ e.1 ∉ l.map (fun ci => ci.port)) := by
  intro l
  induction l with
  | nil =>
      intro c hnd _
      exact ⟨hnd, fun e he => Or.inr ⟨he, by simp⟩⟩
  | cons ci rest ih =>
      intro c hnd hports
      rw [List.foldl_cons]
      have hnd' : (mkeys (mset c ci.port (f ci))).Nodup := mset_nodup hnd _ _
      have hrest := ih (mset c ci.port (f ci)) hnd' (List.nodup_cons.mp hports).2
      refine ⟨hrest.1, ?_⟩
      intro e he
      rcases hrest.2 e he with ⟨ci', hci', hef⟩ | ⟨hmem, hnot⟩
      · exact Or.inl ⟨ci', List.mem_cons_of_mem _ hci', hef⟩
      · rcases mem_mset_nodup hnd hmem with hh | ⟨hmc, hne⟩
        · exact Or.inl ⟨ci, List.mem_cons_self _ _, hh⟩
        · refine Or.inr ⟨hmc, ?_⟩
          rw [List.map_cons, List.mem_cons]
          push_neg
          exact ⟨hne, hnot⟩

theorem goodPre_mono {M pre : DevMap} {kv : String × USBDevice}
    (hndM : (mkeys M).Nodup) (hkv : kv ∈ M) (hnoop : ¬kv.2.comPorts.length > 1)
    {e : String × (String × ComPortInfo)} (h : GoodPre M pre e) :
    GoodPre M (pre ++ [kv]) e := by
  rcases h with ⟨k0, ci, d, he, hmd, hci, hcond⟩ | ⟨j, dj, ci, hmem, hlen, hci, he⟩
  · refine Or.inl ⟨k0, ci, d, he, hmd, hci, ?_⟩
    intro hk0
    rw [mkeys_append, List.mem_append] at hk0
    rcases hk0 with h1 | h1
    · exact hcond h1
    · have hk0kv : k0 = kv.1 := by simpa [mkeys] using h1
      have hdkv : d = kv.2 := by
        have := mget_of_mem_nodup hndM (show (kv.1, kv.2) ∈ M from hkv)
        rw [← hk0kv] at this
        rw [hmd] at this
        exact Option.some.inj this
      rw [hdkv]
      exact hnoop
  · exact Or.inr ⟨j, dj, ci, List.mem_append_left _ hmem, hlen, hci, he⟩

theorem synthCPM_good {M : DevMap} (hndM : (mkeys M).Nodup)
    (hports : ∀ kv ∈ M, ((kv.2.comPorts.map (fun ci => ci.port)).Nodup)) :
    ∀ (suf pre : DevMap), M = pre ++ suf →
    ∀ (c : CPMap), (mkeys c).Nodup → (∀ e ∈ c, GoodPre M pre e) →
    (mkeys (suf.foldl
      (fun acc kv =>
        if kv.2.comPorts.length > 1 then
          kv.2.comPorts.foldl
            (fun a ci => mset a ci.port (kv.2.instancePath ++ "#" ++ ci.port, ci)) acc
        else acc) c)).Nodup ∧
    ∀ e ∈ suf.foldl
      (fun acc kv =>
        if kv.2.comPorts.length > 1 then
          kv.2.comPorts.foldl
            (fun a ci => mset a ci.port (kv.2.instancePath ++ "#" ++ ci.port, ci)) acc
        else acc) c, GoodPre M (pre ++ suf) e := by
  intro suf
  induction suf with
  | nil =>
      intro pre hM c hnd hgood
      rw [List.append_nil]
      exact ⟨hnd, hgood⟩
  | cons kv rest ih =>
      intro pre hM c hnd hgood
      have hkvM : kv ∈ M := by
        rw [hM]
        exact List.mem_append_right _ (List.mem_cons_self _ _)
      have hM' : M = (pre ++ [kv]) ++ rest := by
        rw [hM, List.append_assoc]
        rfl
      rw [List.foldl_cons]
      by_cases hlen : kv.2.comPorts.length > 1
      · rw [if_pos hlen]
        have hi := inner_cpm_fold
          (fun ci => (kv.2.instancePath ++ "#" ++ ci.port, ci))
          kv.2.comPorts c hnd (hports kv hkvM)
        have hgood' : ∀ e ∈ kv.2.comPorts.foldl
            (fun a ci => mset a ci.port (kv.2.instancePath ++ "#" ++ ci.port, ci)) c,
            GoodPre M (pre ++ [kv]) e := by
          intro e he
          rcases hi.2 e he with ⟨ci, hci, hef⟩ | ⟨hmem, hnot⟩
          · exact Or.inr ⟨kv.1, kv.2, ci,
              List.mem_append_right _ (List.mem_cons_self _ _), hlen, hci, hef⟩
          · rcases hgood e hmem with
              ⟨k0, ci, d, he2, hmd, hci, hcond⟩ | ⟨j, dj, ci, hmem2, hl2, hci2, he2⟩
            · refine Or.inl ⟨k0, ci, d, he2, hmd, hci, ?_⟩
              intro hk0
              rw [mkeys_append, List.mem_append] at hk0
              rcases hk0 with h1 | h1
              · exact hcond h1
              · exfalso
                have hk0kv : k0 = kv.1 := by simpa [mkeys] using h1
                have hdkv : d = kv.2 := by
                  have := mget_of_mem_nodup hndM (show (kv.1, kv.2) ∈ M from hkvM)
                  rw [← hk0kv] at this
                  rw [hmd] at this
                  exact Option.some.inj this
                apply hnot
                rw [he2]
                show ci.port ∈ kv.2.comPorts.map fun ci => ci.port
                rw [← hdkv]
                exact List.mem_map.mpr ⟨ci, hci, rfl⟩
            · exact Or.inr ⟨j, dj, ci, List.mem_append_left _ hmem2, hl2, hci2, he2⟩
        have := ih (pre ++ [kv]) hM' _ hi.1 hgood'
        refine ⟨this.1, ?_⟩
        intro e he
        have hres := this.2 e he
        rw [List.append_assoc] at hres
        exact hres
      · rw [if_neg hlen]
        have hgood' : ∀ e ∈ c, GoodPre M (pre ++ [kv]) e :=
          fun e he => goodPre_mono hndM hkvM hlen (hgood e he)
        have := ih (pre ++ [kv]) hM' c hnd hgood'
        refine ⟨this.1, ?_⟩
        intro e he
        have hres := this.2 e he
        rw [List.append_assoc] at hres
        exact hres

theorem singleton_of_len_le_one {α : Type} {l : List α} (hlen : ¬l.length > 1)
    {a : α} (ha : a ∈ l) : l = [a] := by
  match l, ha with
  | [x], ha =>
      have : a = x := by simpa using ha
      rw [this]
  | x :: y :: rest, _ => simp at hlen

theorem comPorts_M_closed (devs : DevMap) (cps : List (String × ComPortSrc))
    (hWF : WFdev devs) {k : String} {dM : USBDevice}
    (h : mget (chainedMap devs cps) k = some dM) :
    dM.comPorts
      = sortByLe (fun a b => comLe a.port b.port) (assignedComs cps k) := by
  have hss : SameStruct (childSortedMap devs cps) (chainedMap devs cps) :=
    (chainedMap_master devs cps hWF).1
  have hkC : k ∈ mkeys (childSortedMap devs cps) := by
    rw [← hss.1, ← mget_isSome_iff, h]
    rfl
  obtain ⟨dC, hdC⟩ := Option.isSome_iff_exists.mp ((mget_isSome_iff _ _).mpr hkC)
  obtain ⟨dM', hdM', hshape⟩ := SameStruct_mget_some hss hdC
  rw [h] at hdM'
  have hdd : dM' = dM := (Option.some.inj hdM').symm
  rw [← hdd, (sameShape_fields hshape).2.2.2.2.2.2]
  cases hq : mget devs k with
  | none =>
      rw [childSorted_value_none devs cps hWF hq] at hdC
      exact Option.noConfusion hdC
  | some d0 =>
      rw [childSorted_value devs cps hWF hq] at hdC
      rw [← Option.some.inj hdC]

theorem ports_nodup_M (devs : DevMap) (cps : List (String × ComPortSrc))
    (hWF : WFdev devs) (hcom : WFcom cps) :
    ∀ kv ∈ chainedMap devs cps,
      ((kv.2.comPorts.map (fun ci => ci.port)).Nodup) := by
  have hndM : (mkeys (chainedMap devs cps)).Nodup := chainedMap_nodup devs cps hWF
  intro kv hkv
  have hm : mget (chainedMap devs cps) kv.1 = some kv.2 :=
    mget_of_mem_nodup hndM hkv
  rw [comPorts_M_closed devs cps hWF hm]
  have hperm : List.Perm
      ((sortByLe (fun a b => comLe a.port b.port)
        (assignedComs cps kv.1)).map (fun ci => ci.port))
      ((assignedComs cps kv.1).map (fun ci => ci.port)) :=
    (sortByLe_perm _ _).map _
  apply hperm.nodup_iff.mpr
  unfold assignedComs
  rw [List.map_map]
  have heq : ((fun ci => ci.port) ∘ comInfoOf)
      = fun e : String × ComPortSrc => e.1 := rfl
  rw [heq]
  have hsub : ((cps.filter fun e => e.2.instancePath.upper = kv.1).map
        fun e : String × ComPortSrc => e.1).Sublist
      (cps.map fun e => e.1) :=
    (List.filter_sublist cps).map _
  exact hsub.nodup hcom

theorem cpm0_closed (devs : DevMap) (cps : List (String × ComPortSrc))
    (hcom : WFcom cps) :
    (assignedPair devs cps).2
      = (cps.filter fun e => (mget devs (e.2.instancePath.upper)).isSome).map
          (fun e => (e.1, (e.2.instancePath.upper, comInfoOf e))) := by
  unfold assignedPair assignComPorts
  rw [assign_fold_snd cps devs [] hcom (by intro e _; simp)]
  rfl

theorem cpm0_keys_nodup (devs : DevMap) (cps : List (String × ComPortSrc))
    (hcom : WFcom cps) : (mkeys (assignedPair devs cps).2).Nodup := by
  rw [cpm0_closed devs cps hcom]
  unfold mkeys
  rw [List.map_map]
  have heq : ((fun kv : String × (String × ComPortInfo) => kv.1)
        ∘ fun e : String × ComPortSrc => (e.1, (e.2.instancePath.upper, comInfoOf e)))
      = fun e : String × ComPortSrc => e.1 := rfl
  rw [heq]
  exact ((List.filter_sublist cps).map _).nodup hcom

theorem comPortMap_good (devs : DevMap) (cps : List (String × ComPortSrc))
    (hWF : WFinput devs cps) :
    ∀ e ∈ (buildUSBTree devs cps).tree.comPortMap,
      ∃ d, mget (buildUSBTree devs cps).tree.allDevices e.2.1 = some d ∧
        d.comPorts = [e.2.2] := by
  have hcpm : (buildUSBTree devs cps).tree.comPortMap
      = synthCPM (chainedMap devs cps) (assignedPair devs cps).2 := by
    show (synthPair devs cps).2 = _
    rw [synthPair_closed devs cps hWF]
  have halld : (buildUSBTree devs cps).tree.allDevices
      = synthSpecMap (chainedMap devs cps) := by
    show (synthPair devs cps).1 = _
    rw [synthPair_closed devs cps hWF]
  have hndM := chainedMap_nodup devs cps hWF.1
  have hkeys : mkeys (chainedMap devs cps) = mkeys devs := by
    rw [(chainedMap_master devs cps hWF.1).1.1, mkeys_childSortedMap]
  have hinit : ∀ e ∈ (assignedPair devs cps).2,
      GoodPre (chainedMap devs cps) [] e := by
    intro e he
    rw [cpm0_closed devs cps hWF.2.1] at he
    obtain ⟨e0, he0, rfl⟩ := List.mem_map.mp he
    obtain ⟨he0cps, he0some⟩ := List.mem_filter.mp he0
    have hk0 : e0.2.instancePath.upper ∈ mkeys devs :=
      (mget_isSome_iff _ _).mp (by simpa using he0some)
    have hk0M : e0.2.instancePath.upper ∈ mkeys (chainedMap devs cps) := by
      rw [hkeys]
      exact hk0
    obtain ⟨dM, hdM⟩ := Option.isSome_iff_exists.mp ((mget_isSome_iff _ _).mpr hk0M)
    refine Or.inl ⟨e0.2.instancePath.upper, comInfoOf e0, dM, rfl, hdM, ?_, ?_⟩
    · rw [comPorts_M_closed devs cps hWF.1 hdM, mem_sortByLe]
      unfold assignedComs
      refine List.mem_map.mpr ⟨e0, ?_, rfl⟩
      refine List.mem_filter.mpr ⟨he0cps, ?_⟩
      simp
    · intro h
      simp [mkeys] at h
  have hfold := synthCPM_good hndM (ports_nodup_M devs cps hWF.1 hWF.2.1)
    (chainedMap devs cps) [] rfl (assignedPair devs cps).2
    (cpm0_keys_nodup devs cps hWF.2.1) hinit
  intro e he
  rw [hcpm] at he
  have hgood : GoodPre (chainedMap devs cps) ([] ++ chainedMap devs cps) e :=
    hfold.2 e he
  rw [List.nil_append] at hgood
  rcases hgood with ⟨k0, ci, d, hee, hmd, hci, hcond⟩ |
    ⟨j, dj, ci, hmemj, hlen, hci, hee⟩
  · have hk0M : k0 ∈ mkeys (chainedMap devs cps) :=
      (mget_isSome_iff _ _).mp (by rw [hmd]; rfl)
    have hnm : ¬d.comPorts.length > 1 := hcond hk0M
    have hsingle : d.comPorts = [ci] := singleton_of_len_le_one hnm hci
    subst hee
    refine ⟨d, ?_, hsingle⟩
    rw [halld]
    show mget (synthSpecMap (chainedMap devs cps)) k0 = some d
    rw [mget_synthSpecMap_orig hmd, synthUpd_noop _ hnm]
  · subst hee
    refine ⟨synthChild dj ci, ?_, rfl⟩
    rw [halld]
    show mget (synthSpecMap (chainedMap devs cps))
      (dj.instancePath ++ "#" ++ ci.port) = some (synthChild dj ci)
    exact mget_synthSpecMap_synth hWF.2.2 (mget_of_mem_nodup hndM hmemj) hlen hci

theorem getComPortList_no_extension (devs : DevMap) (cps : List (String × ComPortSrc))
    (hWF : WFinput devs cps) :
    getComPortList (buildUSBTree devs cps).tree
      = sortByLe (fun a b => comLe a.port b.port)
          ((buildUSBTree devs cps).tree.comPortMap.filterMap fun e =>
            (mget (buildUSBTree devs cps).tree.allDevices e.2.1).map fun device =>
              { port := e.2.2.port
                vid := device.vid
                pid := device.pid
                serialNumber := device.serialNumber
                deviceName := device.name
                portChain := device.portChain
                kernelName := e.2.2.kernelName
                channel := e.2.2.channel
                role := e.2.2.role }) := by
  unfold getComPortList
  congr 1
  apply List.filterMap_congr
  intro e he
  obtain ⟨d, hmd, hcoms⟩ := comPortMap_good devs cps hWF e he
  rw [hmd, Option.map_some', Option.map_some']
  have hnm : ¬d.comPorts.length > 1 := by
    rw [hcoms]
    simp
  have hpc : (match e.2.2.channel with
      | some c => if d.comPorts.length > 1 ∧ c ≠ 0
          then d.portChain ++ "-" ++ Nat.repr c
          else d.portChain
      | none => d.portChain) = d.portChain := by
    cases hch : e.2.2.channel with
    | none => rfl
    | some c =>
        show (if d.comPorts.length > 1 ∧ c ≠ 0 then d.portChain ++ "-" ++ Nat.repr c
          else d.portChain) = d.portChain
        rw [if_neg]
        rintro ⟨h1, _⟩
        exact hnm h1
  show some ({ port := e.2.2.port, vid := d.vid, pid := d.pid,
               serialNumber := d.serialNumber, deviceName := d.name,
               portChain := (match e.2.2.channel with
                 | some c => if d.comPorts.length > 1 ∧ c ≠ 0
                     then d.portChain ++ "-" ++ Nat.repr c
                     else d.portChain
                 | none => d.portChain),
               kernelName := e.2.2.kernelName, channel := e.2.2.channel,
               role := e.2.2.role } : ComPortRow)
    = some ({ port := e.2.2.port, vid := d.vid, pid := d.pid,
              serialNumber := d.serialNumber, deviceName := d.name,
              portChain := d.portChain, kernelName := e.2.2.kernelName,
              channel := e.2.2.channel, role := e.2.2.role } : ComPortRow)
  rw [hpc]

/-! Decimal rendering: `Nat.repr` digits, evaluation roundtrip, injectivity. -/

theorem toDigitsCore_succ (b fuel n : Nat) (ds : List Char) :
    Nat.toDigitsCore b (fuel + 1) n ds
      = (if n / b = 0 then Nat.digitChar (n % b) :: ds
         else Nat.toDigitsCore b fuel (n / b) (Nat.digitChar (n % b) :: ds)) := by
  conv_lhs => unfold Nat.toDigitsCore

theorem toDigitsCore_append :
    ∀ (fuel n : Nat) (acc : List Char),
      Nat.toDigitsCore 10 fuel n acc = Nat.toDigitsCore 10 fuel n [] ++ acc := by
  intro fuel
  induction fuel with
  | zero => intro n acc; rfl
  | succ fuel ih =>
      intro n acc
      rw [toDigitsCore_succ, toDigitsCore_succ]
      by_cases h : n / 10 = 0
      · rw [if_pos h, if_pos h]
        rfl
      · rw [if_neg h, if_neg h, ih (n / 10) (Nat.digitChar (n % 10) :: acc),
          ih (n / 10) [Nat.digitChar (n % 10)], List.append_assoc]
        rfl

theorem toDigits_chars :
    ∀ (fuel n : Nat), ∀ c ∈ Nat.toDigitsCore 10 fuel n [], c.isDigit = true := by
  intro fuel
  induction fuel with
  | zero =>
      intro n c hc
      rw [show Nat.toDigitsCore 10 0 n [] = [] from rfl] at hc
      simp at hc
  | succ fuel ih =>
      intro n c hc
      rw [toDigitsCore_succ] at hc
      have hdig : (Nat.digitChar (n % 10)).isDigit = true := by
        have h10 : n % 10 < 10 := Nat.mod_lt _ (by omega)
        interval_cases h : n % 10 <;> decide
      by_cases h : n / 10 = 0
      · rw [if_pos h] at hc
        have : c = Nat.digitChar (n % 10) := by simpa using hc
        rw [this]
        exact hdig
      · rw [if_neg h, toDigitsCore_append] at hc
        rcases List.mem_append.mp hc with h1 | h1
        · exact ih (n / 10) c h1
        · have : c = Nat.digitChar (n % 10) := by simpa using h1
          rw [this]
          exact hdig

theorem digitsVal_append_digit (l : List Char) (c : Char) :
    digitsVal (l ++ [c]) = digitsVal l * 10 + (c.toNat - 48) := by
  unfold digitsVal
  rw [List.foldl_append]
  rfl

theorem digitChar_val {d : Nat} (h : d < 10) : (Nat.digitChar d).toNat - 48 = d := by
  interval_cases d <;> decide

theorem toDigits_eval :
    ∀ (fuel n : Nat), n < fuel → digitsVal (Nat.toDigitsCore 10 fuel n []) = n := by
  intro fuel
  induction fuel with
  | zero => intro n h; omega
  | succ fuel ih =>
      intro n h
      rw [toDigitsCore_succ]
      by_cases h0 : n / 10 = 0
      · rw [if_pos h0]
        have hn10 : n < 10 := by omega
        show digitsVal ([] ++ [Nat.digitChar (n % 10)]) = n
        rw [digitsVal_append_digit, digitChar_val (Nat.mod_lt _ (by omega))]
        unfold digitsVal
        simp
        omega
      · rw [if_neg h0, toDigitsCore_append, digitsVal_append_digit,
          digitChar_val (Nat.mod_lt _ (by omega)),
          ih (n / 10) (by omega)]
        omega

theorem repr_eval (n : Nat) : digitsVal ((Nat.repr n).data) = n := by
  show digitsVal (Nat.toDigitsCore 10 (n + 1) n []) = n
  exact toDigits_eval (n + 1) n (by omega)

theorem repr_inj {n m : Nat} (h : Nat.repr n = Nat.repr m) : n = m := by
  have := congrArg (fun s => digitsVal (String.data s)) h
  simpa [repr_eval] using this

theorem repr_chars (n : Nat) : ∀ c ∈ (Nat.repr n).data, c.isDigit = true := by
  show ∀ c ∈ Nat.toDigitsCore 10 (n + 1) n [], c.isDigit = true
  exact toDigits_chars (n + 1) n

theorem repr_no_dash (n : Nat) : '-' ∉ (Nat.repr n).data := by
  intro h
  have := repr_chars n '-' h
  simp at this

theorem repr_ne_nil (n : Nat) : (Nat.repr n).data ≠ [] := by
  show Nat.toDigitsCore 10 (n + 1) n [] ≠ []
  rw [toDigitsCore_succ]
  by_cases h : n / 10 = 0
  · rw [if_pos h]
    simp
  · rw [if_neg h, toDigitsCore_append]
    simp

theorem append_first_sep {α : Type} {sep : α} :
    ∀ {a1 a2 b1 b2 : List α}, sep ∉ a1 → sep ∉ a2 →
      a1 ++ sep :: b1 = a2 ++ sep :: b2 → a1 = a2 ∧ b1 = b2 := by
  intro a1
  induction a1 with
  | nil =>
      intro a2 b1 b2 _ h2 h
      cases a2 with
      | nil =>
          simp only [List.nil_append] at h
          exact ⟨rfl, (List.cons.inj h).2⟩
      | cons x a2' =>
          simp only [List.nil_append, List.cons_append] at h
          obtain ⟨hx, _⟩ := List.cons.inj h
          exact absurd (hx ▸ List.mem_cons_self x a2') h2
  | cons x a1' ih =>
      intro a2 b1 b2 h1 h2 h
      cases a2 with
      | nil =>
          simp only [List.cons_append, List.nil_append] at h
          obtain ⟨hx, _⟩ := List.cons.inj h
          exact absurd (hx ▸ List.mem_cons_self x a1') h1
      | cons y a2' =>
          simp only [List.cons_append] at h
          obtain ⟨hxy, ht⟩ := List.cons.inj h
          have := ih (fun hm => h1 (List.mem_cons_of_mem _ hm))
            (fun hm => h2 (List.mem_cons_of_mem _ hm)) ht
          exact ⟨by rw [hxy, this.1], this.2⟩

theorem append_last_sep {α : Type} {sep : α} {l1 l2 r1 r2 : List α}
    (h1 : sep ∉ r1) (h2 : sep ∉ r2)
    (h : l1 ++ sep :: r1 = l2 ++ sep :: r2) : l1 = l2 ∧ r1 = r2 := by
  have hrev := congrArg List.reverse h
  rw [List.reverse_append, List.reverse_append, List.reverse_cons,
    List.reverse_cons, List.append_assoc, List.append_assoc,
    List.singleton_append, List.singleton_append] at hrev
  have h1' : sep ∉ r1.reverse := by
    intro hm
    exact h1 (List.mem_reverse.mp hm)
  have h2' : sep ∉ r2.reverse := by
    intro hm
    exact h2 (List.mem_reverse.mp hm)
  obtain ⟨ha, hb⟩ := append_first_sep h1' h2' hrev
  constructor
  · have := congrArg List.reverse hb
    simpa using this
  · have := congrArg List.reverse ha
    simpa using this

theorem append_hyphen_repr_inj {p1 p2 : String} {n1 n2 : Nat}
    (h : p1 ++ "-" ++ Nat.repr n1 = p2 ++ "-" ++ Nat.repr n2) :
    p1 = p2 ∧ n1 = n2 := by
  have hdata := congrArg String.data h
  rw [String.data_append, String.data_append, String.data_append,
    String.data_append] at hdata
  have hd1 : p1.data ++ ('-' :: (Nat.repr n1).data)
      = p2.data ++ ('-' :: (Nat.repr n2).data) := by
    simpa using hdata
  obtain ⟨ha, hb⟩ := append_last_sep (repr_no_dash n1) (repr_no_dash n2) hd1
  constructor
  · cases p1
    cases p2
    exact congrArg String.mk (by simpa using ha)
  · apply repr_inj
    cases hr1 : Nat.repr n1
    cases hr2 : Nat.repr n2
    rw [hr1, hr2] at hb
    exact congrArg String.mk (by simpa [hr1, hr2] using hb)

theorem dash_mem_append (p : String) (n : Nat) :
    '-' ∈ (p ++ "-" ++ Nat.repr n).data := by
  rw [String.data_append, String.data_append]
  refine List.mem_append_left _ (List.mem_append_right _ ?_)
  show '-' ∈ ['-']
  simp

theorem one_no_dash : '-' ∉ ("1" : String).data := by
  intro h
  simp at h

theorem desc_parent_step {C : DevMap} {x r px : String} (hd : Desc C x r)
    (hne : x ≠ r) (hn : pNext C x = some px) : Desc C px r := by
  obtain ⟨t, ht⟩ := hd
  cases t with
  | zero => exact absurd (Option.some.inj ht) hne
  | succ t' =>
      refine ⟨t', ?_⟩
      have hstep : pIter C (t' + 1) x = (match pNext C x with
        | some k1 => pIter C t' k1
        | none => none) := rfl
      rw [hstep, hn] at ht
      exact ht

theorem tnode_zero (devs : DevMap) (cps : List (String × ComPortSrc))
    (hWF : WFinput devs cps) {r x : String}
    (hr : r ∈ rootKeys (childSortedMap devs cps))
    (hx : TNode (childSortedMap devs cps) (chainedMap devs cps) r x 0) :
    x = r ∧ chainOfKey (synthSpecMap (chainedMap devs cps)) x = "1" := by
  have hInv := linkInv_childSorted devs cps hWF.1
  rcases hx with ⟨hdesc, hdist⟩ | ⟨m, j, heq, _⟩
  · have hr0 : rootDist (childSortedMap devs cps)
        ((childSortedMap devs cps).length + 1) r = some 0 :=
      rootKeys_dist hInv.1 (by omega) hr
    obtain ⟨t, hpit, h0t⟩ := desc_rootDist_ge hr0 hdist hdesc
    have ht0 : t = 0 := by omega
    subst ht0
    have hxr : x = r := Option.some.inj hpit
    refine ⟨hxr, ?_⟩
    obtain ⟨c, cx, hsc, hmx, hchain, _⟩ :=
      chainOfKey_final_reachable devs cps hWF hr hdesc
    obtain ⟨xdev, hmx2, hcase⟩ := rootDist_cases hdist
    have hres : resolvesParent (childSortedMap devs cps) xdev = false := by
      rcases hcase with ⟨h1, _⟩ | ⟨_, d0, hd0, _⟩
      · exact h1
      · omega
    have hone : specChain (childSortedMap devs cps)
        ((childSortedMap devs cps).length + 1) x = some "1" :=
      specChain_base hmx2 hres
    rw [hsc] at hone
    rw [hchain]
    exact Option.some.inj hone
  · omega

theorem tnode_parent (devs : DevMap) (cps : List (String × ComPortSrc))
    (hWF : WFinput devs cps) {r x : String} {m : Nat}
    (hr : r ∈ rootKeys (childSortedMap devs cps))
    (hx : TNode (childSortedMap devs cps) (chainedMap devs cps) r x (m + 1)) :
    ∃ p, Desc (childSortedMap devs cps) p r ∧
      rootDist (childSortedMap devs cps)
        ((childSortedMap devs cps).length + 1) p = some m ∧
      x ∈ childrenOfKey (synthSpecMap (chainedMap devs cps)) p ∧
      chainOfKey (synthSpecMap (chainedMap devs cps)) x
        = chainOfKey (synthSpecMap (chainedMap devs cps)) p ++ "-"
          ++ Nat.repr (portOfKey (synthSpecMap (chainedMap devs cps)) x) := by
  have hInv := linkInv_childSorted devs cps hWF.1
  have hss : SameStruct (childSortedMap devs cps) (chainedMap devs cps) :=
    (chainedMap_master devs cps hWF.1).1
  rcases hx with ⟨hdesc, hdist⟩ | ⟨m', j, heq, hdescj, hdistj, hkid⟩
  · obtain ⟨xdev, hmx, hcase⟩ := rootDist_cases hdist
    rcases hcase with ⟨_, habs⟩ | ⟨hres, d0, hd0, hpdist⟩
    · omega
    · have hd0m : d0 = m := by omega
      rw [hd0m] at hpdist
      have hmlt : m < (childSortedMap devs cps).length := by
        have := rootDist_lt_length hdist
        omega
      have hpdistF : rootDist (childSortedMap devs cps)
          ((childSortedMap devs cps).length + 1) (parentKeyOf xdev) = some m :=
        rootDist_any_fuel hpdist (by omega)
      have hner : x ≠ r := by
        intro hxr
        subst hxr
        have hr0 : rootDist (childSortedMap devs cps)
            ((childSortedMap devs cps).length + 1) x = some 0 :=
          rootKeys_dist hInv.1 (by omega) hr
        have := rootDist_unique hdist hr0
        omega
      have hnext : pNext (childSortedMap devs cps) x = some (parentKeyOf xdev) := by
        unfold pNext
        rw [hmx]
        show (if resolvesParent (childSortedMap devs cps) xdev = true
          then some (parentKeyOf xdev) else none) = some (parentKeyOf xdev)
        rw [if_pos hres]
      have hdescp : Desc (childSortedMap devs cps) (parentKeyOf xdev) r :=
        desc_parent_step hdesc hner hnext
      refine ⟨parentKeyOf xdev, hdescp, hpdistF, ?_, ?_⟩
      · -- x is among the final children of its parent
        have hchC : x ∈ childrenOfKey (childSortedMap devs cps) (parentKeyOf xdev) :=
          hInv.2.2.1 x xdev hmx hres
        obtain ⟨pdev, hmp⟩ := rootDist_mget hpdistF
        obtain ⟨pM, hmpM, hshp⟩ := SameStruct_mget_some hss hmp
        have hperm := childrenOfKey_synthSpecMap hmpM
        apply hperm.mem_iff.mpr
        apply List.mem_append_left
        rw [(sameShape_fields hshp).2.2.2.2.2.1]
        rw [childrenOfKey_eq hmp] at hchC
        exact hchC
      · obtain ⟨cx, xC, hscx, hmxC, hchainx, hportx⟩ :=
          chainOfKey_final_reachable devs cps hWF hr hdesc
        obtain ⟨cp, pC, hscp, hmpC, hchainp, _⟩ :=
          chainOfKey_final_reachable devs cps hWF hr hdescp
        have hxC : xC = xdev := by
          rw [hmx] at hmxC
          exact (Option.some.inj hmxC).symm
        have hedge := specChain_parent hmx hres hpdistF (by omega)
        rw [hscx, hscp] at hedge
        have hcx : cx = cp ++ "-" ++ Nat.repr xdev.portNumber :=
          Option.some.inj hedge
        rw [hchainx, hchainp, hportx, hxC, hcx]
  · have hm' : m' = m := by omega
    subst hm'
    refine ⟨j, hdescj, hdistj, ?_, ?_⟩
    · obtain ⟨jdev, hmj⟩ := rootDist_mget hdistj
      obtain ⟨jM, hmjM, _⟩ := SameStruct_mget_some hss hmj
      have hperm := childrenOfKey_synthSpecMap hmjM
      apply hperm.mem_iff.mpr
      apply List.mem_append_right
      exact hkid
    · exact chainOfKey_final_synth devs cps hWF hkid

theorem chain_inj_main (devs : DevMap) (cps : List (String × ComPortSrc))
    (hWF : WFinput devs cps)
    (hDCP : ∀ kv ∈ synthSpecMap (chainedMap devs cps),
      ((kv.2.children).map (portOfKey (synthSpecMap (chainedMap devs cps)))).Nodup)
    {r : String} (hr : r ∈ rootKeys (childSortedMap devs cps)) :
    ∀ n x y nx ny, nx ≤ n →
      TNode (childSortedMap devs cps) (chainedMap devs cps) r x nx →
      TNode (childSortedMap devs cps) (chainedMap devs cps) r y ny →
      chainOfKey (synthSpecMap (chainedMap devs cps)) x
        = chainOfKey (synthSpecMap (chainedMap devs cps)) y →
      x = y := by
  have hss : SameStruct (childSortedMap devs cps) (chainedMap devs cps) :=
    (chainedMap_master devs cps hWF.1).1
  intro n
  induction n with
  | zero =>
      intro x y nx ny hle hx hy hchain
      have hnx0 : nx = 0 := by omega
      subst hnx0
      obtain ⟨hxr, hx1⟩ := tnode_zero devs cps hWF hr hx
      cases ny with
      | zero =>
          obtain ⟨hyr, _⟩ := tnode_zero devs cps hWF hr hy
          rw [hxr, hyr]
      | succ my =>
          exfalso
          obtain ⟨py, _, _, _, hychain⟩ := tnode_parent devs cps hWF hr hy
          exact one_no_dash (by
            rw [← hx1, hchain, hychain]
            exact dash_mem_append _ _)
  | succ n ih =>
      intro x y nx ny hle hx hy hchain
      cases nx with
      | zero =>
          obtain ⟨hxr, hx1⟩ := tnode_zero devs cps hWF hr hx
          cases ny with
          | zero =>
              obtain ⟨hyr, _⟩ := tnode_zero devs cps hWF hr hy
              rw [hxr, hyr]
          | succ my =>
              exfalso
              obtain ⟨py, _, _, _, hychain⟩ := tnode_parent devs cps hWF hr hy
              exact one_no_dash (by
                rw [← hx1, hchain, hychain]
                exact dash_mem_append _ _)
      | succ mx =>
          obtain ⟨px, hpxd, hpxdist, hxch, hxchain⟩ :=
            tnode_parent devs cps hWF hr hx
          cases ny with
          | zero =>
              exfalso
              obtain ⟨_, hy1⟩ := tnode_zero devs cps hWF hr hy
              exact one_no_dash (by
                rw [← hy1, ← hchain, hxchain]
                exact dash_mem_append _ _)
          | succ my =>
              obtain ⟨py, hpyd, hpydist, hych, hychain⟩ :=
                tnode_parent devs cps hWF hr hy
              rw [hxchain, hychain] at hchain
              obtain ⟨hpeq, hporteq⟩ := append_hyphen_repr_inj hchain
              have hpxy : px = py := ih px py mx my (by omega)
                (Or.inl ⟨hpxd, hpxdist⟩) (Or.inl ⟨hpyd, hpydist⟩) hpeq
              subst hpxy
              obtain ⟨pdevC, hmpC⟩ := rootDist_mget hpxdist
              obtain ⟨pM, hmpM, _⟩ := SameStruct_mget_some hss hmpC
              have hmpS := mget_synthSpecMap_orig hmpM
              have hnd := hDCP (px, synthUpd (chainedMap devs cps) pM)
                (mem_of_mget hmpS)
              have hchS : childrenOfKey (synthSpecMap (chainedMap devs cps)) px
                  = (synthUpd (chainedMap devs cps) pM).children :=
                childrenOfKey_eq hmpS
              rw [hchS] at hxch hych
              exact List.inj_on_of_nodup_map hnd hxch hych hporteq

theorem treeNode_to_TNode (devs : DevMap) (cps : List (String × ComPortSrc))
    (hWF : WFinput devs cps) {x r : String}
    (hr : r ∈ rootKeys (childSortedMap devs cps))
    (hx : Desc (childSortedMap devs cps) x r ∨
      ∃ j, Desc (childSortedMap devs cps) j r ∧
        x ∈ synthKidsOf (chainedMap devs cps) j) :
    ∃ n, TNode (childSortedMap devs cps) (chainedMap devs cps) r x n := by
  have hInv := linkInv_childSorted devs cps hWF.1
  have hr0 : rootDist (childSortedMap devs cps)
      ((childSortedMap devs cps).length + 1) r = some 0 :=
    rootKeys_dist hInv.1 (by omega) hr
  rcases hx with hdesc | ⟨j, hdj, hkid⟩
  · obtain ⟨t, ht⟩ := hdesc
    have hbig := rootDist_of_pIter_to t ht hr0
    have hlt := rootDist_lt_length hbig
    exact ⟨0 + t, Or.inl ⟨⟨t, ht⟩, rootDist_any_fuel hbig (by omega)⟩⟩
  · obtain ⟨t, ht⟩ := hdj
    have hbig := rootDist_of_pIter_to t ht hr0
    have hlt := rootDist_lt_length hbig
    exact ⟨(0 + t) + 1, Or.inr ⟨0 + t, j, rfl, ⟨t, ht⟩,
      rootDist_any_fuel hbig (by omega), hkid⟩⟩

theorem chains_distinct (devs : DevMap) (cps : List (String × ComPortSrc))
    (hWF : WFinput devs cps) {r : String}
    (hroots : rootKeys (childSortedMap devs cps) = [r])
    (hDCP : ∀ kv ∈ synthSpecMap (chainedMap devs cps),
      ((kv.2.children).map (portOfKey (synthSpecMap (chainedMap devs cps)))).Nodup) :
    ∀ x ∈ treeNodeKeys (buildUSBTree devs cps).tree,
    ∀ y ∈ treeNodeKeys (buildUSBTree devs cps).tree,
      chainOfKey (buildUSBTree devs cps).tree.allDevices x
        = chainOfKey (buildUSBTree devs cps).tree.allDevices y →
      x = y := by
  have halld : (buildUSBTree devs cps).tree.allDevices
      = synthSpecMap (chainedMap devs cps) := by
    show (synthPair devs cps).1 = _
    rw [synthPair_closed devs cps hWF]
  have hrr : r ∈ rootKeys (childSortedMap devs cps) := by
    rw [hroots]
    simp
  intro x hx y hy hchain
  rw [halld] at hchain
  obtain ⟨rx, hrx, hcx⟩ := ((treeNodeKeys_master devs cps hWF).1 x).mp hx
  obtain ⟨ry, hry, hcy⟩ := ((treeNodeKeys_master devs cps hWF).1 y).mp hy
  have hrxr : rx = r := by
    rw [hroots] at hrx
    simpa using hrx
  have hryr : ry = r := by
    rw [hroots] at hry
    simpa using hry
  subst hrxr
  subst hryr
  obtain ⟨nx, htx⟩ := treeNode_to_TNode devs cps hWF hrr hcx
  obtain ⟨ny, hty⟩ := treeNode_to_TNode devs cps hWF hrr hcy
  exact chain_inj_main devs cps hWF hDCP hrr nx x y nx ny (le_refl nx) htx hty hchain

/-! The padded component-wise order: totality, transitivity, and agreement
with the query comparator on NaN-free chains. -/

theorem padLex_nil_nil : padLex [] [] := by
  rw [padLex]
  trivial

theorem padLex_cons_cons (x y : Int) (xs ys : List Int) :
    padLex (x :: xs) (y :: ys) ↔ (x < y ∨ (x = y ∧ padLex xs ys)) := by
  rw [padLex]

theorem padLex_cons_nil (x : Int) (xs : List Int) :
    padLex (x :: xs) [] ↔ (x < 0 ∨ (x = 0 ∧ padLex xs [])) := by
  rw [padLex]

theorem padLex_nil_cons (y : Int) (ys : List Int) :
    padLex [] (y :: ys) ↔ (0 < y ∨ (0 = y ∧ padLex [] ys)) := by
  rw [padLex]

theorem padLex_nil_total : ∀ ys : List Int, padLex [] ys ∨ padLex ys [] := by
  intro ys
  induction ys with
  | nil => exact Or.inl padLex_nil_nil
  | cons y ys ih =>
      rw [padLex_nil_cons, padLex_cons_nil]
      rcases lt_trichotomy y 0 with h | h | h
      · exact Or.inr (Or.inl h)
      · rcases ih with h1 | h1
        · exact Or.inl (Or.inr ⟨h.symm, h1⟩)
        · exact Or.inr (Or.inr ⟨h, h1⟩)
      · exact Or.inl (Or.inl h)

theorem padLex_total : ∀ (xs ys : List Int), padLex xs ys ∨ padLex ys xs := by
  intro xs
  induction xs with
  | nil => exact fun ys => padLex_nil_total ys
  | cons x xs ih =>
      intro ys
      cases ys with
      | nil => exact (padLex_nil_total (x :: xs)).symm
      | cons y ys =>
          rw [padLex_cons_cons, padLex_cons_cons]
          rcases lt_trichotomy x y with h | h | h
          · exact Or.inl (Or.inl h)
          · rcases ih ys with h1 | h1
            · exact Or.inl (Or.inr ⟨h, h1⟩)
            · exact Or.inr (Or.inr ⟨h.symm, h1⟩)
          · exact Or.inr (Or.inl h)

theorem padLex_trans_nil_left :
    ∀ (ys zs : List Int), padLex [] ys → padLex ys zs → padLex [] zs := by
  intro ys
  induction ys with
  | nil => intro zs _ h2; exact h2
  | cons y ys ih =>
      intro zs h1 h2
      cases zs with
      | nil => exact padLex_nil_nil
      | cons z zs =>
          rw [padLex_nil_cons] at h1 ⊢
          rw [padLex_cons_cons] at h2
          rcases h1 with h1 | ⟨h1, h1'⟩ <;> rcases h2 with h2 | ⟨h2, h2'⟩
          · exact Or.inl (by omega)
          · exact Or.inl (by omega)
          · exact Or.inl (by omega)
          · exact Or.inr ⟨by omega, ih zs h1' h2'⟩

theorem padLex_trans_nil_right :
    ∀ (xs ys : List Int), padLex xs ys → padLex ys [] → padLex xs [] := by
  intro xs
  induction xs with
  | nil => intro ys _ _; exact padLex_nil_nil
  | cons x xs ih =>
      intro ys h1 h2
      cases ys with
      | nil => exact h1
      | cons y ys =>
          rw [padLex_cons_cons] at h1
          rw [padLex_cons_nil] at h2 ⊢
          rcases h1 with h1 | ⟨h1, h1'⟩ <;> rcases h2 with h2 | ⟨h2, h2'⟩
          · exact Or.inl (by omega)
          · exact Or.inl (by omega)
          · exact Or.inl (by omega)
          · exact Or.inr ⟨by omega, ih ys h1' h2'⟩

theorem padLex_trans_nil_mid :
    ∀ (xs zs : List Int), padLex xs [] → padLex [] zs → padLex xs zs := by
  intro xs
  induction xs with
  | nil => intro zs _ h2; exact h2
  | cons x xs ih =>
      intro zs h1 h2
      cases zs with
      | nil => exact h1
      | cons z zs =>
          rw [padLex_cons_nil] at h1
          rw [padLex_nil_cons] at h2
          rw [padLex_cons_cons]
          rcases h1 with h1 | ⟨h1, h1'⟩ <;> rcases h2 with h2 | ⟨h2, h2'⟩
          · exact Or.inl (by omega)
          · exact Or.inl (by omega)
          · exact Or.inl (by omega)
          · exact Or.inr ⟨by omega, ih zs h1' h2'⟩

theorem padLex_trans :
    ∀ (xs ys zs : List Int), padLex xs ys → padLex ys zs → padLex xs zs := by
  intro xs
  induction xs with
  | nil => exact fun ys zs h1 h2 => padLex_trans_nil_left ys zs h1 h2
  | cons x xs ih =>
      intro ys zs h1 h2
      cases ys with
      | nil => exact padLex_trans_nil_mid (x :: xs) zs h1 h2
      | cons y ys =>
          cases zs with
          | nil => exact padLex_trans_nil_right (x :: xs) (y :: ys) h1 h2
          | cons z zs =>
              rw [padLex_cons_cons] at h1 ⊢
              rw [padLex_cons_cons] at h2
              rcases h1 with h1 | ⟨h1, h1'⟩ <;> rcases h2 with h2 | ⟨h2, h2'⟩
              · exact Or.inl (by omega)
              · exact Or.inl (by omega)
              · exact Or.inl (by omega)
              · exact Or.inr ⟨by omega, ih ys zs h1' h2'⟩

theorem cmpParts_nil_left (bs : List (Option Int)) : cmpParts [] bs = cmpNilL bs := by
  cases bs <;> rfl

theorem cmpParts_nil_right (as : List (Option Int)) : cmpParts as [] = cmpNilR as := by
  cases as with
  | nil => rfl
  | cons a t => rcases a with _ | x <;> rfl

theorem cmpParts_nil_nil : cmpParts [] [] = 0 := by
  rfl

theorem partsMap_cons (y : Int) (bs : List (Option Int)) :
    (some y :: bs).map (fun c => match c with | some v => v | none => 0)
      = y :: bs.map (fun c => match c with | some v => v | none => 0) := rfl

theorem cmpParts_some_some (x y : Int) (as bs : List (Option Int)) :
    cmpParts (some x :: as) (some y :: bs)
      = if x ≠ y then x - y else cmpParts as bs := by
  rfl

theorem cmpParts_some_nil (x : Int) (as : List (Option Int)) :
    cmpParts (some x :: as) [] = if x ≠ 0 then x else cmpParts as [] := by
  rw [cmpParts_nil_right, cmpParts_nil_right]
  rfl

theorem cmpParts_nil_some (y : Int) (bs : List (Option Int)) :
    cmpParts [] (some y :: bs) = if y ≠ 0 then -y else cmpParts [] bs := by
  rw [cmpParts_nil_left, cmpParts_nil_left]
  rfl

theorem cmpParts_le_iff_padLex :
    ∀ (N : Nat) (as bs : List (Option Int)), as.length + bs.length ≤ N →
      (∀ c ∈ as, c.isSome = true) → (∀ c ∈ bs, c.isSome = true) →
      (cmpParts as bs ≤ 0 ↔
        padLex (as.map (fun c => match c with | some v => v | none => 0))
          (bs.map (fun c => match c with | some v => v | none => 0))) := by
  intro N
  induction N with
  | zero =>
      intro as bs hlen ha hb
      have h1 : as = [] := by
        cases as with
        | nil => rfl
        | cons _ _ => simp at hlen
      have h2 : bs = [] := by
        cases bs with
        | nil => rfl
        | cons _ _ => simp at hlen
      subst h1
      subst h2
      rw [cmpParts_nil_nil]
      simp [padLex_nil_nil]
  | succ N ih =>
      intro as bs hlen ha hb
      cases as with
      | nil =>
          cases bs with
          | nil =>
              rw [cmpParts_nil_nil]
              simp [padLex_nil_nil]
          | cons b bs =>
              obtain ⟨y, hy⟩ := Option.isSome_iff_exists.mp
                (hb b (List.mem_cons_self _ _))
              subst hy
              rw [cmpParts_nil_some, List.map_nil, partsMap_cons, padLex_nil_cons]
              by_cases hy0 : y ≠ 0
              · rw [if_pos hy0]
                constructor
                · intro h
                  exact Or.inl (by omega)
                · rintro (h | ⟨h, _⟩)
                  · omega
                  · omega
              · rw [if_neg hy0]
                push_neg at hy0
                have := ih [] bs (by simp at hlen ⊢; omega) (by simp)
                  (fun c hc => hb c (List.mem_cons_of_mem _ hc))
                rw [List.map_nil] at this
                constructor
                · intro h
                  exact Or.inr ⟨by omega, this.mp h⟩
                · rintro (h | ⟨_, h⟩)
                  · omega
                  · exact this.mpr h
      | cons a as =>
          obtain ⟨x, hx⟩ := Option.isSome_iff_exists.mp
            (ha a (List.mem_cons_self _ _))
          subst hx
          cases bs with
          | nil =>
              rw [cmpParts_some_nil, partsMap_cons, List.map_nil, padLex_cons_nil]
              by_cases hx0 : x ≠ 0
              · rw [if_pos hx0]
                constructor
                · intro h
                  exact Or.inl (by omega)
                · rintro (h | ⟨h, _⟩)
                  · omega
                  · omega
              · rw [if_neg hx0]
                push_neg at hx0
                have := ih as [] (by simp at hlen ⊢; omega)
                  (fun c hc => ha c (List.mem_cons_of_mem _ hc)) (by simp)
                rw [List.map_nil] at this
                constructor
                · intro h
                  exact Or.inr ⟨by omega, this.mp h⟩
                · rintro (h | ⟨_, h⟩)
                  · omega
                  · exact this.mpr h
          | cons b bs =>
              obtain ⟨y, hy⟩ := Option.isSome_iff_exists.mp
                (hb b (List.mem_cons_self _ _))
              subst hy
              rw [cmpParts_some_some, partsMap_cons, partsMap_cons, padLex_cons_cons]
              by_cases hxy : x ≠ y
              · rw [if_pos hxy]
                constructor
                · intro h
                  exact Or.inl (by omega)
                · rintro (h | ⟨h, _⟩)
                  · omega
                  · omega
              · rw [if_neg hxy]
                push_neg at hxy
                have := ih as bs (by simp at hlen ⊢; omega)
                  (fun c hc => ha c (List.mem_cons_of_mem _ hc))
                  (fun c hc => hb c (List.mem_cons_of_mem _ hc))
                constructor
                · intro h
                  exact Or.inr ⟨hxy, this.mp h⟩
                · rintro (h | ⟨_, h⟩)
                  · omega
                  · exact this.mpr h

theorem chainCmp_le_iff_padLex {a b : String}
    (ha : ∀ c ∈ chainParts a, c.isSome = true)
    (hb : ∀ c ∈ chainParts b, c.isSome = true) :
    (chainCmp a b ≤ 0) ↔ padLex (partsVal a) (partsVal b) := by
  unfold chainCmp partsVal
  exact cmpParts_le_iff_padLex ((chainParts a).length + (chainParts b).length)
    (chainParts a) (chainParts b) (le_refl _) ha hb


theorem prefix_query_master (t : USBTree) (pfx : String)
    (hP : ∀ d ∈ mvals t.allDevices, NumericChain d.portChain) :
    List.Perm ( getDevicesByPortChainPrefix t pfx)
      ((mvals t.allDevices).filter (matchesPfx pfx)) ∧
    List.Pairwise (fun a b => padLex (partsVal a.portChain) (partsVal b.portChain))
      ( getDevicesByPortChainPrefix t pfx) := by
  constructor
  · exact sortByLe_perm _ _
  · have hpw := sortByLe_pairwise chainLe (fun d => NumericChain d.portChain)
      ((mvals t.allDevices).filter (matchesPfx pfx))
      (fun d hd => hP d (List.mem_filter.mp hd).1)
      (fun a b hpa hpb => by
        unfold chainLe
        rcases padLex_total (partsVal a.portChain) (partsVal b.portChain) with h | h
        · exact Or.inl (by
            simp only [decide_eq_true_iff]
            exact (chainCmp_le_iff_padLex hpa hpb).mpr h)
        · exact Or.inr (by
            simp only [decide_eq_true_iff]
            exact (chainCmp_le_iff_padLex hpb hpa).mpr h))
      (fun a b c hpa hpb hpc hab hbc => by
        unfold chainLe at *
        simp only [decide_eq_true_iff] at *
        exact (chainCmp_le_iff_padLex hpa hpc).mpr
          (padLex_trans _ _ _
            ((chainCmp_le_iff_padLex hpa hpb).mp hab)
            ((chainCmp_le_iff_padLex hpb hpc).mp hbc)))
    apply hpw.imp_of_mem
    intro a b ha hb hab
    have hpa := hP a ((List.mem_filter.mp ((mem_sortByLe _ _ _).mp ha)).1)
    have hpb := hP b ((List.mem_filter.mp ((mem_sortByLe _ _ _).mp hb)).1)
    unfold chainLe at hab
    simp only [decide_eq_true_iff] at hab
    exact (chainCmp_le_iff_padLex hpa hpb).mp hab

theorem filter_chain_unique :
    ∀ {l : List USBDevice}, ((l.map (fun d => d.portChain)).Nodup) →
    ∀ {X : String} {d : USBDevice}, d ∈ l → d.portChain = X →
    l.filter (fun dv => dv.portChain == X) = [d] := by
  intro l
  induction l with
  | nil => intro _ X d hd; simp at hd
  | cons a rest ih =>
      intro hnd X d hd hdX
      rw [List.map_cons, List.nodup_cons] at hnd
      rcases List.mem_cons.mp hd with had | hdr
      · subst had
        rw [List.filter_cons, if_pos (by simpa using hdX)]
        have hrest : rest.filter (fun dv => dv.portChain == X) = [] := by
          apply List.filter_eq_nil_iff.mpr
          intro e he hec
          have heX : e.portChain = X := by simpa using hec
          exact hnd.1 (by
            rw [hdX, ← heX]
            exact List.mem_map.mpr ⟨e, he, rfl⟩)
        rw [hrest]
      · have haX : ¬(a.portChain == X) = true := by
          intro hc
          have haX2 : a.portChain = X := by simpa using hc
          exact hnd.1 (by
            rw [haX2, ← hdX]
            exact List.mem_map.mpr ⟨d, hdr, rfl⟩)
        rw [List.filter_cons, if_neg haX]
        exact ih hnd.2 hdr hdX

theorem exact_in_prefix_filter (t : USBTree)
    (hnd : ((mvals t.allDevices).map (fun d => d.portChain)).Nodup)
    {X : String} {d : USBDevice}
    (hfind : getDeviceByPortChain t X = some d) :
    ( getDevicesByPortChainPrefix t X).filter (fun dv => dv.portChain == X)
      = [d] := by
  have hdm : d ∈ mvals t.allDevices := List.mem_of_find?_eq_some hfind
  have hdX : d.portChain = X := by
    have := List.find?_some hfind
    simpa using this
  have hperm : List.Perm
      (( getDevicesByPortChainPrefix t X).filter (fun dv => dv.portChain == X))
      (((mvals t.allDevices).filter (matchesPfx X)).filter
        (fun dv => dv.portChain == X)) :=
    (sortByLe_perm _ _).filter _
  have hff : ((mvals t.allDevices).filter (matchesPfx X)).filter
        (fun dv => dv.portChain == X)
      = (mvals t.allDevices).filter (fun dv => dv.portChain == X) := by
    rw [List.filter_filter]
    apply List.filter_congr
    intro dv _
    cases hc : (dv.portChain == X) with
    | false => rfl
    | true =>
        have : matchesPfx X dv = true := by
          unfold matchesPfx
          rw [hc]
          rfl
        rw [this]
        rfl
  rw [hff, filter_chain_unique hnd hdm hdX] at hperm
  exact List.perm_singleton.mp hperm

theorem synthUpd_children_mem {M : DevMap} {d : USBDevice} {k : String}
    (h : k ∈ (synthUpd M d).children) :
    k ∈ d.children ∨ (d.comPorts.length > 1 ∧ k ∈ synthKeysOf d) := by
  unfold synthUpd at h
  by_cases hlen : d.comPorts.length > 1
  · rw [if_pos hlen] at h
    have hm : k ∈ d.children ++ synthKeysOf d :=
      ((sortByLe_perm (childLe (synthAug M)) (d.children ++ synthKeysOf d)).mem_iff).mp h
    rcases List.mem_append.mp hm with h1 | h1
    · exact Or.inl h1
    · exact Or.inr ⟨hlen, h1⟩
  · rw [if_neg hlen] at h
    exact Or.inl h

theorem synthEntries_children {M : DevMap} :
    ∀ kv ∈ synthEntries M, kv.2.children = [] := by
  intro kv hkv
  rw [synthEntries_eq_flatMap] at hkv
  obtain ⟨kv0, _, hin⟩ := List.mem_flatMap.mp hkv
  unfold entriesOf at hin
  by_cases hlen : kv0.2.comPorts.length > 1
  · rw [if_pos hlen] at hin
    obtain ⟨ci, _, heq⟩ := List.mem_map.mp hin
    rw [← heq]
    rfl
  · rw [if_neg hlen] at hin
    simp at hin

theorem logMsgOf_orphan {m : DevMap} {c : String} {dev : USBDevice} {p : String}
    (h : mget m c = some dev) (hpp : dev.parentPath = some p) (hpne : p ≠ "")
    (habs : mget m p.upper = none) :
    logMsgOf m c
      = ["Orphan device: " ++ dev.instancePath ++ " (Parent: " ++ p ++ ")"] := by
  unfold logMsgOf
  simp only [h, hpp, habs]
  rw [if_neg hpne]
  rfl

theorem orphan_logged_excluded (devs : DevMap) (cps : List (String × ComPortSrc))
    (hWF : WFinput devs cps) {k : String} {d0 : USBDevice} {p : String}
    (hq : mget devs k = some d0) (hp : d0.parentPath = some p)
    (hpne : p ≠ "") (habs : p.upper ∉ mkeys devs) :
    ("Orphan device: " ++ d0.instancePath ++ " (Parent: " ++ p ++ ")")
      ∈ (buildUSBTree devs cps).logs ∧
    ∀ kv ∈ (buildUSBTree devs cps).tree.allDevices, k ∉ kv.2.children := by
  have hkdevs : k ∈ mkeys devs := (mget_isSome_iff _ _).mp (by rw [hq]; rfl)
  constructor
  · have hlogs : (buildUSBTree devs cps).logs
        = (mkeys (comSortedMap devs cps)).flatMap (logMsgOf (comSortedMap devs cps)) := by
      show (linkedPair devs cps).2 = _
      exact linkedPair_logs devs cps
    rw [hlogs]
    have hk2 : mget (comSortedMap devs cps) k
        = some (sortComPortsDev
            { d0 with comPorts := d0.comPorts ++ assignedComs cps k }) := by
      rw [comSortedMap_mget_closed, hq, Option.map_some']
    have habs2 : mget (comSortedMap devs cps) p.upper = none := by
      rw [mget_eq_none_iff, mkeys_comSortedMap]
      exact habs
    have hmsg := logMsgOf_orphan hk2 (show _ = some p from hp) hpne habs2
    apply List.mem_flatMap.mpr
    refine ⟨k, ?_, ?_⟩
    · rw [mkeys_comSortedMap]
      exact hkdevs
    · rw [hmsg]
      exact List.mem_singleton.mpr rfl
  · have halld : (buildUSBTree devs cps).tree.allDevices
        = synthSpecMap (chainedMap devs cps) := by
      show (synthPair devs cps).1 = _
      rw [synthPair_closed devs cps hWF]
    have hInv := linkInv_childSorted devs cps hWF.1
    have hndM := chainedMap_nodup devs cps hWF.1
    have hss := (chainedMap_master devs cps hWF.1).1
    have hkM : k ∈ mkeys (chainedMap devs cps) := by
      rw [mkeys_chainedMap devs cps hWF.1, mkeys_childSortedMap]
      exact hkdevs
    have hcv := childSorted_value devs cps hWF.1 hq
    obtain ⟨dC, hmC, hppC⟩ : ∃ dC, mget (childSortedMap devs cps) k = some dC ∧
        dC.parentPath = d0.parentPath := ⟨_, hcv, rfl⟩
    have hres0 : resolvesParent devs d0 = false := by
      simp [resolvesParent, hp, (mget_eq_none_iff devs p.upper).mpr habs]
    have hresC : resolvesParent (childSortedMap devs cps) dC = false := by
      rw [resolvesParent_congr hppC,
        resolvesParent_keys_eq (mkeys_childSortedMap devs cps) d0]
      exact hres0
    intro kv hkv hmem
    rw [halld] at hkv
    unfold synthSpecMap at hkv
    rcases List.mem_append.mp hkv with hkv1 | hkv2
    · obtain ⟨kv0, hkv0, heq⟩ := List.mem_map.mp hkv1
      have h2 : kv.2 = synthUpd (chainedMap devs cps) kv0.2 := by rw [← heq]
      rw [h2] at hmem
      have hgM : mget (chainedMap devs cps) kv0.1 = some kv0.2 :=
        mget_of_mem_nodup hndM hkv0
      rcases synthUpd_children_mem hmem with hold | ⟨hmulti, hsyn⟩
      · have hk1C : kv0.1 ∈ mkeys (childSortedMap devs cps) := by
          rw [← mkeys_chainedMap devs cps hWF.1]
          exact List.mem_map.mpr ⟨kv0, hkv0, rfl⟩
        obtain ⟨dC0, hdC0⟩ := Option.isSome_iff_exists.mp ((mget_isSome_iff _ _).mpr hk1C)
        have hshape := hss.2 kv0.1
        rw [hdC0, hgM] at hshape
        have hch : kv0.2.children = dC0.children := (sameShape_fields hshape).2.2.2.2.2.1
        rw [hch] at hold
        obtain ⟨cdev, hcd, hres, _⟩ := hInv.2.1 (kv0.1, dC0) (mem_of_mget hdC0) k hold
        rw [hmC] at hcd
        have hce : cdev = dC := (Option.some.inj hcd).symm
        rw [hce, hresC] at hres
        exact Bool.noConfusion hres
      · have hkid : k ∈ synthKidsOf (chainedMap devs cps) kv0.1 := by
          unfold synthKidsOf
          simp only [hgM]
          rw [if_pos hmulti]
          exact hsyn
        exact synthKids_not_key hWF.2.2 hkid hkM
    · have hnilc := synthEntries_children kv hkv2
      rw [hnilc] at hmem
      simp at hmem

/-! The claims. -/

/-- Claim C1, amended: completeness of the parent references alone does not
prevent device loss (see the counterexample); the zero-loss guarantee holds
once, in addition, every parent chain terminates and every parentless device
qualifies as a declared root.  Then the assembled tree contains every input
device exactly once. -/
theorem claim_C1 (devs : DevMap) (cps : List (String × ComPortSrc))
    (hWF : WFinput devs cps) (hRQ : RootsQualified devs)
    (hAC : AcyclicParents devs) :
    ∀ k ∈ mkeys devs, (treeNodeKeys (buildUSBTree devs cps).tree).count k = 1 := by
  intro k hk
  obtain ⟨r, hr, hdesc⟩ := reach_of_wf devs cps hWF hRQ hAC k hk
  have hmem := ((treeNodeKeys_master devs cps hWF).1 k).mpr ⟨r, hr, Or.inl hdesc⟩
  exact List.count_eq_one_of_mem (treeNodeKeys_master devs cps hWF).2 hmem

/-- Claim C1, counterexample: `cycleDevs` has every declared parent present
in the collection (complete input), yet the device `USB\A` of its parent
cycle never appears in the assembled tree. -/
theorem claim_C1_counterexample :
    CompleteInput cycleDevs ∧ "USB\\A" ∈ mkeys cycleDevs ∧
    "USB\\A" ∉ treeNodeKeys (buildUSBTree cycleDevs []).tree := by
  decide

/-- Claim C1, witness: the amended theorem applied to scenario 1. -/
theorem claim_C1_witness :
    (treeNodeKeys (buildUSBTree exDevs exCom).tree).count "USB\\DEV3" = 1 :=
  claim_C1 exDevs exCom (by decide) (by decide) (by decide) "USB\\DEV3" (by decide)

/-- Claim C2, amended: two declared roots both receive the chain "1", so
global chain uniqueness needs a single declared root; with one root and
duplicate-free sibling port numbers in the final map, the chain determines
the node. -/
theorem claim_C2 (devs : DevMap) (cps : List (String × ComPortSrc))
    (hWF : WFinput devs cps) {r : String}
    (hroots : rootKeys (childSortedMap devs cps) = [r])
    (hDCP : ∀ kv ∈ synthSpecMap (chainedMap devs cps),
      ((kv.2.children).map (portOfKey (synthSpecMap (chainedMap devs cps)))).Nodup) :
    ∀ x ∈ treeNodeKeys (buildUSBTree devs cps).tree,
    ∀ y ∈ treeNodeKeys (buildUSBTree devs cps).tree,
      chainOfKey (buildUSBTree devs cps).tree.allDevices x
        = chainOfKey (buildUSBTree devs cps).tree.allDevices y →
      x = y :=
  chains_distinct devs cps hWF hroots hDCP

/-- Claim C2, counterexample: with two host controllers both roots carry
the chain "1" — two distinct nodes of one assembled tree share a
`portChain`. -/
theorem claim_C2_counterexample :
    "USB\\R1" ∈ treeNodeKeys (buildUSBTree twoRootsDevs []).tree ∧
    "USB\\R2" ∈ treeNodeKeys (buildUSBTree twoRootsDevs []).tree ∧
    chainOfKey (buildUSBTree twoRootsDevs []).tree.allDevices "USB\\R1"
      = chainOfKey (buildUSBTree twoRootsDevs []).tree.allDevices "USB\\R2" ∧
    ("USB\\R1" : String) ≠ "USB\\R2" := by
  decide

/-- Claim C2, witness: the amended theorem applied to scenario 1, which has
a single declared root and distinct sibling ports. -/
theorem claim_C2_witness :
    rootKeys (childSortedMap exDevs exCom) = ["USB\\ROOT"] ∧
    ("USB\\DEV3" : String) = "USB\\DEV3" :=
  ⟨by decide,
   claim_C2 exDevs exCom (by decide)
     (show rootKeys (childSortedMap exDevs exCom) = ["USB\\ROOT"] by decide)
     (by decide) "USB\\DEV3" (by decide) "USB\\DEV3" (by decide) rfl⟩

/-- Claim C3, amended: the code attempts no re-fetch whatsoever.  A device
whose declared parent path is non-empty and absent from the collection is
demoted to orphan immediately: the diagnostic is logged and the device ends
up in no children list of the assembled map. -/
theorem claim_C3 (devs : DevMap) (cps : List (String × ComPortSrc))
    (hWF : WFinput devs cps) {k : String} {d0 : USBDevice} {p : String}
    (hq : mget devs k = some d0) (hp : d0.parentPath = some p)
    (hpne : p ≠ "") (habs : p.upper ∉ mkeys devs) :
    ("Orphan device: " ++ d0.instancePath ++ " (Parent: " ++ p ++ ")")
      ∈ (buildUSBTree devs cps).logs ∧
    ∀ kv ∈ (buildUSBTree devs cps).tree.allDevices, k ∉ kv.2.children :=
  orphan_logged_excluded devs cps hWF hq hp hpne habs

/-- Claim C3, counterexample: on `refetchDevs` the spec-modelled linking
with the safety-net re-fetch recovers `USB\D` under the hub and logs no
orphan, while the code's linking leaves the hub childless and logs the
orphan diagnostic. -/
theorem claim_C3_counterexample :
    childrenOfKey (linkChildrenRefetch refetchOracle
        (comSortedMap refetchDevs [])).1 "USB\\H" = ["USB\\D"] ∧
    (linkChildrenRefetch refetchOracle (comSortedMap refetchDevs [])).2
      = ["No parent: USB\\H"] ∧
    childrenOfKey (linkedPair refetchDevs []).1 "USB\\H" = [] ∧
    (linkedPair refetchDevs []).2
      = ["No parent: USB\\H", "Orphan device: USB\\D (Parent: USB\\MISSING)"] := by
  decide

/-- Claim C3, witness: the amended theorem applied to `refetchDevs` run
through the real pipeline. -/
theorem claim_C3_witness :
    ("Orphan device: USB\\D (Parent: USB\\MISSING)")
      ∈ (buildUSBTree refetchDevs []).logs := by
  have h := claim_C3 refetchDevs [] (by decide)
    (show mget refetchDevs "USB\\D"
        = some (mkDev "USB\\D" "10C4" "EA60" (some "USB\\MISSING") 3 false) from rfl)
    rfl (by decide) (by decide)
  exact h.1

/-- Claim C4, amended: a parent cycle does not abort the assembly and
surfaces no error.  The pass returns normally; the cycle members simply
remain in `allDevices` with their port chain untouched and are absent from
the assembled tree (the recursion never reaches them, so no revisit ever
happens). -/
theorem claim_C4 (devs : DevMap) (cps : List (String × ComPortSrc))
    (hWF : WFinput devs cps) {k : String} {d0 : USBDevice}
    (hq : mget devs k = some d0)
    (hcyc : rootDist devs (devs.length + 1) k = none) :
    ∃ df, mget (buildUSBTree devs cps).tree.allDevices k = some df ∧
      df.portChain = d0.portChain ∧
      k ∉ treeNodeKeys (buildUSBTree devs cps).tree :=
  unreachable_final devs cps hWF hq (cycle_unreachable devs cps hWF.1 hcyc)

/-- Claim C4, counterexample: on the cyclic input `cycleDevs` the build
returns a perfectly ordinary result — the root is assembled, the only
diagnostic is the root's routine "No parent" note, and the cycle members
stay in the map with an empty chain; nothing fails and no error is
surfaced. -/
theorem claim_C4_counterexample :
    (buildUSBTree cycleDevs []).logs = ["No parent: USB\\R"] ∧
    (buildUSBTree cycleDevs []).tree.rootHubs = ["USB\\R"] ∧
    (mget (buildUSBTree cycleDevs []).tree.allDevices "USB\\B").isSome = true ∧
    chainOfKey (buildUSBTree cycleDevs []).tree.allDevices "USB\\B" = "" := by
  decide

/-- Claim C4, witness: the amended theorem applied to the cycle member
`USB\A` of `cycleDevs`. -/
theorem claim_C4_witness :
    "USB\\A" ∉ treeNodeKeys (buildUSBTree cycleDevs []).tree := by
  obtain ⟨df, hm, hpc, hnot⟩ := claim_C4 cycleDevs [] (by decide)
    (show mget cycleDevs "USB\\A"
        = some (mkDev "USB\\A" "1111" "2222" (some "USB\\B") 1 false) from rfl)
    (by decide)
  exact hnot

/-- Claim C5 (confirmed): a device entering synthesis with more than one
COM channel ends with an empty channel list, one synthetic leaf child per
channel (its `portNumber` the channel index, or the 1-based position when
the index is absent — `channelOf`), and its children re-sorted by port
number; a single-channel device is left untouched and produces no synthetic
child. -/
theorem claim_C5 (devs : DevMap) (cps : List (String × ComPortSrc))
    (hWF : WFinput devs cps) :
    ∀ k d, mget (chainedMap devs cps) k = some d →
      (d.comPorts.length > 1 →
        mget (buildUSBTree devs cps).tree.allDevices k
            = some (synthUpd (chainedMap devs cps) d) ∧
        (synthUpd (chainedMap devs cps) d).comPorts = [] ∧
        List.Perm (synthUpd (chainedMap devs cps) d).children
          (d.children ++ synthKeysOf d) ∧
        (∀ ci ∈ d.comPorts,
          mget (buildUSBTree devs cps).tree.allDevices
              (d.instancePath ++ "#" ++ ci.port)
            = some (synthChild d ci)) ∧
        List.Pairwise (fun a b =>
            portOfKey (buildUSBTree devs cps).tree.allDevices a
              ≤ portOfKey (buildUSBTree devs cps).tree.allDevices b)
          (synthUpd (chainedMap devs cps) d).children) ∧
      (¬d.comPorts.length > 1 →
        mget (buildUSBTree devs cps).tree.allDevices k = some d ∧
        synthKidsOf (chainedMap devs cps) k = []) :=
  multiport_synthesis devs cps hWF

/-- Claim C5, witness: the dual-channel bridge of scenario 1 ends with no
COM ports attached to itself. -/
theorem claim_C5_witness :
    comPortsOfKey (buildUSBTree exDevs exCom).tree.allDevices "USB\\BRIDGE" = [] := by
  have h := (claim_C5 exDevs exCom (by decide) "USB\\BRIDGE" _ rfl).1 (by decide)
  unfold comPortsOfKey
  rw [h.1]
  exact h.2.1

/-- Claim C6 (confirmed): every node of the assembled tree passes its chain
down edge by edge — a child's `portChain` is its parent's chain, a hyphen,
and the child's `portNumber`.  This covers the synthetic channel children
as well. -/
theorem claim_C6 (devs : DevMap) (cps : List (String × ComPortSrc))
    (hWF : WFinput devs cps) :
    ∀ p ∈ treeNodeKeys (buildUSBTree devs cps).tree,
    ∀ c ∈ childrenOfKey (buildUSBTree devs cps).tree.allDevices p,
      chainOfKey (buildUSBTree devs cps).tree.allDevices c
        = chainOfKey (buildUSBTree devs cps).tree.allDevices p ++ "-"
          ++ Nat.repr (portOfKey (buildUSBTree devs cps).tree.allDevices c) :=
  edge_chain_law devs cps hWF

/-- Claim C6, witness: the hub of scenario 1 extends the root's chain. -/
theorem claim_C6_witness :
    chainOfKey (buildUSBTree exDevs exCom).tree.allDevices "USB\\HUB1"
      = chainOfKey (buildUSBTree exDevs exCom).tree.allDevices "USB\\ROOT" ++ "-"
        ++ Nat.repr (portOfKey (buildUSBTree exDevs exCom).tree.allDevices "USB\\HUB1") :=
  claim_C6 exDevs exCom (by decide) "USB\\ROOT" (by decide) "USB\\HUB1" (by decide)

/-- Claim C7, amended: the prefix query returns exactly the matching nodes
(chain equal to the prefix or an extension of it), but its order is the
padded component-wise comparison — a missing component is read as `0`, so a
shorter chain ties with, not precedes, a longer chain padded by zeros; the
stable sort then keeps map order among such ties (see the
counterexample). -/
theorem claim_C7 (t : USBTree) (pfx : String)
    (hP : ∀ d ∈ mvals t.allDevices, NumericChain d.portChain) :
    List.Perm ( getDevicesByPortChainPrefix t pfx)
      ((mvals t.allDevices).filter (matchesPfx pfx)) ∧
    List.Pairwise (fun a b => padLex (partsVal a.portChain) (partsVal b.portChain))
      ( getDevicesByPortChainPrefix t pfx) :=
  prefix_query_master t pfx hP

/-- Claim C7, counterexample: on `tieDevs` the query for prefix "1" returns
the chains `["1-0", "1"]` — the longer chain `1-0` pads to a tie with `1`
and map order wins, where the claimed order puts the shorter chain strictly
first. -/
theorem claim_C7_counterexample :
    (( getDevicesByPortChainPrefix (buildUSBTree tieDevs []).tree "1").map
      (fun d => d.portChain)) = ["1-0", "1"] ∧
    shortLexB (partsVal "1-0") (partsVal "1") = false := by
  decide

/-- Claim C7, witness: the amended theorem applied to scenario 1 and prefix
"1". -/
theorem claim_C7_witness :
    List.Perm ( getDevicesByPortChainPrefix (buildUSBTree exDevs exCom).tree "1")
      ((mvals (buildUSBTree exDevs exCom).tree.allDevices).filter (matchesPfx "1")) :=
  (claim_C7 (buildUSBTree exDevs exCom).tree "1" (by decide)).1

/-- Claim C8, amended: filtering the prefix query's result to the exact
chain recovers the exact lookup's singleton — provided no two devices of
the map share a chain; duplicate chains (possible, see the counterexample)
break the correspondence because the exact lookup returns only the first
match. -/
theorem claim_C8 (t : USBTree)
    (hnd : ((mvals t.allDevices).map (fun d => d.portChain)).Nodup)
    (X : String) (hfind : (getDeviceByPortChain t X).isSome = true) :
    ( getDevicesByPortChainPrefix t X).filter (fun dv => dv.portChain == X)
      = (getDeviceByPortChain t X).toList := by
  obtain ⟨d, hd⟩ := Option.isSome_iff_exists.mp hfind
  rw [hd]
  show _ = [d]
  exact exact_in_prefix_filter t hnd hd

/-- Claim C8, counterexample: with two roots sharing the chain "1" the
exact lookup finds one device but the filtered prefix query keeps both. -/
theorem claim_C8_counterexample :
    (getDeviceByPortChain (buildUSBTree twoRootsDevs []).tree "1").isSome = true ∧
    (( getDevicesByPortChainPrefix (buildUSBTree twoRootsDevs []).tree "1").filter
      (fun dv => dv.portChain == "1")).length = 2 := by
  decide

/-- Claim C8, witness: the amended theorem applied to scenario 1 at the
hub's chain. -/
theorem claim_C8_witness :
    ( getDevicesByPortChainPrefix (buildUSBTree exDevs exCom).tree "1-1").filter
        (fun dv => dv.portChain == "1-1")
      = (getDeviceByPortChain (buildUSBTree exDevs exCom).tree "1-1").toList :=
  claim_C8 (buildUSBTree exDevs exCom).tree (by decide) "1-1" (by decide)

/-- Claim C9, amended: after assembly every `comPortMap` entry points at a
device carrying exactly that one COM port (multi-port parents' entries have
been repointed at their synthetic children), and consequently the
multi-port chain-extension branch of `getComPortList` never fires — each
row's chain is the device's own chain.  The claim's further "leaf device"
reading is dropped: the referenced device can have children (see the
counterexample). -/
theorem claim_C9 (devs : DevMap) (cps : List (String × ComPortSrc))
    (hWF : WFinput devs cps) :
    (∀ e ∈ (buildUSBTree devs cps).tree.comPortMap,
      ∃ d, mget (buildUSBTree devs cps).tree.allDevices e.2.1 = some d ∧
        d.comPorts = [e.2.2]) ∧
    getComPortList (buildUSBTree devs cps).tree
      = sortByLe (fun a b => comLe a.port b.port)
          ((buildUSBTree devs cps).tree.comPortMap.filterMap fun e =>
            (mget (buildUSBTree devs cps).tree.allDevices e.2.1).map fun device =>
              { port := e.2.2.port
                vid := device.vid
                pid := device.pid
                serialNumber := device.serialNumber
                deviceName := device.name
                portChain := device.portChain
                kernelName := e.2.2.kernelName
                channel := e.2.2.channel
                role := e.2.2.role }) :=
  ⟨comPortMap_good devs cps hWF, getComPortList_no_extension devs cps hWF⟩

/-- Claim C9, counterexample: a single-COM device with a genuine child —
its `comPortMap` entry references a non-leaf device, refuting the "exactly
one leaf device" reading. -/
theorem claim_C9_counterexample :
    ("COM5", ("USB\\D", (⟨"COM5", "", none, none⟩ : ComPortInfo)))
      ∈ (buildUSBTree hubComDevs hubComCom).tree.comPortMap ∧
    childrenOfKey (buildUSBTree hubComDevs hubComCom).tree.allDevices "USB\\D"
      ≠ [] := by
  decide

/-- Claim C9, witness: the amended theorem applied to the single-COM
fixture — the COM5 entry's device carries exactly that port. -/
theorem claim_C9_witness :
    comPortsOfKey (buildUSBTree hubComDevs hubComCom).tree.allDevices "USB\\D"
      = [(⟨"COM5", "", none, none⟩ : ComPortInfo)] := by
  obtain ⟨d, hm, hc⟩ := (claim_C9 hubComDevs hubComCom (by decide)).1
    ("COM5", ("USB\\D", (⟨"COM5", "", none, none⟩ : ComPortInfo))) (by decide)
  unfold comPortsOfKey
  rw [hm]
  exact hc

/-- Claim C10, amended: a device the linking excludes (declared parent
never resolving while the device does not qualify as a root) stays in
`allDevices` with an empty chain, unreachable from every root; the exact
lookup for "" then returns an empty-chain device.  The claim's last part is
weakened: the prefix query for "" returns the devices whose chain is empty
OR starts with "-" — an excluded multi-port device's synthetic children
carry chains like "-1" and are returned too (see the counterexample). -/
theorem claim_C10 (devs : DevMap) (cps : List (String × ComPortSrc))
    (hWF : WFinput devs cps) {k : String} {d0 : USBDevice}
    (hq : mget devs k = some d0)
    (hres : resolvesParent devs d0 = false)
    (hnq : (d0.isHub || d0.vid == "ROOT") = false) :
    (∃ df, mget (buildUSBTree devs cps).tree.allDevices k = some df ∧
      df.portChain = "" ∧ k ∉ treeNodeKeys (buildUSBTree devs cps).tree) ∧
    (∃ dres, getDeviceByPortChain (buildUSBTree devs cps).tree "" = some dres ∧
      dres.portChain = "") ∧
    (∀ dv ∈ getDevicesByPortChainPrefix (buildUSBTree devs cps).tree "",
      dv.portChain = "" ∨ strStarts "-" dv.portChain = true) := by
  have hnr := orphan_unreachable devs cps hWF.1 hq hres hnq
  obtain ⟨df, hmdf, hpcdf, hnotin⟩ := unreachable_final devs cps hWF hq hnr
  have hd0chain : d0.portChain = "" := (hWF.1.2 (k, d0) (mem_of_mget hq)).2.2.2
  have hdfchain : df.portChain = "" := by rw [hpcdf, hd0chain]
  refine ⟨⟨df, hmdf, hdfchain, hnotin⟩, ?_, ?_⟩
  · have hdfmv : df ∈ mvals (buildUSBTree devs cps).tree.allDevices :=
      List.mem_map.mpr ⟨(k, df), mem_of_mget hmdf, rfl⟩
    have hsome : ((mvals (buildUSBTree devs cps).tree.allDevices).find?
        (fun d => d.portChain == "")).isSome :=
      List.find?_isSome.mpr ⟨df, hdfmv, by rw [hdfchain]; rfl⟩
    obtain ⟨dres, hdres⟩ := Option.isSome_iff_exists.mp hsome
    refine ⟨dres, hdres, ?_⟩
    have hb := List.find?_some hdres
    simpa using hb
  · intro dv hdv
    have hdv2 : dv ∈ sortByLe chainLe
        ((mvals (buildUSBTree devs cps).tree.allDevices).filter (matchesPfx "")) := hdv
    have hmem := ((sortByLe_perm chainLe
      ((mvals (buildUSBTree devs cps).tree.allDevices).filter
        (matchesPfx ""))).mem_iff).mp hdv2
    have hmp : matchesPfx "" dv = true := (List.mem_filter.mp hmem).2
    unfold matchesPfx at hmp
    rcases (Bool.or_eq_true _ _).mp hmp with h1 | h1
    · exact Or.inl (eq_of_beq h1)
    · rw [show ("" ++ "-" : String) = "-" from rfl] at h1
      exact Or.inr h1

/-- Claim C10, counterexample: the orphaned dual-channel bridge keeps the
empty chain, but its synthetic children carry the chains "-1" and "-2" and
the prefix query for "" returns all three — not only the empty-chain
devices. -/
theorem claim_C10_counterexample :
    (( getDevicesByPortChainPrefix (buildUSBTree orphanDevs orphanCom).tree "").map
      (fun d => d.portChain)) = ["", "-1", "-2"] := by
  decide

/-- Claim C10, witness: the amended theorem applied to the orphaned
bridge. -/
theorem claim_C10_witness :
    "USB\\ORP" ∉ treeNodeKeys (buildUSBTree orphanDevs orphanCom).tree := by
  obtain ⟨⟨df, hm, hpc, hnot⟩, _, _⟩ := claim_C10 orphanDevs orphanCom (by decide)
    (show mget orphanDevs "USB\\ORP"
        = some (mkDev "USB\\ORP" "0403" "6010" (some "USB\\MISSING") 4 false) from rfl)
    (by decide) (by decide)
  exact hnot
